import Mathlib

/-!
# PureSpace duplicate-detection engine

A shallow embedding of `backend/internal/services/duplicate_detector.go`
(with the `File` record of `backend/internal/models/models.go`) and the
properties of its four detection strategies, its reconciler and its ranking.

Modelling conventions

* A Go `string` is the list of its bytes (`GoString`); `len` is `List.length`
  and indexing is byte indexing, as in the source.
* `int`, `int64` and `uint` values are mathematical integers (`Int`, `Nat`);
  no arithmetic of the engine is carried out modulo `2^64` here.
* `float64` confidences and similarities are exact rationals (`ℚ`).
* The relational store behind `dd.db` is the interface `MetadataSource`: one
  field for each of the four queries the engine issues, each of which may
  fail.  `tableSource` answers the four queries from a table of `File` rows.
* What the engine takes from the Go standard library and cannot be read from
  the repository is a field of `Lib`: `sort.Slice`, the iteration order of
  `range` over a map, `strings.ToLower`, `strings.TrimSpace`,
  `sha256.Sum256` and the `%.1f` verb.  Theorems hold for every `Lib`, under
  the stated contract where one is needed.
-/

namespace PureSpace

/-! ## Data model -/

/-- A Go string: its bytes. -/
abbrev GoString := List UInt8

/-- The bytes of an ASCII literal of the source. -/
def ascii (s : String) : GoString := s.data.map (fun c => c.toNat.toUInt8)

/-- A `uuid.UUID`, as a number. -/
abbrev UUID := Nat

/-- The record `models.File` (the `User` relationship is not loaded by the engine). -/
structure File where
  ID : Nat
  UserID : UUID
  DeviceID : GoString
  PathTail : GoString
  Mime : GoString
  Size : Int
  SHA256 : GoString
  CreatedAt : Int
  UpdatedAt : Int
deriving DecidableEq, Repr

/-- A Go `error`: one reported by the metadata source, or one wrapped by `fmt.Errorf("...: %w", err)`. -/
inductive GoError where
  | source (msg : GoString)
  | wrapped (context : GoString) (cause : GoError)
deriving DecidableEq, Repr

/-- The type `DetectionStrategy` (`int` in the source), with the non-negative values of its underlying type. -/
abbrev DetectionStrategy := Nat

/-- The constant `StrategyHash` (iota = 0). -/
def StrategyHash : DetectionStrategy := 0

/-- The constant `StrategySize` (iota = 1). -/
def StrategySize : DetectionStrategy := 1

/-- The constant `StrategySizeAndName` (iota = 2). -/
def StrategySizeAndName : DetectionStrategy := 2

/-- The constant `StrategyAdvanced` (iota = 3). -/
def StrategyAdvanced : DetectionStrategy := 3

/-- The struct `DuplicateCandidate`. -/
structure DuplicateCandidate where
  File : PureSpace.File
  Confidence : ℚ
  Reason : GoString
deriving DecidableEq

/-- The struct `DuplicateCluster`. -/
structure DuplicateCluster where
  ID : GoString
  SHA256 : GoString
  Size : Int
  Count : Int
  TotalSize : Int
  Candidates : List DuplicateCandidate
  Strategy : DetectionStrategy
  CreatedAt : GoString
deriving DecidableEq

/-- A row scanned by the grouped query of `detectByHash`. -/
structure HashGroupRow where
  SHA256 : GoString
  Size : Int
  Count : Int
  TotalSize : Int
deriving DecidableEq, Repr

/-- A row scanned by the grouped query of `detectBySize`. -/
structure SizeGroupRow where
  Size : Int
  Count : Int
  TotalSize : Int
deriving DecidableEq, Repr

/-- The four reads the engine makes through `dd.db`, each returning rows or an error. -/
structure MetadataSource where
  /-- `SELECT sha256, size, COUNT(*), SUM(size) ... WHERE user_id = ? AND sha256 != ''
  GROUP BY sha256, size HAVING COUNT(*) > 1 ORDER BY total_size DESC`. -/
  hashGroups : UUID → Except GoError (List HashGroupRow)
  /-- `WHERE user_id = ? AND sha256 = ? ORDER BY created_at ASC`. -/
  filesByHash : UUID → GoString → Except GoError (List File)
  /-- `SELECT size, COUNT(*), SUM(size) ... WHERE user_id = ? AND size > 0
  GROUP BY size HAVING COUNT(*) > 1 ORDER BY total_size DESC`. -/
  sizeGroups : UUID → Except GoError (List SizeGroupRow)
  /-- `WHERE user_id = ? AND size = ? ORDER BY created_at ASC`. -/
  filesBySize : UUID → Int → Except GoError (List File)

/-- The standard-library behaviour the engine relies on. -/
structure Lib where
  /-- `sort.Slice(x, less)`: the slice after the call, for the element comparison `less`. -/
  sortSlice : (DuplicateCluster → DuplicateCluster → Bool) → List DuplicateCluster → List DuplicateCluster
  /-- The order in which one `range` over a map visits the keys, given the keys. -/
  mapOrder : List GoString → List GoString
  /-- `strings.ToLower`. -/
  toLower : GoString → GoString
  /-- `strings.TrimSpace`. -/
  trimSpace : GoString → GoString
  /-- `sha256.Sum256`, as the list of the 32 digest bytes. -/
  sha256Sum : GoString → List UInt8
  /-- The verb `%.1f` applied to a confidence percentage. -/
  formatFloat1 : ℚ → GoString

/-- The requirement Go places on a `less` function: a strict weak ordering. -/
def StrictWeakOrder {α : Type} (less : α → α → Bool) : Prop :=
  (∀ a, less a a = false) ∧
  (∀ a b c, less a b = true → less b c = true → less a c = true) ∧
  (∀ a b c, less a b = false → less b c = false → less a c = false)

/-- The documented contract of `sort.Slice`: the result is a rearrangement of the
input and, for a strict weak ordering, no element is less than one before it. -/
def Lib.SortOK (L : Lib) : Prop :=
  ∀ less xs, (L.sortSlice less xs).Perm xs ∧
    (StrictWeakOrder less → (L.sortSlice less xs).Pairwise (fun a b => less b a = false))

/-- The contract of `range` over a map: every key is visited exactly once. -/
def Lib.MapOrderOK (L : Lib) : Prop :=
  ∀ keys : List GoString, keys.Nodup → (L.mapOrder keys).Perm keys

/-! ## Machine arithmetic -/

/-- The value an `int64` holds after an operation whose exact result is `x`:
two's-complement wrap-around. Go's `int` is taken as 64 bits wide, as on every
64-bit platform. -/
def wrapInt64 (x : Int) : Int := (x + 2 ^ 63) % 2 ^ 64 - 2 ^ 63

/-- The number of halvings that bring `n` below 2, with `fuel` steps at most. -/
def log2Fuel : Nat → Nat → Nat
  | 0, _ => 0
  | fuel + 1, n => if n < 2 then 0 else log2Fuel fuel (n / 2) + 1

/-- The position of the highest set bit of `n`: `2 ^ log2Floor n ≤ n < 2 ^ (log2Floor n + 1)` for `n ≥ 1`. -/
def log2Floor (n : Nat) : Nat := log2Fuel n n

/-- The binade of a positive rational `a`: the exponent `E` with `2 ^ E ≤ a < 2 ^ (E + 1)`. -/
def binade (a : ℚ) : Int :=
  let k : Int := (log2Floor a.num.natAbs : Int) - (log2Floor a.den : Int)
  if (a.num.natAbs : Int) * 2 ^ (-k).toNat ≥ (a.den : Int) * 2 ^ k.toNat then k else k - 1

/-- The power `2 ^ e` for an integer exponent. -/
def pow2 (e : Int) : ℚ :=
  if e ≥ 0 then ((2 ^ e.toNat : Nat) : ℚ) else 1 / ((2 ^ (-e).toNat : Nat) : ℚ)

/-- Rounding to the nearest integer, a tie going to the even one. -/
def roundHalfEven (x : ℚ) : Int :=
  let f := ⌊x⌋
  let r := x - f
  if r < 1 / 2 then f
  else if r > 1 / 2 then f + 1
  else if f % 2 = 0 then f else f + 1

/-- The `float64` nearest to an exact result `x` (IEEE 754 binary64, round to
nearest, ties to even): 53 significant bits, and below `2 ^ -1022` the fixed
spacing `2 ^ -1074` of the subnormal numbers. A finite `float64` is the rational
it denotes; overflow to infinity, which needs a result of `2 ^ 1024` or more,
is not represented. -/
def roundFloat64 (x : ℚ) : ℚ :=
  if x = 0 then 0
  else
    let a := |x|
    let e := max (binade a - 52) (-1074)
    let m := roundHalfEven (a / pow2 e)
    if x < 0 then -((m : ℚ) * pow2 e) else (m : ℚ) * pow2 e

/-! ## Utility functions -/

/-- The three-argument `min` of the source. -/
def min3 (a b c : Nat) : Nat :=
  if a < b ∧ a < c then a
  else if b < c then b
  else c

/-- One row of the matrix of `levenshteinDistance`, after its column 0: `c` is
`s1[i-1]`, the second argument the rest of `s2`, `prev` the row `i-1` from the
column to the left, and `left` the entry `matrix[i][j-1]`. -/
def fillRow (c : UInt8) : List UInt8 → List Nat → Nat → List Nat
  | b :: bs, diag :: up :: rest, left =>
    let cost := if c ≠ b then 1 else 0
    let v := min3 (up + 1) (left + 1) (diag + cost)
    v :: fillRow c bs (up :: rest) v
  | _, _, _ => []

/-- The rows of the matrix of `levenshteinDistance` below row 0: the state is
the index of the last row filled and that row. -/
def levenshteinRows (s1 s2 : GoString) : Nat × List Nat :=
  s1.foldl (fun st c => (st.1 + 1, (st.1 + 1) :: fillRow c s2 st.2 (st.1 + 1)))
    (0, List.range (s2.length + 1))

/-- The function `levenshteinDistance`. -/
def levenshteinDistance (s1 s2 : GoString) : Nat :=
  if s1.length = 0 then s2.length
  else if s2.length = 0 then s1.length
  else (levenshteinRows s1 s2).2.getD s2.length 0

/-- The function `calculateStringSimilarity`, with the quotient and the difference
taken exactly; `calculateStringSimilarity64` rounds them as the code does. -/
def calculateStringSimilarity (s1 s2 : GoString) : ℚ :=
  if s1 = s2 then 1
  else
    let maxLen := if s2.length > s1.length then s2.length else s1.length
    if maxLen = 0 then 1
    else 1 - (levenshteinDistance s1 s2 : ℚ) / (maxLen : ℚ)

/-- The pieces of `strings.Split(s, sep)` for a one-byte separator. -/
def splitByte (sep : UInt8) : GoString → List GoString
  | [] => [[]]
  | c :: cs =>
    if c = sep then [] :: splitByte sep cs
    else
      match splitByte sep cs with
      | [] => [[c]]
      | p :: ps => (c :: p) :: ps

/-- The function `extractFilename`. -/
def extractFilename (path : GoString) : GoString :=
  let parts := splitByte 47 path
  if parts.length = 0 then path
  else parts.getLastD []

/-- The result of `strings.LastIndex(s, sep)` for a one-byte separator; `-1` when absent. -/
def lastIndexByte (sep : UInt8) (s : GoString) : Int :=
  match (s.reverse.indexOf? sep) with
  | none => -1
  | some k => (s.length : Int) - 1 - (k : Int)

/-- The result of `strings.ReplaceAll(s, old, new)` for one-byte `old` and `new`. -/
def replaceByte (old new : UInt8) (s : GoString) : GoString :=
  s.map (fun c => if c = old then new else c)

/-- The function `normalizeFilename`. -/
def normalizeFilename (L : Lib) (filename : GoString) : GoString :=
  let name := L.toLower filename
  let idx := lastIndexByte 46 name
  let name := if idx > 0 then name.take idx.toNat else name
  let name := replaceByte 95 32 name
  let name := replaceByte 45 32 name
  L.trimSpace name

/-- The decimal text of an `int64`, as the verb `%d` prints it. -/
def itoa (n : Int) : GoString :=
  match n with
  | Int.ofNat k => ascii (Nat.repr k)
  | Int.negSucc k => 45 :: ascii (Nat.repr (k + 1))

/-- One hexadecimal digit, lower case. -/
def hexDigit (n : Nat) : UInt8 :=
  if n < 10 then (48 + n).toUInt8 else (87 + n).toUInt8

/-- The verb `%x` applied to a byte slice. -/
def hexEncode (bs : List UInt8) : GoString :=
  bs.flatMap (fun b => [hexDigit (b.toNat / 16), hexDigit (b.toNat % 16)])

/-- The function `generateClusterID`: the first 8 digest bytes, in hexadecimal. -/
def generateClusterID (L : Lib) (input : GoString) : GoString :=
  hexEncode ((L.sha256Sum input).take 8)

/-- The function `calculateSizeConfidence`. -/
def calculateSizeConfidence (size : Int) (count : Int) : ℚ :=
  let baseConfidence : ℚ :=
    if size > 100 * 1024 * 1024 then 8 / 10
    else if size > 10 * 1024 * 1024 then 6 / 10
    else if size > 1024 * 1024 then 4 / 10
    else 3 / 10
  if count > 10 then baseConfidence * (5 / 10)
  else if count > 5 then baseConfidence * (7 / 10)
  else baseConfidence

/-- The function `calculateAverageConfidence`, in `float64` arithmetic: the
running total starts at 0 and takes each confidence in slice order, every
addition rounded, and the division by `float64(len(candidates))` is rounded.
A `Confidence` stands for the `float64` nearest to it. -/
def calculateAverageConfidence (candidates : List DuplicateCandidate) : ℚ :=
  if candidates.length = 0 then 0
  else
    let total := candidates.foldl (fun total candidate =>
      roundFloat64 (total + roundFloat64 candidate.Confidence)) 0
    roundFloat64 (total / roundFloat64 (candidates.length : ℚ))

/-- A Go `map[string][]DuplicateCandidate`: its entries, in the order in which the keys were first set. -/
abbrev NameGroups := List (GoString × List DuplicateCandidate)

/-- The expression `groups[key]`: the zero value (a nil slice) for an absent key. -/
def NameGroups.get (groups : NameGroups) (key : GoString) : List DuplicateCandidate :=
  match groups.find? (fun e => decide (e.1 = key)) with
  | some e => e.2
  | none => []

/-- The assignment `groups[key] = value`. -/
def NameGroups.set (groups : NameGroups) (key : GoString) (value : List DuplicateCandidate) : NameGroups :=
  if groups.any (fun e => decide (e.1 = key)) then
    groups.map (fun e => if e.1 = key then (e.1, value) else e)
  else groups ++ [(key, value)]

/-- The entries one `range` over the map visits, in the order of the visit. -/
def NameGroups.range (L : Lib) (groups : NameGroups) : List (GoString × List DuplicateCandidate) :=
  (L.mapOrder (groups.map Prod.fst)).filterMap
    (fun k => (groups.find? (fun e => decide (e.1 = k))).map (fun e => (k, e.2)))

/-- The function `findSimilarGroup`: the first visited key at least 0.8 similar to `name`, else the empty string. -/
def findSimilarGroup (L : Lib) (name : GoString) (groups : NameGroups) : GoString :=
  match (groups.range L).find? (fun e => decide (calculateStringSimilarity name e.1 ≥ 8 / 10)) with
  | some e => e.1
  | none => []

/-- The method `groupByNameSimilarity`. -/
def groupByNameSimilarity (L : Lib) (candidates : List DuplicateCandidate) : NameGroups :=
  candidates.foldl (fun groups candidate =>
    let filename := extractFilename candidate.File.PathTail
    let normalizedName := normalizeFilename L filename
    let found := findSimilarGroup L normalizedName groups
    let groupKey := if found = [] then normalizedName else found
    groups.set groupKey (groups.get groupKey ++ [candidate])) []

/-- The similarities added up by `calculateNameSimilarityConfidence`: one for each pair `i < j`, in loop order. -/
def pairSimilarities : List DuplicateCandidate → List ℚ
  | [] => []
  | c :: rest =>
    rest.map (fun d => calculateStringSimilarity (extractFilename c.File.PathTail)
      (extractFilename d.File.PathTail)) ++ pairSimilarities rest

/-- The method `calculateNameSimilarityConfidence`, with the sum, the quotient and
the product taken exactly; `calculateNameSimilarityConfidence64` rounds them as
the code does. -/
def calculateNameSimilarityConfidence (candidates : List DuplicateCandidate) : ℚ :=
  if candidates.length < 2 then 0
  else
    let totalSimilarity := (pairSimilarities candidates).sum
    let pairs := (pairSimilarities candidates).length
    if pairs = 0 then 0
    else
      let avgSimilarity := totalSimilarity / (pairs : ℚ)
      if avgSimilarity > 95 / 100 then 9 / 10
      else if avgSimilarity > 8 / 10 then 7 / 10
      else if avgSimilarity > 6 / 10 then 5 / 10
      else avgSimilarity * (6 / 10)

/-! ## Strategies -/

/-- The cluster `detectByHash` builds for a grouped row and the files fetched for it. -/
def hashCluster (L : Lib) (result : HashGroupRow) (files : List File) : DuplicateCluster :=
  { ID := generateClusterID L result.SHA256
    SHA256 := result.SHA256
    Size := result.Size
    Count := result.Count
    TotalSize := result.TotalSize
    Candidates := files.map (fun file =>
      { File := file, Confidence := 1, Reason := ascii "Identical SHA-256 hash" })
    Strategy := StrategyHash
    CreatedAt := [] }

/-- The method `detectByHash`. A failed grouped query fails the call; a group whose
member fetch fails is skipped (`continue`). -/
def detectByHash (L : Lib) (db : MetadataSource) (userID : UUID) : Except GoError (List DuplicateCluster) :=
  match db.hashGroups userID with
  | .error err => .error (.wrapped (ascii "failed to detect hash duplicates") err)
  | .ok results =>
    .ok (results.filterMap (fun result =>
      match db.filesByHash userID result.SHA256 with
      | .error _ => none
      | .ok files => some (hashCluster L result files)))

/-- The cluster `detectBySize` builds for a grouped row and the files fetched for it. -/
def sizeCluster (L : Lib) (result : SizeGroupRow) (files : List File) : DuplicateCluster :=
  let confidence := calculateSizeConfidence result.Size result.Count
  { ID := generateClusterID L (ascii "size_" ++ itoa result.Size)
    SHA256 := []
    Size := result.Size
    Count := result.Count
    TotalSize := result.TotalSize
    Candidates := files.map (fun file =>
      { File := file, Confidence := confidence,
        Reason := ascii "Identical size (" ++ itoa result.Size ++ ascii " bytes)" })
    Strategy := StrategySize
    CreatedAt := [] }

/-- The method `detectBySize`. A failed grouped query fails the call; a group whose
member fetch fails is skipped (`continue`). -/
def detectBySize (L : Lib) (db : MetadataSource) (userID : UUID) : Except GoError (List DuplicateCluster) :=
  match db.sizeGroups userID with
  | .error err => .error (.wrapped (ascii "failed to detect size duplicates") err)
  | .ok results =>
    .ok (results.filterMap (fun result =>
      match db.filesBySize userID result.Size with
      | .error _ => none
      | .ok files => some (sizeCluster L result files)))

/-- The body of the outer loop of `detectBySizeAndName` for one size cluster: the
refined clusters it appends. -/
def refineSizeCluster (L : Lib) (cluster : DuplicateCluster) : List DuplicateCluster :=
  if cluster.Candidates.length < 2 then []
  else
    ((groupByNameSimilarity L cluster.Candidates).range L).filterMap (fun entry =>
      let groupID := entry.1
      let group := entry.2
      if group.length < 2 then none
      else
        let avgConfidence := calculateNameSimilarityConfidence group
        some {
          ID := cluster.ID ++ ascii "_name_" ++ groupID
          SHA256 := []
          Size := cluster.Size
          Count := (group.length : Int)
          TotalSize := (group.length : Int) * cluster.Size
          Candidates := group.map (fun c =>
            { File := c.File, Confidence := avgConfidence,
              Reason := ascii "Size + filename similarity (" ++ L.formatFloat1 (avgConfidence * 100)
                ++ ascii "%)" })
          Strategy := StrategySizeAndName
          CreatedAt := [] })

/-- The method `detectBySizeAndName`. -/
def detectBySizeAndName (L : Lib) (db : MetadataSource) (userID : UUID) : Except GoError (List DuplicateCluster) :=
  match detectBySize L db userID with
  | .error err => .error err
  | .ok sizeClusters => .ok (sizeClusters.flatMap (refineSizeCluster L))

/-- The comparison passed to `sort.Slice` by `deduplicateClusters`. -/
def priorityLess (a b : DuplicateCluster) : Bool :=
  if a.Strategy ≠ b.Strategy then decide (a.Strategy < b.Strategy)
  else decide (calculateAverageConfidence a.Candidates > calculateAverageConfidence b.Candidates)

/-- The selection loop of `deduplicateClusters`: `usedFiles` holds the file IDs marked so far. -/
def selectClusters : List DuplicateCluster → List Nat → List DuplicateCluster
  | [], _ => []
  | cluster :: rest, usedFiles =>
    if cluster.Candidates.any (fun candidate => decide (candidate.File.ID ∈ usedFiles)) then
      selectClusters rest usedFiles
    else
      cluster :: selectClusters rest (usedFiles ++ cluster.Candidates.map (fun candidate => candidate.File.ID))

/-- The method `deduplicateClusters`. -/
def deduplicateClusters (L : Lib) (clusters : List DuplicateCluster) : List DuplicateCluster :=
  selectClusters (L.sortSlice priorityLess clusters) []

/-- The potential savings of a cluster: `TotalSize - Size`. -/
def savings (c : DuplicateCluster) : Int := c.TotalSize - c.Size

/-- The comparison passed to `sort.Slice` by `detectAdvanced`. -/
def savingsLess (a b : DuplicateCluster) : Bool :=
  decide (savings a > savings b)

/-- The ranking step of `detectAdvanced`. -/
def rankBySavings (L : Lib) (clusters : List DuplicateCluster) : List DuplicateCluster :=
  L.sortSlice savingsLess clusters

/-- The method `detectAdvanced`. -/
def detectAdvanced (L : Lib) (db : MetadataSource) (userID : UUID) : Except GoError (List DuplicateCluster) :=
  match detectByHash L db userID with
  | .error err => .error err
  | .ok hashClusters =>
    match detectBySizeAndName L db userID with
    | .error err => .error err
    | .ok sizeNameClusters =>
      let allClusters := hashClusters ++ sizeNameClusters
      let deduplicatedClusters := deduplicateClusters L allClusters
      .ok (rankBySavings L deduplicatedClusters)

/-- The method `DetectDuplicates`. -/
def DetectDuplicates (L : Lib) (db : MetadataSource) (userID : UUID) (strategy : DetectionStrategy) :
    Except GoError (List DuplicateCluster) :=
  if strategy = StrategyHash then detectByHash L db userID
  else if strategy = StrategySize then detectBySize L db userID
  else if strategy = StrategySizeAndName then detectBySizeAndName L db userID
  else if strategy = StrategyAdvanced then detectAdvanced L db userID
  else detectByHash L db userID

/-! ## The Size+Name strategy in `float64` arithmetic

`calculateStringSimilarity` and `calculateNameSimilarityConfidence` above take
the quotient, the sum and the products as exact rationals. The code computes
them in `float64`; the definitions of this section follow every conversion and
every operation of the code with its rounding. -/

/-- The function `calculateStringSimilarity` in `float64` arithmetic:
`1.0 - float64(distance)/float64(maxLen)` with the two conversions, the division
and the subtraction each rounded. -/
def calculateStringSimilarity64 (s1 s2 : GoString) : ℚ :=
  if s1 = s2 then 1
  else
    let maxLen := if s2.length > s1.length then s2.length else s1.length
    if maxLen = 0 then 1
    else
      let distance := levenshteinDistance s1 s2
      roundFloat64 (1 - roundFloat64 (roundFloat64 (distance : ℚ) / roundFloat64 (maxLen : ℚ)))

/-- The function `findSimilarGroup` in `float64` arithmetic: the threshold is the `float64` 0.8. -/
def findSimilarGroup64 (L : Lib) (name : GoString) (groups : NameGroups) : GoString :=
  match (groups.range L).find?
      (fun e => decide (calculateStringSimilarity64 name e.1 ≥ roundFloat64 (8 / 10))) with
  | some e => e.1
  | none => []

/-- The method `groupByNameSimilarity` over `findSimilarGroup64`. -/
def groupByNameSimilarity64 (L : Lib) (candidates : List DuplicateCandidate) : NameGroups :=
  candidates.foldl (fun groups candidate =>
    let filename := extractFilename candidate.File.PathTail
    let normalizedName := normalizeFilename L filename
    let found := findSimilarGroup64 L normalizedName groups
    let groupKey := if found = [] then normalizedName else found
    groups.set groupKey (groups.get groupKey ++ [candidate])) []

/-- The similarities `calculateNameSimilarityConfidence` adds up, as `float64`
values: one for each pair `i < j`, in loop order. -/
def pairSimilarities64 : List DuplicateCandidate → List ℚ
  | [] => []
  | c :: rest =>
    rest.map (fun d => calculateStringSimilarity64 (extractFilename c.File.PathTail)
      (extractFilename d.File.PathTail)) ++ pairSimilarities64 rest

/-- The method `calculateNameSimilarityConfidence` in `float64` arithmetic:
`totalSimilarity` starts at 0 and takes each similarity in loop order, every
addition rounded; the division by `float64(pairs)` is rounded; the thresholds
and the results are the `float64` values of the literals; the product of the
last line is rounded. -/
def calculateNameSimilarityConfidence64 (candidates : List DuplicateCandidate) : ℚ :=
  if candidates.length < 2 then 0
  else
    let totalSimilarity := (pairSimilarities64 candidates).foldl
      (fun totalSimilarity similarity => roundFloat64 (totalSimilarity + similarity)) 0
    let pairs := (pairSimilarities64 candidates).length
    if pairs = 0 then 0
    else
      let avgSimilarity := roundFloat64 (totalSimilarity / roundFloat64 (pairs : ℚ))
      if avgSimilarity > roundFloat64 (95 / 100) then roundFloat64 (9 / 10)
      else if avgSimilarity > roundFloat64 (8 / 10) then roundFloat64 (7 / 10)
      else if avgSimilarity > roundFloat64 (6 / 10) then roundFloat64 (5 / 10)
      else roundFloat64 (avgSimilarity * roundFloat64 (6 / 10))

/-- The body of the outer loop of `detectBySizeAndName` for one size cluster, in
`float64` arithmetic. -/
def refineSizeCluster64 (L : Lib) (cluster : DuplicateCluster) : List DuplicateCluster :=
  if cluster.Candidates.length < 2 then []
  else
    ((groupByNameSimilarity64 L cluster.Candidates).range L).filterMap (fun entry =>
      let groupID := entry.1
      let group := entry.2
      if group.length < 2 then none
      else
        let avgConfidence := calculateNameSimilarityConfidence64 group
        some {
          ID := cluster.ID ++ ascii "_name_" ++ groupID
          SHA256 := []
          Size := cluster.Size
          Count := (group.length : Int)
          TotalSize := (group.length : Int) * cluster.Size
          Candidates := group.map (fun c =>
            { File := c.File, Confidence := avgConfidence,
              Reason := ascii "Size + filename similarity (" ++
                L.formatFloat1 (roundFloat64 (avgConfidence * 100)) ++ ascii "%)" })
          Strategy := StrategySizeAndName
          CreatedAt := [] })

/-- The method `detectBySizeAndName` in `float64` arithmetic. -/
def detectBySizeAndName64 (L : Lib) (db : MetadataSource) (userID : UUID) :
    Except GoError (List DuplicateCluster) :=
  match detectBySize L db userID with
  | .error err => .error err
  | .ok sizeClusters => .ok (sizeClusters.flatMap (refineSizeCluster64 L))

/-! ## A metadata source answering from a table -/

/-- The rows of the grouped query of `detectByHash` over a table: groups of the
user's rows with a non-empty hash by `(sha256, size)`, those of more than one
row, by total size descending. -/
def hashGroupsOf (table : List File) (userID : UUID) : List HashGroupRow :=
  let rows := table.filter (fun f => decide (f.UserID = userID ∧ f.SHA256 ≠ []))
  let keys := (rows.map (fun f => (f.SHA256, f.Size))).dedup
  let groups := keys.map (fun k =>
    let members := rows.filter (fun f => decide (f.SHA256 = k.1 ∧ f.Size = k.2))
    ({ SHA256 := k.1, Size := k.2, Count := (members.length : Int),
       TotalSize := (members.map (fun f => f.Size)).sum } : HashGroupRow))
  (groups.filter (fun g => decide (g.Count > 1))).insertionSort (fun a b => a.TotalSize ≥ b.TotalSize)

/-- The rows of the grouped query of `detectBySize` over a table. -/
def sizeGroupsOf (table : List File) (userID : UUID) : List SizeGroupRow :=
  let rows := table.filter (fun f => decide (f.UserID = userID ∧ f.Size > 0))
  let keys := (rows.map (fun f => f.Size)).dedup
  let groups := keys.map (fun k =>
    let members := rows.filter (fun f => decide (f.Size = k))
    ({ Size := k, Count := (members.length : Int),
       TotalSize := (members.map (fun f => f.Size)).sum } : SizeGroupRow))
  (groups.filter (fun g => decide (g.Count > 1))).insertionSort (fun a b => a.TotalSize ≥ b.TotalSize)

/-- The user's rows with a given hash, by creation time ascending. -/
def filesByHashOf (table : List File) (userID : UUID) (sha : GoString) : List File :=
  (table.filter (fun f => decide (f.UserID = userID ∧ f.SHA256 = sha))).insertionSort
    (fun a b => a.CreatedAt ≤ b.CreatedAt)

/-- The user's rows with a given size, by creation time ascending. -/
def filesBySizeOf (table : List File) (userID : UUID) (size : Int) : List File :=
  (table.filter (fun f => decide (f.UserID = userID ∧ f.Size = size))).insertionSort
    (fun a b => a.CreatedAt ≤ b.CreatedAt)

/-- The metadata source that answers every query from the rows of `table`. -/
def tableSource (table : List File) : MetadataSource where
  hashGroups := fun userID => .ok (hashGroupsOf table userID)
  filesByHash := fun userID sha => .ok (filesByHashOf table userID sha)
  sizeGroups := fun userID => .ok (sizeGroupsOf table userID)
  filesBySize := fun userID size => .ok (filesBySizeOf table userID size)

/-! ## A reference library instance -/

/-- The case mapping of `strings.ToLower` on ASCII bytes. -/
def asciiToLower (s : GoString) : GoString :=
  s.map (fun c => if 65 ≤ c.toNat ∧ c.toNat ≤ 90 then (c.toNat + 32).toUInt8 else c)

/-- The ASCII white space of `strings.TrimSpace`. -/
def isAsciiSpace (c : UInt8) : Bool :=
  c = 9 || c = 10 || c = 11 || c = 12 || c = 13 || c = 32

/-- The trimming of `strings.TrimSpace` on ASCII bytes. -/
def asciiTrimSpace (s : GoString) : GoString :=
  ((s.dropWhile isAsciiSpace).reverse.dropWhile isAsciiSpace).reverse

/-- A sort that meets the contract of `sort.Slice`: stable insertion sort. -/
def insertionSortSlice (less : DuplicateCluster → DuplicateCluster → Bool)
    (xs : List DuplicateCluster) : List DuplicateCluster :=
  xs.insertionSort (fun a b => less b a = false)

/-- A library instance for evaluating the engine on ASCII data: insertion sort,
maps visited in insertion order, ASCII case mapping and trimming. The digest
and the float verb are not computed: cluster IDs and reason texts built from
them stand for themselves only. -/
def refLib : Lib where
  sortSlice := insertionSortSlice
  mapOrder := fun keys => keys
  toLower := asciiToLower
  trimSpace := asciiTrimSpace
  sha256Sum := fun input => input
  formatFloat1 := fun _ => []

/-! ## The sort of Go's standard library

`sort.Slice` is not code of the repository. Since Go 1.19 it runs the
pattern-defeating quicksort `pdqsort_func` of `sort/zsortfunc.go`; the
definitions below follow that function for slices of fewer than 50 elements,
statement by statement, on a list with index access. Where the library would
enter a part that is not followed here (`heapSort_func`, `breakPatterns_func`,
or a slice of 50 elements or more, which brings in the Tukey ninther,
`reverseRange_func` and the shifting of `partialInsertionSort_func`), the
result is `none`. -/

/-- The call `data.Less(i, j)`. -/
def lessAt {α : Type} (less : α → α → Bool) (data : List α) (i j : Nat) : Bool :=
  match data.get? i, data.get? j with
  | some x, some y => less x y
  | _, _ => false

/-- The call `data.Swap(i, j)`. -/
def swapAt {α : Type} (data : List α) (i j : Nat) : List α :=
  match data.get? i, data.get? j with
  | some x, some y => (data.set i y).set j x
  | _, _ => data

/-- The inner loop of `insertionSort_func`, `for j := i; j > a && data.Less(j, j-1); j--`
with the body `data.Swap(j, j-1)`. -/
def insertionInner {α : Type} (less : α → α → Bool) (a : Nat) : Nat → List α → List α
  | 0, data => data
  | j + 1, data =>
    if j + 1 > a ∧ lessAt less data (j + 1) j then
      insertionInner less a j (swapAt data (j + 1) j)
    else data

/-- The function `insertionSort_func`: insertion sort of `data[a:b]`. -/
def insertionSort_func {α : Type} (less : α → α → Bool) (data : List α) (a b : Nat) : List α :=
  (List.range' (a + 1) (b - (a + 1))).foldl (fun data i => insertionInner less a i data) data

/-- The type `sortedHint`. -/
inductive sortedHint where
  | unknownHint
  | increasingHint
  | decreasingHint
  deriving DecidableEq, Repr

/-- The function `order2_func`: the two indices in order, and the count of swaps. -/
def order2_func {α : Type} (less : α → α → Bool) (data : List α) (a b swaps : Nat) :
    Nat × Nat × Nat :=
  if lessAt less data b a then (b, a, swaps + 1) else (a, b, swaps)

/-- The function `median_func`: the index of the median of three, and the count of swaps. -/
def median_func {α : Type} (less : α → α → Bool) (data : List α) (a b c swaps : Nat) :
    Nat × Nat :=
  let r1 := order2_func less data a b swaps
  let r2 := order2_func less data r1.2.1 c r1.2.2
  let r3 := order2_func less data r1.1 r2.1 r2.2.2
  (r3.2.1, r3.2.2)

/-- The function `choosePivot_func` for `b - a < 50`; for a longer slice the
library takes the Tukey ninther. -/
def choosePivot_func {α : Type} (less : α → α → Bool) (data : List α) (a b : Nat) :
    Option (Nat × sortedHint) :=
  let l := b - a
  let i := a + l / 4 * 1
  let j := a + l / 4 * 2
  let k := a + l / 4 * 3
  if l ≥ 50 then none
  else
    let r := if l ≥ 8 then median_func less data i j k 0 else (j, 0)
    if r.2 = 0 then some (r.1, sortedHint.increasingHint)
    else if r.2 = 4 * 3 then some (r.1, sortedHint.decreasingHint)
    else some (r.1, sortedHint.unknownHint)

/-- The loop `for i < b && !data.Less(i, i-1)` with the body `i++` of
`partialInsertionSort_func`: the final `i`. -/
def sortedRunEnd {α : Type} (less : α → α → Bool) (data : List α) (b : Nat) : Nat → Nat → Nat
  | 0, i => i
  | fuel + 1, i =>
    if i < b ∧ !lessAt less data i (i - 1) then sortedRunEnd less data b fuel (i + 1) else i

/-- The function `partialInsertionSort_func` for `b - a < 50`, where it moves
nothing: it reports whether `data[a:b]` is in order. -/
def partialInsertionSort_func {α : Type} (less : α → α → Bool) (data : List α) (a b : Nat) :
    Option Bool :=
  if b - a ≥ 50 then none
  else some (decide (sortedRunEnd less data b (data.length + 1) (a + 1) = b))

/-- The loop `for i <= j && data.Less(i, a)` with the body `i++` of `partition_func`:
the final `i`. -/
def scanUp {α : Type} (less : α → α → Bool) (data : List α) (a j : Nat) : Nat → Nat → Nat
  | 0, i => i
  | fuel + 1, i =>
    if i ≤ j ∧ lessAt less data i a then scanUp less data a j fuel (i + 1) else i

/-- The loop `for i <= j && !data.Less(j, a)` with the body `j--` of `partition_func`:
the final `j`. -/
def scanDown {α : Type} (less : α → α → Bool) (data : List α) (a i : Nat) : Nat → Nat → Nat
  | 0, j => j
  | fuel + 1, j =>
    if i ≤ j ∧ !lessAt less data j a then scanDown less data a i fuel (j - 1) else j

/-- The unconditional loop of `partition_func`: the data and the final `j`. -/
def partitionLoop {α : Type} (less : α → α → Bool) (a : Nat) :
    Nat → List α → Nat → Nat → List α × Nat
  | 0, data, _, j => (data, j)
  | fuel + 1, data, i, j =>
    let i := scanUp less data a j (data.length + 1) i
    let j := scanDown less data a i (data.length + 1) j
    if i > j then (data, j)
    else partitionLoop less a fuel (swapAt data i j) (i + 1) (j - 1)

/-- The function `partition_func`: the data, the new index of the pivot, and
whether the slice was already partitioned. -/
def partition_func {α : Type} (less : α → α → Bool) (data : List α) (a b pivot : Nat) :
    List α × Nat × Bool :=
  let data := swapAt data a pivot
  let i := a + 1
  let j := b - 1
  let i := scanUp less data a j (data.length + 1) i
  let j := scanDown less data a i (data.length + 1) j
  if i > j then (swapAt data j a, j, true)
  else
    let data := swapAt data i j
    let r := partitionLoop less a (data.length + 1) data (i + 1) (j - 1)
    (swapAt r.1 r.2 a, r.2, false)

/-- The loop of `partitionEqual_func`: the data and the final `i`. Its two scans,
`for i <= j && !data.Less(a, i)` and `for i <= j && data.Less(a, j)`, are those
of `partition_func` for the comparison "the pivot is not less than". -/
def partitionEqualLoop {α : Type} (less : α → α → Bool) (a : Nat) :
    Nat → List α → Nat → Nat → List α × Nat
  | 0, data, i, _ => (data, i)
  | fuel + 1, data, i, j =>
    let i := scanUp (fun x y => !less y x) data a j (data.length + 1) i
    let j := scanDown (fun x y => !less y x) data a i (data.length + 1) j
    if i > j then (data, i)
    else partitionEqualLoop less a fuel (swapAt data i j) (i + 1) (j - 1)

/-- The function `partitionEqual_func`: the elements equal to the pivot go to the front. -/
def partitionEqual_func {α : Type} (less : α → α → Bool) (data : List α) (a b pivot : Nat) :
    List α × Nat :=
  let data := swapAt data a pivot
  partitionEqualLoop less a (data.length + 1) data (a + 1) (b - 1)

/-- The function `pdqsort_func`; one unit of `fuel` pays for one pass of its
loop. The two flags are the local variables `wasBalanced` and `wasPartitioned`. -/
def pdqsort_func {α : Type} (less : α → α → Bool) :
    Nat → List α → Nat → Nat → Nat → Bool → Bool → Option (List α)
  | 0, _, _, _, _, _, _ => none
  | fuel + 1, data, a, b, limit, wasBalanced, wasPartitioned =>
    let length := b - a
    if length ≤ 12 then some (insertionSort_func less data a b)
    else if limit = 0 then none
    else if !wasBalanced then none
    else
      match choosePivot_func less data a b with
      | none => none
      | some (pivot, hint) =>
        if hint = sortedHint.decreasingHint then none
        else
          let sorted :=
            if wasBalanced && wasPartitioned && decide (hint = sortedHint.increasingHint) then
              partialInsertionSort_func less data a b
            else some false
          match sorted with
          | none => none
          | some true => some data
          | some false =>
            if a > 0 ∧ !lessAt less data (a - 1) pivot then
              let r := partitionEqual_func less data a b pivot
              pdqsort_func less fuel r.1 r.2 b limit wasBalanced wasPartitioned
            else
              let r := partition_func less data a b pivot
              let mid := r.2.1
              let leftLen := mid - a
              let rightLen := b - mid
              let balanceThreshold := length / 8
              if leftLen < rightLen then
                match pdqsort_func less fuel r.1 a mid limit true true with
                | none => none
                | some data =>
                  pdqsort_func less fuel data (mid + 1) b limit
                    (decide (leftLen ≥ balanceThreshold)) r.2.2
              else
                match pdqsort_func less fuel r.1 (mid + 1) b limit true true with
                | none => none
                | some data =>
                  pdqsort_func less fuel data a mid limit
                    (decide (rightLen ≥ balanceThreshold)) r.2.2

/-- The function `bits.Len`: the number of bits of `n`. -/
def bitsLen (n : Nat) : Nat := if n = 0 then 0 else log2Floor n + 1

/-- The function `sort.Slice` with the comparison taken on the elements. -/
def sortSliceGo {α : Type} (less : α → α → Bool) (data : List α) : Option (List α) :=
  pdqsort_func less (data.length + 1) data 0 data.length (bitsLen data.length) true true

/-! ## Specification vocabulary -/

/-- The usual recursive edit distance, on sequences read from their last
element: the cost of turning `xs` into `ys` by insertions, deletions and
substitutions of cost 1. -/
def editDist : List UInt8 → List UInt8 → Nat
  | [], ys => ys.length
  | x :: xs, [] => (x :: xs).length
  | x :: xs, y :: ys =>
    min3 (editDist xs (y :: ys) + 1) (editDist (x :: xs) ys + 1)
      (editDist xs ys + (if x ≠ y then 1 else 0))
termination_by xs ys => xs.length + ys.length

/-- The matrix row for the reversed prefix `p` of `s1`: the distances from `p`
to the reversed prefixes of `s2` that start at `q` and grow through `rest`. -/
def rowOf (p : List UInt8) : List UInt8 → List UInt8 → List Nat
  | q, [] => [editDist p q]
  | q, r :: rest => editDist p q :: rowOf p (r :: q) rest

/-- Two clusters share a file: a candidate of one carries the file ID of a candidate of the other. -/
def SharesFile (a b : DuplicateCluster) : Prop :=
  ∃ x ∈ a.Candidates, ∃ y ∈ b.Candidates, x.File.ID = y.File.ID

/-- No file ID occurs in the clusters at two different positions of the list. -/
def Exclusive (r : List DuplicateCluster) : Prop :=
  ∀ i j (hi : i < r.length) (hj : j < r.length), i ≠ j →
    ¬ SharesFile (r.get ⟨i, hi⟩) (r.get ⟨j, hj⟩)

/-- The Hash-strategy clusters at different positions of the list share no file ID. -/
def HashClustersDisjoint (cs : List DuplicateCluster) : Prop :=
  ∀ i j (hi : i < cs.length) (hj : j < cs.length), i ≠ j →
    (cs.get ⟨i, hi⟩).Strategy = StrategyHash → (cs.get ⟨j, hj⟩).Strategy = StrategyHash →
    ¬ SharesFile (cs.get ⟨i, hi⟩) (cs.get ⟨j, hj⟩)

/-- Adjacent clusters never increase in `TotalSize - Size`. -/
def RankedBySavings (r : List DuplicateCluster) : Prop :=
  ∀ i (h : i + 1 < r.length),
    (r.get ⟨i, Nat.lt_of_succ_lt h⟩).TotalSize - (r.get ⟨i, Nat.lt_of_succ_lt h⟩).Size ≥
      (r.get ⟨i + 1, h⟩).TotalSize - (r.get ⟨i + 1, h⟩).Size

/-- Stability of the ranking step for one library: the clusters of every savings
value keep the relative order they have in the input. -/
def StableRanking (L : Lib) : Prop :=
  ∀ (cs : List DuplicateCluster) (v : Int),
    (rankBySavings L cs).filter (fun c => decide (savings c = v)) =
      cs.filter (fun c => decide (savings c = v))

deriving instance DecidableEq for Except

/-! ## Concrete data -/

/-- A 64-character content hash made of one repeated character. -/
def hashOf (c : UInt8) : GoString := List.replicate 64 c

/-- A row of user 1 on device `d`. -/
def fileRow (id : Nat) (sha : GoString) (size : Int) (path : String) (created : Int) : File :=
  { ID := id, UserID := 1, DeviceID := ascii "d", PathTail := ascii path, Mime := [],
    Size := size, SHA256 := sha, CreatedAt := created, UpdatedAt := created }

/-- A candidate of a Hash cluster for a row. -/
def hashCandidate (f : File) : DuplicateCandidate :=
  { File := f, Confidence := 1, Reason := ascii "Identical SHA-256 hash" }

/-- Two rows with one hash, one size and similar names. -/
def pairFiles : List File :=
  [fileRow 1 (hashOf 97) 100 "a/vacation_photo.jpg" 1,
   fileRow 2 (hashOf 97) 100 "b/vacation-photo1.jpg" 2]

/-- The Hash cluster of `pairFiles`. -/
def pairHashCluster : DuplicateCluster :=
  { ID := ascii "h", SHA256 := hashOf 97, Size := 100, Count := 2, TotalSize := 200,
    Candidates := pairFiles.map hashCandidate, Strategy := StrategyHash, CreatedAt := [] }

/-- A Size+Name cluster over the same two files. -/
def pairNameCluster : DuplicateCluster :=
  { ID := ascii "n", SHA256 := [], Size := 100, Count := 2, TotalSize := 200,
    Candidates := pairFiles.map (fun f => { File := f, Confidence := 7 / 10, Reason := [] }),
    Strategy := StrategySizeAndName, CreatedAt := [] }

/-- A second Hash cluster, over two other files, with the savings of `pairHashCluster`. -/
def otherHashCluster : DuplicateCluster :=
  { ID := ascii "o", SHA256 := hashOf 98, Size := 100, Count := 2, TotalSize := 200,
    Candidates := [hashCandidate (fileRow 3 (hashOf 98) 100 "c/x.bin" 3),
      hashCandidate (fileRow 4 (hashOf 98) 100 "c/y.bin" 4)],
    Strategy := StrategyHash, CreatedAt := [] }

/-- Four rows: two pairs of equal hash, all of one size. -/
def fourFiles : List File :=
  pairFiles ++ [fileRow 3 (hashOf 98) 100 "c/x.bin" 3, fileRow 4 (hashOf 98) 100 "c/y.bin" 4]

/-- The strategy and the candidate file IDs of each cluster of a result. -/
def clusterFiles (r : Except GoError (List DuplicateCluster)) : Except GoError (List (Nat × List Nat)) :=
  r.map (List.map (fun c => (c.Strategy, c.Candidates.map (fun x => x.File.ID))))

/-- The Cluster invariant: the count is the number of candidates and at least 2,
and the total size is the sum of the candidates' file sizes. -/
def ClusterInvariant (c : DuplicateCluster) : Prop :=
  c.Count = (c.Candidates.length : Int) ∧ c.Count ≥ 2 ∧
    c.TotalSize = (c.Candidates.map (fun x => x.File.Size)).sum

/-- Every candidate's file has the size recorded in the cluster. -/
def UniformSize (c : DuplicateCluster) : Prop :=
  ∀ x ∈ c.Candidates, x.File.Size = c.Size

/-- The user's rows of a table with a given hash and size. -/
def filesWithHashAndSize (table : List File) (userID : UUID) (sha : GoString) (size : Int) : List File :=
  table.filter (fun f => decide (f.UserID = userID ∧ f.SHA256 = sha ∧ f.Size = size))

/-- The user's rows of a table with a given hash. -/
def filesWithHash (table : List File) (userID : UUID) (sha : GoString) : List File :=
  table.filter (fun f => decide (f.UserID = userID ∧ f.SHA256 = sha))

/-- The metadata source of a table whose grouped queries succeed and whose
per-group member fetches all fail. -/
def fetchFailingSource (table : List File) : MetadataSource :=
  { tableSource table with
    filesByHash := fun _ _ => .error (.source (ascii "connection reset"))
    filesBySize := fun _ _ => .error (.source (ascii "connection reset")) }

/-- Scenario 1: two rows with hash H1 and size 100, one row with hash H2 and size 200. -/
def scenario1Files : List File :=
  [fileRow 1 (hashOf 97) 100 "a/one.bin" 1, fileRow 2 (hashOf 97) 100 "b/two.bin" 2,
   fileRow 3 (hashOf 98) 200 "c/three.bin" 3]

/-- Two rows with one hash and two sizes. -/
def splitHashFiles : List File :=
  [fileRow 1 (hashOf 97) 100 "a/one.bin" 1, fileRow 2 (hashOf 97) 200 "b/two.bin" 2]

/-- Three rows with one hash: two of size 100 and one of size 200. -/
def mixedSizeFiles : List File :=
  [fileRow 1 (hashOf 97) 100 "a/one.bin" 1, fileRow 2 (hashOf 97) 100 "b/two.bin" 2,
   fileRow 3 (hashOf 97) 200 "c/three.bin" 3]

/-- Four rows with one hash: two of size 100 and two of size 200. -/
def twoGroupFiles : List File :=
  mixedSizeFiles ++ [fileRow 4 (hashOf 97) 200 "d/four.bin" 4]

/-- Two rows of size 100 with hash H1 and three rows of size 60 with hash H2. -/
def unrankedFiles : List File :=
  [fileRow 1 (hashOf 97) 100 "a/one.bin" 1, fileRow 2 (hashOf 97) 100 "b/two.bin" 2,
   fileRow 3 (hashOf 98) 60 "c/three.dat" 3, fileRow 4 (hashOf 98) 60 "d/four.txt" 4,
   fileRow 5 (hashOf 98) 60 "e/five.log" 5]

/-- The hash, count, total size, number of candidates and summed candidate sizes of each cluster. -/
def clusterTotals (r : Except GoError (List DuplicateCluster)) :
    Except GoError (List (GoString × Int × Int × Nat × Int)) :=
  r.map (List.map (fun c => (c.SHA256, c.Count, c.TotalSize, c.Candidates.length,
    (c.Candidates.map (fun x => x.File.Size)).sum)))

/-- Thirteen groups of rows, one hash each: six pairs of size 100, then four
rows of size 45, then six triples of size 50. -/
def tiedFiles : List File :=
  (List.range 13).flatMap (fun k =>
    let count := if k < 6 then 2 else if k = 6 then 4 else 3
    let size : Int := if k < 6 then 100 else if k = 6 then 45 else 50
    (List.range count).map (fun m =>
      fileRow (4 * k + m + 1) (hashOf (97 + k).toUInt8) size "f.bin" (4 * k + m + 1)))

/-- The clusters the Hash strategy returns for `tiedFiles`. -/
def tiedClusters : List DuplicateCluster :=
  match detectByHash refLib (tableSource tiedFiles) 1 with
  | .ok r => r
  | .error _ => []

/-- The clusters the Size+Name strategy returns for `tiedFiles`. -/
def tiedNameClusters : List DuplicateCluster :=
  match detectBySizeAndName refLib (tableSource tiedFiles) 1 with
  | .ok r => r
  | .error _ => []

/-- The first character of the hash, the total size and `TotalSize - Size` of each cluster. -/
def hashAndSavings (r : List DuplicateCluster) : List (UInt8 × Int × Int) :=
  r.map (fun c => (c.SHA256.headD 0, c.TotalSize, savings c))

/-! ## The handler -/

/-- The strategy the handler `DetectDuplicatesAdvanced` selects for the query
parameter `strategy` (`none` when the parameter is absent):
`c.DefaultQuery("strategy", "hash")` followed by the `switch`. -/
def handlerStrategy (query : Option GoString) : DetectionStrategy :=
  let strategyParam := match query with
    | some value => value
    | none => ascii "hash"
  if strategyParam = ascii "hash" then StrategyHash
  else if strategyParam = ascii "size" then StrategySize
  else if strategyParam = ascii "size_name" then StrategySizeAndName
  else if strategyParam = ascii "advanced" then StrategyAdvanced
  else StrategyHash

/-- The summary statistics of the handler's response. -/
structure Summary where
  totalClusters : Int
  totalDuplicates : Int
  potentialSavings : Int
deriving DecidableEq, Repr

/-- The loop of `DetectDuplicatesAdvanced` that computes the summary statistics,
in the `int` and `int64` arithmetic of the handler. -/
def summarize (clusters : List DuplicateCluster) : Summary :=
  let totals := clusters.foldl (fun (acc : Int × Int) cluster =>
    let duplicateCount := wrapInt64 (cluster.Count - 1)
    (wrapInt64 (acc.1 + duplicateCount),
      wrapInt64 (acc.2 + wrapInt64 (duplicateCount * cluster.Size)))) (0, 0)
  { totalClusters := (clusters.length : Int)
    totalDuplicates := totals.1
    potentialSavings := totals.2 }

/-- The response of `DetectDuplicatesAdvanced` for an authenticated user: status
500 with the error, or status 200 with the summary and the clusters. -/
inductive HandlerResponse where
  | internalServerError (details : GoError)
  | ok (summary : Summary) (clusters : List DuplicateCluster)

/-- The handler `DetectDuplicatesAdvanced`, from the parsing of the strategy
parameter on (the user ID is the one the authentication middleware stored). -/
def detectDuplicatesHandler (L : Lib) (db : MetadataSource) (uid : UUID)
    (query : Option GoString) : HandlerResponse :=
  match DetectDuplicates L db uid (handlerStrategy query) with
  | .error err => .internalServerError err
  | .ok clusters => .ok (summarize clusters) clusters

/-- Every candidate of the cluster has a confidence between 0 and 1. -/
def ConfidenceInRange (c : DuplicateCluster) : Prop :=
  ∀ x ∈ c.Candidates, 0 ≤ x.Confidence ∧ x.Confidence ≤ 1

/-- The bands `calculateNameSimilarityConfidence` maps an average similarity through. -/
def confidenceBand (avg : ℚ) : ℚ :=
  if avg > 95 / 100 then 9 / 10
  else if avg > 8 / 10 then 7 / 10
  else if avg > 6 / 10 then 5 / 10
  else avg * (6 / 10)

/-- The user's rows of a table. -/
def userFiles (table : List File) (userID : UUID) : List File :=
  table.filter (fun f => decide (f.UserID = userID))

/-- Scenario 2: five rows of 5,000,000 bytes with no hash and dissimilar names. -/
def fiveLargeFiles : List File :=
  [fileRow 1 [] 5000000 "a/alpha.bin" 1, fileRow 2 [] 5000000 "b/budget.xls" 2,
   fileRow 3 [] 5000000 "c/concert.mp3" 3, fileRow 4 [] 5000000 "d/diagram.svg" 4,
   fileRow 5 [] 5000000 "e/essay.docx" 5]

/-- The count and the candidate confidences of each cluster of a result. -/
def clusterConfidences (r : Except GoError (List DuplicateCluster)) :
    Except GoError (List (Int × List ℚ)) :=
  r.map (List.map (fun c => (c.Count, c.Candidates.map (fun x => x.Confidence))))

/-- The steps of `normalizeFilename` between `strings.ToLower` and
`strings.TrimSpace`: the extension is cut off and `_` and `-` become spaces. -/
def normalizeCore (name : GoString) : GoString :=
  let idx := lastIndexByte 46 name
  let name := if idx > 0 then name.take idx.toNat else name
  replaceByte 45 32 (replaceByte 95 32 name)

/-- The normalized filename of a candidate, as `groupByNameSimilarity` computes it. -/
def normalizedName (L : Lib) (candidate : DuplicateCandidate) : GoString :=
  normalizeFilename L (extractFilename candidate.File.PathTail)

/-- Scenario 3: two rows of one size named `vacation_photo.jpg` and `vacation-photo (1).jpg`. -/
def vacationFiles : List File :=
  [fileRow 1 [] 2048 "vacation_photo.jpg" 1, fileRow 2 [] 2048 "vacation-photo (1).jpg" 2]

/-- The body of the loop of `groupByNameSimilarity`: the map after one candidate. -/
def groupStep (L : Lib) (groups : NameGroups) (candidate : DuplicateCandidate) : NameGroups :=
  let filename := extractFilename candidate.File.PathTail
  let normalizedName := normalizeFilename L filename
  let found := findSimilarGroup L normalizedName groups
  let groupKey := if found = [] then normalizedName else found
  groups.set groupKey (groups.get groupKey ++ [candidate])

/-- A sub-group is anchored on its first member: its key is the normalized name
of the first member, and every member's normalized name is at least 0.8 similar
to the key. -/
def AnchoredGroup (L : Lib) (e : GoString × List DuplicateCandidate) : Prop :=
  (∀ x ∈ e.2, calculateStringSimilarity (normalizedName L x) e.1 ≥ 8 / 10) ∧
    ∃ first rest, e.2 = first :: rest ∧ normalizedName L first = e.1

/-- A candidate with no confidence yet, for a row. -/
def bareCandidate (f : File) : DuplicateCandidate :=
  { File := f, Confidence := 0, Reason := [] }

/-- Three rows of one size whose names `abcde`, `xbcde`, `abcdz` are each one
substitution away from the first and two substitutions away from each other. -/
def chainFiles : List File :=
  [fileRow 1 [] 4096 "abcde.txt" 1, fileRow 2 [] 4096 "xbcde.txt" 2,
   fileRow 3 [] 4096 "abcdz.txt" 3]

/-- Two rows of one size whose names differ in case, separator and extension. -/
def caseFiles : List File :=
  [fileRow 1 [] 4096 "IMG_1.JPG" 1, fileRow 2 [] 4096 "img-1.png" 2]

/-- The keys and the member file IDs of the sub-groups of a map. -/
def groupIDs (groups : NameGroups) : List (GoString × List Nat) :=
  groups.map (fun e => (e.1, e.2.map (fun x => x.File.ID)))

/-- The library with another iteration order for maps. -/
def Lib.withMapOrder (L : Lib) (order : List GoString → List GoString) : Lib :=
  { L with mapOrder := order }

/-- The reference library with maps visited in reverse insertion order. -/
def reverseOrderLib : Lib := refLib.withMapOrder List.reverse

/-- No candidate of the sequence is, when its turn comes, at least 0.8 similar
to two different keys of the groups built so far (by the run of `L` from `groups`). -/
def Unambiguous (L : Lib) : List DuplicateCandidate → NameGroups → Prop
  | [], _ => True
  | c :: rest, groups =>
    (∀ k1 ∈ groups.map Prod.fst, ∀ k2 ∈ groups.map Prod.fst,
      calculateStringSimilarity (normalizedName L c) k1 ≥ 8 / 10 →
      calculateStringSimilarity (normalizedName L c) k2 ≥ 8 / 10 → k1 = k2) ∧
    Unambiguous L rest (groupStep L groups c)

/-- Whether a sequence is unambiguous can be computed. -/
instance Unambiguous.decidable (L : Lib) :
    ∀ (cs : List DuplicateCandidate) (groups : NameGroups), Decidable (Unambiguous L cs groups)
  | [], _ => isTrue trivial
  | c :: rest, groups =>
    have := Unambiguous.decidable L rest (groupStep L groups c)
    inferInstanceAs (Decidable (_ ∧ Unambiguous L rest (groupStep L groups c)))

/-- Three rows of one size: `xbcde` and `abcdz` are 0.6 similar and `abcde` is
0.8 similar to each of them. -/
def ambiguousFiles : List File :=
  [fileRow 1 [] 4096 "xbcde.txt" 1, fileRow 2 [] 4096 "abcdz.txt" 2,
   fileRow 3 [] 4096 "abcde.txt" 3]

/-! ## The comparison of the strategies -/

/-- A value stored in a `gin.H` of the comparison, with its dynamic type. -/
inductive GinValue where
  | int (v : Int)
  | int64 (v : Int)
  | float64 (v : ℚ)
  | string (s : GoString)
deriving DecidableEq

/-- The type `gin.H` (`map[string]interface{}`) as far as the comparison uses it. -/
abbrev GinH := List (GoString × GinValue)

/-- A value of the comparison map: a `gin.H`, or a value of another dynamic type. -/
inductive ComparisonValue where
  | ginH (fields : GinH)
  | other (v : GinValue)
deriving DecidableEq

/-- The comparison map (`map[string]interface{}`). -/
abbrev Comparison := List (GoString × ComparisonValue)

/-- The type assertion `v.(gin.H)` in its two-result form, on the result of a map read. -/
def assertGinH : Option ComparisonValue → GinH × Bool
  | some (.ginH fields) => (fields, true)
  | _ => ([], false)

/-- The type assertion `v.(int64)` in its two-result form, on the result of a map read. -/
def assertInt64 : Option GinValue → Int × Bool
  | some (.int64 v) => (v, true)
  | _ => (0, false)

/-- The method `getStrategyRecommendation`; the product `hashSavings*2` is an `int64`. -/
def getStrategyRecommendation (comparison : Comparison) : GoString :=
  let (hashResult, hasHash) := assertGinH (comparison.lookup (ascii "hash"))
  let (advancedResult, hasAdvanced) := assertGinH (comparison.lookup (ascii "advanced"))
  if hasHash && hasAdvanced then
    let hashSavings := (assertInt64 (hashResult.lookup (ascii "potential_savings"))).1
    let advancedSavings := (assertInt64 (advancedResult.lookup (ascii "potential_savings"))).1
    if hashSavings > 0 then
      ascii "hash - Most accurate for exact duplicates"
    else if advancedSavings > wrapInt64 (hashSavings * 2) then
      ascii "advanced - Finds more potential duplicates but requires manual review"
    else ascii "hash - Recommended for most users"
  else ascii "hash - Recommended for most users"

/-- The text of `err.Error()`: a wrapped error prints its context, a colon and its cause. -/
def GoError.Error : GoError → GoString
  | .source msg => msg
  | .wrapped context cause => context ++ ascii ": " ++ cause.Error

/-- The entry `CompareDuplicateStrategies` stores for one strategy: the error text
when the detection failed, the four statistics of its loop otherwise, in the
`int`, `int64` and `float64` arithmetic of the handler. -/
def comparisonEntry (r : Except GoError (List DuplicateCluster)) : ComparisonValue :=
  match r with
  | .error err => .ginH [(ascii "error", .string err.Error)]
  | .ok clusters =>
    let totalClusters : Int := clusters.length
    let stats := clusters.foldl (fun (acc : Int × Int × ℚ) cluster =>
      let duplicateCount := wrapInt64 (cluster.Count - 1)
      let clusterConfidence := cluster.Candidates.foldl (fun total candidate =>
        roundFloat64 (total + roundFloat64 candidate.Confidence)) 0
      (wrapInt64 (acc.1 + duplicateCount),
        wrapInt64 (acc.2.1 + wrapInt64 (duplicateCount * cluster.Size)),
        if cluster.Candidates.length > 0 then
          roundFloat64 (acc.2.2 +
            roundFloat64 (clusterConfidence / roundFloat64 cluster.Candidates.length))
        else acc.2.2)) (0, 0, 0)
    let avgConfidence :=
      if totalClusters > 0 then roundFloat64 (stats.2.2 / roundFloat64 totalClusters)
      else stats.2.2
    .ginH [(ascii "total_clusters", .int totalClusters),
      (ascii "total_duplicates", .int stats.1),
      (ascii "potential_savings", .int64 stats.2.1),
      (ascii "avg_confidence", .float64 avgConfidence)]

/-- The loop of `CompareDuplicateStrategies` over the four strategies: the
comparison map it builds, written in the order of the assignments. -/
def compareStrategies (L : Lib) (db : MetadataSource) (uid : UUID) : Comparison :=
  [(ascii "hash", StrategyHash), (ascii "size", StrategySize),
    (ascii "size_name", StrategySizeAndName), (ascii "advanced", StrategyAdvanced)].map
    (fun s => (s.1, comparisonEntry (DetectDuplicates L db uid s.2)))

/-- The recommendation of the Hash strategy when it finds savings. -/
def recommendHashAccurate : GoString := ascii "hash - Most accurate for exact duplicates"

/-- The recommendation of the Advanced strategy. -/
def recommendAdvanced : GoString :=
  ascii "advanced - Finds more potential duplicates but requires manual review"

/-- The default recommendation. -/
def recommendHashDefault : GoString := ascii "hash - Recommended for most users"

/-- The savings `getStrategyRecommendation` reads from an entry: its `int64`
field `potential_savings`, and 0 when the entry has no such field. -/
def SavingsRead (fields : GinH) (s : Int) : Prop :=
  fields.lookup (ascii "potential_savings") = some (.int64 s) ∨
    ((∀ v, fields.lookup (ascii "potential_savings") ≠ some (.int64 v)) ∧ s = 0)

/-- A comparison in which the Hash strategy failed and the Advanced strategy
found savings of 100 bytes. -/
def hashFailedComparison : Comparison :=
  [(ascii "hash", .ginH [(ascii "error", .string (ascii "failed to find hash duplicates"))]),
    (ascii "advanced", .ginH [(ascii "total_clusters", .int 1), (ascii "total_duplicates", .int 1),
      (ascii "potential_savings", .int64 100), (ascii "avg_confidence", .float64 1)])]

/-- A comparison with a summary for both strategies. -/
def bothSummaries (hashSavings advancedSavings : Int) : Comparison :=
  [(ascii "hash", .ginH [(ascii "potential_savings", .int64 hashSavings)]),
    (ascii "advanced", .ginH [(ascii "potential_savings", .int64 advancedSavings)])]

/-! ## The bearer token -/

/-- The function `ExtractBearerToken`. -/
def ExtractBearerToken (authHeader : GoString) : GoString :=
  if authHeader.length > 7 ∧ authHeader.take 7 = ascii "Bearer " then authHeader.drop 7
  else []

/-! ## The size confidence, as the specification words it -/

/-- The base confidence of a size tier. -/
def sizeBase (size : Int) : ℚ :=
  if size > 104857600 then 0.8
  else if size > 10485760 then 0.6
  else if size > 1048576 then 0.4
  else 0.3

/-- The discount for the number of members of the group. -/
def countDiscount (count : Int) : ℚ :=
  if count > 10 then 0.5
  else if count > 5 then 0.7
  else 1

/-! ## Greedy first-fit selection, as the specification words it -/

/-- Decides whether two clusters share a file ID. -/
def sharesFile (a b : DuplicateCluster) : Bool :=
  a.Candidates.any (fun x => b.Candidates.any (fun y => decide (x.File.ID = y.File.ID)))

/-- Greedy first-fit selection: walking the list, a cluster is kept exactly when
it shares no file ID with a cluster kept before it; `kept` holds the clusters
kept so far. -/
def firstFit : List DuplicateCluster → List DuplicateCluster → List DuplicateCluster
  | [], _ => []
  | cluster :: rest, kept =>
    if kept.any (fun k => sharesFile cluster k) then firstFit rest kept
    else cluster :: firstFit rest (kept ++ [cluster])

/-- A Size+Name cluster and the Hash cluster over the same two files, with a Hash cluster apart. -/
def threeClusters : List DuplicateCluster :=
  [pairNameCluster, otherHashCluster, pairHashCluster]

/-- The average candidate confidence as a number: the sum of the confidences
over their count, with no rounding; 0 for no candidate. -/
def meanConfidence (candidates : List DuplicateCandidate) : ℚ :=
  if candidates.length = 0 then 0
  else (candidates.map (fun c => c.Confidence)).sum / (candidates.length : ℚ)

/-- Priority order with the exact mean: Strategy ascending, then `meanConfidence` descending. -/
def InMeanPriorityOrder (l : List DuplicateCluster) : Prop :=
  l.Pairwise (fun a b => a.Strategy ≤ b.Strategy ∧
    (a.Strategy = b.Strategy → meanConfidence b.Candidates ≤ meanConfidence a.Candidates))

/-- A Size+Name cluster of files 1, 2 and 3, each candidate at the `float64` 0.7. -/
def tripleNameCluster : DuplicateCluster :=
  { ID := ascii "t", SHA256 := [], Size := 100, Count := 3, TotalSize := 300,
    Candidates := [fileRow 1 [] 100 "a/x.bin" 1, fileRow 2 [] 100 "b/x.bin" 2,
      fileRow 3 [] 100 "c/x.bin" 3].map
        (fun f => { File := f, Confidence := roundFloat64 (7 / 10), Reason := [] }),
    Strategy := StrategySizeAndName, CreatedAt := [] }

/-- A Size+Name cluster of files 3 and 4: one candidate at the `float64` 0.7, the
other at the `float64` next below it. -/
def unevenNameCluster : DuplicateCluster :=
  { ID := ascii "u", SHA256 := [], Size := 100, Count := 2, TotalSize := 200,
    Candidates :=
      [{ File := fileRow 3 [] 100 "c/x.bin" 3, Confidence := roundFloat64 (7 / 10), Reason := [] },
       { File := fileRow 4 [] 100 "d/x.bin" 4,
         Confidence := 6305039478318693 / 9007199254740992, Reason := [] }],
    Strategy := StrategySizeAndName, CreatedAt := [] }

/-! ## The name confidence, as the specification words it -/

/-- The unordered pairs of members of a list, each pair once. -/
def unorderedPairs {α : Type} : List α → List (α × α)
  | [] => []
  | x :: rest => rest.map (fun y => (x, y)) ++ unorderedPairs rest

/-- The similarity of the names of two members. -/
def nameSimilarity (p : DuplicateCandidate × DuplicateCandidate) : ℚ :=
  calculateStringSimilarity (extractFilename p.1.File.PathTail) (extractFilename p.2.File.PathTail)

/-- The mean, over all unordered pairs of members, of the similarity of the two names. -/
def meanPairSimilarity (group : List DuplicateCandidate) : ℚ :=
  ((unorderedPairs group).map nameSimilarity).sum / ((unorderedPairs group).length : ℚ)

/-- Three pairs of rows with equal names: two pairs of size 100 and one of size 200. -/
def threeNamePairs : List File :=
  [fileRow 1 [] 100 "a/report.txt" 1, fileRow 2 [] 100 "a/holiday.jpg" 2,
   fileRow 3 [] 100 "b/report.txt" 3, fileRow 4 [] 100 "b/holiday.jpg" 4,
   fileRow 5 [] 200 "a/notes.md" 5, fileRow 6 [] 200 "b/notes.md" 6]

/-- The similarity of the names of two members, as the `float64` the code computes. -/
def nameSimilarity64 (p : DuplicateCandidate × DuplicateCandidate) : ℚ :=
  calculateStringSimilarity64 (extractFilename p.1.File.PathTail)
    (extractFilename p.2.File.PathTail)

/-- The mean of the `float64` similarities over all unordered pairs of members,
in `float64` arithmetic: the pairs are taken first member by first member, each
addition to the running sum is rounded, and so is the division by the number of
pairs. -/
def meanPairSimilarity64 (group : List DuplicateCandidate) : ℚ :=
  roundFloat64 (((unorderedPairs group).map nameSimilarity64).foldl
    (fun total similarity => roundFloat64 (total + similarity)) 0 /
      roundFloat64 ((unorderedPairs group).length : ℚ))

/-- The bands over `float64` values: thresholds and results are the `float64`
values of the literals, and the product is rounded. -/
def confidenceBand64 (avg : ℚ) : ℚ :=
  if avg > roundFloat64 (95 / 100) then roundFloat64 (9 / 10)
  else if avg > roundFloat64 (8 / 10) then roundFloat64 (7 / 10)
  else if avg > roundFloat64 (6 / 10) then roundFloat64 (5 / 10)
  else roundFloat64 (avg * roundFloat64 (6 / 10))

/-- Three rows of one size named `abcde`, `abcdf` and `abcdg`: every two names
are one substitution in five characters apart. -/
def similarNameFiles : List File :=
  [fileRow 1 [] 100 "a/abcde" 1, fileRow 2 [] 100 "b/abcdf" 2, fileRow 3 [] 100 "c/abcdg" 3]

/-! ## The reference normalisation, as the specification words it -/

/-- The part of a path after its last `/`; the whole path when it has none. -/
def afterLastSlash (p : GoString) : GoString :=
  (p.reverse.takeWhile (fun c => c ≠ 47)).reverse

/-- The text before the last `.` of a name. -/
def beforeLastDot (name : GoString) : GoString :=
  ((name.reverse.dropWhile (fun c => c ≠ 46)).drop 1).reverse

/-- Drops everything from the last `.` onward when that `.` is not the first character. -/
def stripExtension (name : GoString) : GoString :=
  if 46 ∈ name ∧ beforeLastDot name ≠ [] then beforeLastDot name else name

/-- The reference normalisation of a path tail: final segment, lowercased,
extension stripped, `_` and `-` turned into spaces, trimmed. -/
def referenceNormalize (L : Lib) (p : GoString) : GoString :=
  L.trimSpace ((stripExtension (L.toLower (afterLastSlash p))).map
    (fun c => if c = 95 ∨ c = 45 then 32 else c))

/-! ## The classic Levenshtein distance -/

/-- The usual recursive definition of the Levenshtein distance: the length of
the other string when one is empty, the distance of the tails when the heads
agree, and otherwise one more than the least of the three distances after a
deletion, an insertion or a substitution. -/
def classicLevenshtein : List UInt8 → List UInt8 → Nat
  | [], ys => ys.length
  | x :: xs, [] => (x :: xs).length
  | x :: xs, y :: ys =>
    if x = y then classicLevenshtein xs ys
    else 1 + min (classicLevenshtein xs (y :: ys))
      (min (classicLevenshtein (x :: xs) ys) (classicLevenshtein xs ys))
termination_by xs ys => xs.length + ys.length

/-- A way of turning the first string into the second, read from left to right:
an element is kept, substituted, deleted or inserted, and the number counts the
substitutions, deletions and insertions. -/
inductive EditScript : List UInt8 → List UInt8 → Nat → Prop where
  | done : EditScript [] [] 0
  | keep (x : UInt8) {xs ys : List UInt8} {n : Nat} :
      EditScript xs ys n → EditScript (x :: xs) (x :: ys) n
  | substitute (x y : UInt8) {xs ys : List UInt8} {n : Nat} :
      EditScript xs ys n → EditScript (x :: xs) (y :: ys) (n + 1)
  | delete (x : UInt8) {xs ys : List UInt8} {n : Nat} :
      EditScript xs ys n → EditScript (x :: xs) ys (n + 1)
  | insert (y : UInt8) {xs ys : List UInt8} {n : Nat} :
      EditScript xs ys n → EditScript xs (y :: ys) (n + 1)

/-- One single-element edit of a string, at any position: an insertion, a
deletion or a substitution. -/
inductive EditStep : List UInt8 → List UInt8 → Prop where
  | insert (y : UInt8) (l : List UInt8) : EditStep l (y :: l)
  | delete (x : UInt8) (l : List UInt8) : EditStep (x :: l) l
  | substitute (x y : UInt8) (l : List UInt8) : EditStep (x :: l) (y :: l)
  | skip (x : UInt8) {l l2 : List UInt8} : EditStep l l2 → EditStep (x :: l) (x :: l2)

/-- A sequence of `n` single-element edits turning the first string into the second. -/
inductive EditChain : Nat → List UInt8 → List UInt8 → Prop where
  | refl (a : List UInt8) : EditChain 0 a a
  | step {n : Nat} {a b c : List UInt8} : EditStep a b → EditChain n b c → EditChain (n + 1) a c

/-! ## Specification vocabulary for the comparison -/

/-- The potential savings of a result: the sum of `(Count - 1) * Size` over its clusters. -/
def potentialSavings (clusters : List DuplicateCluster) : Int :=
  (clusters.map (fun c => (c.Count - 1) * c.Size)).sum

/-- Among the user's rows, every non-empty content hash is carried by rows of one size only. -/
def OneSizePerHash (table : List File) (userID : UUID) : Prop :=
  ∀ f ∈ table, ∀ g ∈ table, f.UserID = userID → g.UserID = userID → f.SHA256 ≠ [] →
    f.SHA256 = g.SHA256 → f.Size = g.Size

/-- The savings `getStrategyRecommendation` reads from a value of the comparison map. -/
def entrySavings (v : ComparisonValue) : Int :=
  (assertInt64 ((assertGinH (some v)).1.lookup (ascii "potential_savings"))).1

/-- Four pairs of rows, each pair with its own hash and a size of about 3.5e18 bytes. -/
def hugePairs : List File :=
  [fileRow 1 (hashOf 97) 3500000000000000000 "a/1.bin" 1,
   fileRow 2 (hashOf 97) 3500000000000000000 "b/1.bin" 2,
   fileRow 3 (hashOf 98) 3500000000000000001 "a/2.bin" 3,
   fileRow 4 (hashOf 98) 3500000000000000001 "b/2.bin" 4,
   fileRow 5 (hashOf 99) 3500000000000000002 "a/3.bin" 5,
   fileRow 6 (hashOf 99) 3500000000000000002 "b/3.bin" 6,
   fileRow 7 (hashOf 100) 3500000000000000003 "a/4.bin" 7,
   fileRow 8 (hashOf 100) 3500000000000000003 "b/4.bin" 8]

/-- Two rows with one hash and the negative size -5, which the `int64` column admits. -/
def negativeSizeFiles : List File :=
  [fileRow 1 (hashOf 97) (-5) "a/x.bin" 1, fileRow 2 (hashOf 97) (-5) "b/x.bin" 2]

/-! ## Properties -/

/-! ### The rounding to `float64` -/

theorem log2Fuel_spec : ∀ (fuel n : Nat), n ≤ fuel → 1 ≤ n →
    2 ^ log2Fuel fuel n ≤ n ∧ n < 2 ^ (log2Fuel fuel n + 1) := by
  intro fuel
  induction fuel with
  | zero => intro n h1 h2; omega
  | succ fuel ih =>
    intro n h1 h2
    rw [log2Fuel]
    split_ifs with hlt
    · have : n = 1 := by omega
      subst this
      simp
    · obtain ⟨ha, hb⟩ := ih (n / 2) (by omega) (by omega)
      rw [pow_succ, pow_succ]
      rw [pow_succ] at hb
      constructor <;> omega

theorem log2Floor_spec (n : Nat) (h : 1 ≤ n) :
    2 ^ log2Floor n ≤ n ∧ n < 2 ^ (log2Floor n + 1) :=
  log2Fuel_spec n n (Nat.le_refl n) h

theorem pow2_eq (e : Int) : pow2 e = (2 : ℚ) ^ e := by
  unfold pow2
  split_ifs with h
  · obtain ⟨n, rfl⟩ := Int.eq_ofNat_of_zero_le h
    simp
  · push_neg at h
    obtain ⟨n, hn⟩ := Int.exists_eq_neg_ofNat (le_of_lt h)
    subst hn
    simp

theorem pow2_pos (e : Int) : 0 < pow2 e := by
  rw [pow2_eq]
  positivity

theorem binade_spec (a : ℚ) (ha : 0 < a) :
    (2 : ℚ) ^ binade a ≤ a ∧ a < (2 : ℚ) ^ (binade a + 1) := by
  have hnum : 0 < a.num := Rat.num_pos.mpr ha
  have hn1 : 1 ≤ a.num.natAbs := by omega
  have hd1 : 1 ≤ a.den := a.den_pos
  obtain ⟨hn_lo, hn_hi⟩ := log2Floor_spec a.num.natAbs hn1
  obtain ⟨hd_lo, hd_hi⟩ := log2Floor_spec a.den hd1
  have hnq : (a.num.natAbs : ℚ) = a.num := by
    have h1 : ((a.num.natAbs : Int) : ℚ) = (a.num : ℚ) := by
      rw [Int.natAbs_of_nonneg (le_of_lt hnum)]
    rw [← h1]
    exact (Int.cast_natCast _).symm
  have ha_eq : a = (a.num.natAbs : ℚ) / (a.den : ℚ) := by
    rw [hnq]
    exact (Rat.num_div_den a).symm
  have hdpos : (0 : ℚ) < a.den := by exact_mod_cast hd1
  set n := a.num.natAbs with hn
  set d := a.den with hd
  set ln := log2Floor n
  set ld := log2Floor d
  have hn_lo' : (2 : ℚ) ^ (ln : Int) ≤ n := by
    rw [zpow_natCast]; exact_mod_cast hn_lo
  have hn_hi' : (n : ℚ) < (2 : ℚ) ^ ((ln : Int) + 1) := by
    rw [show ((ln : Int) + 1) = ((ln + 1 : Nat) : Int) by push_cast; ring, zpow_natCast]
    exact_mod_cast hn_hi
  have hd_lo' : (2 : ℚ) ^ (ld : Int) ≤ d := by
    rw [zpow_natCast]; exact_mod_cast hd_lo
  have hd_hi' : (d : ℚ) < (2 : ℚ) ^ ((ld : Int) + 1) := by
    rw [show ((ld : Int) + 1) = ((ld + 1 : Nat) : Int) by push_cast; ring, zpow_natCast]
    exact_mod_cast hd_hi
  have h2 : (0 : ℚ) < 2 := by norm_num
  -- the test of the definition
  have htest : ((n : Int) * 2 ^ (-((ln : Int) - (ld : Int))).toNat ≥
      (d : Int) * 2 ^ ((ln : Int) - (ld : Int)).toNat) ↔
      (2 : ℚ) ^ ((ln : Int) - (ld : Int)) ≤ a := by
    rw [ha_eq, le_div_iff₀ hdpos]
    rcases le_total 0 ((ln : Int) - (ld : Int)) with hk | hk
    · obtain ⟨k, hk'⟩ := Int.eq_ofNat_of_zero_le hk
      rw [hk']
      have h0 : (-(k : Int)).toNat = 0 := by simp
      simp only [h0, Int.toNat_ofNat, pow_zero, mul_one, zpow_natCast, ge_iff_le]
      constructor
      · intro h
        have : ((d : Int) * 2 ^ k : Int) ≤ (n : Int) := h
        have h' : (((d : Int) * 2 ^ k : Int) : ℚ) ≤ ((n : Int) : ℚ) := by exact_mod_cast this
        push_cast at h'
        linarith
      · intro h
        have h' : ((d : ℚ) * 2 ^ k) ≤ (n : ℚ) := by linarith
        exact_mod_cast h'
    · obtain ⟨k, hk'⟩ := Int.exists_eq_neg_ofNat hk
      rw [hk']
      have h0 : (-(k : Int)).toNat = 0 := by simp
      simp only [h0, neg_neg, Int.toNat_ofNat, pow_zero, mul_one, zpow_neg, zpow_natCast, ge_iff_le]
      have hpk : (0 : ℚ) < 2 ^ k := by positivity
      constructor
      · intro h
        have h' : (((d : Int)) : ℚ) ≤ (((n : Int) * 2 ^ k : Int) : ℚ) := by exact_mod_cast h
        push_cast at h'
        rw [inv_mul_le_iff₀ hpk]
        linarith
      · intro h
        rw [inv_mul_le_iff₀ hpk] at h
        have h' : (d : ℚ) ≤ (n : ℚ) * 2 ^ k := by linarith
        exact_mod_cast h'
  have hlow : (2 : ℚ) ^ ((ln : Int) - (ld : Int) - 1) < a := by
    rw [ha_eq, lt_div_iff₀ hdpos]
    calc (2 : ℚ) ^ ((ln : Int) - (ld : Int) - 1) * d
        < (2 : ℚ) ^ ((ln : Int) - (ld : Int) - 1) * (2 : ℚ) ^ ((ld : Int) + 1) := by
          apply mul_lt_mul_of_pos_left hd_hi'
          positivity
      _ = (2 : ℚ) ^ (ln : Int) := by
          rw [← zpow_add₀ (by norm_num : (2 : ℚ) ≠ 0)]
          congr 1
          ring
      _ ≤ n := hn_lo'
  have hhigh : a < (2 : ℚ) ^ ((ln : Int) - (ld : Int) + 1) := by
    rw [ha_eq, div_lt_iff₀ hdpos]
    calc (n : ℚ) < (2 : ℚ) ^ ((ln : Int) + 1) := hn_hi'
      _ = (2 : ℚ) ^ ((ln : Int) - (ld : Int) + 1) * (2 : ℚ) ^ (ld : Int) := by
          rw [← zpow_add₀ (by norm_num : (2 : ℚ) ≠ 0)]
          congr 1
          ring
      _ ≤ (2 : ℚ) ^ ((ln : Int) - (ld : Int) + 1) * d := by
          apply mul_le_mul_of_nonneg_left hd_lo'
          positivity
  unfold binade
  simp only []
  split_ifs with ht
  · exact ⟨htest.mp ht, hhigh⟩
  · refine ⟨le_of_lt hlow, ?_⟩
    rw [sub_add_cancel]
    exact lt_of_not_le (fun h => ht (htest.mpr h))

theorem roundHalfEven_bounds (x : ℚ) : ⌊x⌋ ≤ roundHalfEven x ∧ roundHalfEven x ≤ ⌊x⌋ + 1 := by
  unfold roundHalfEven
  simp only []
  split_ifs <;> constructor <;> omega

theorem roundHalfEven_intCast (n : Int) : roundHalfEven (n : ℚ) = n := by
  unfold roundHalfEven
  simp

theorem roundHalfEven_mono {x y : ℚ} (h : x ≤ y) : roundHalfEven x ≤ roundHalfEven y := by
  have hf : ⌊x⌋ ≤ ⌊y⌋ := Int.floor_mono h
  rcases lt_or_eq_of_le hf with hlt | heq
  · have h1 := (roundHalfEven_bounds x).2
    have h2 := (roundHalfEven_bounds y).1
    omega
  · have hr : x - ⌊x⌋ ≤ y - ⌊x⌋ := by linarith
    unfold roundHalfEven
    simp only []
    rw [← heq]
    split_ifs <;> first | omega | (exfalso; linarith)

theorem zpow_two_eq_intCast {k : Int} (hk : 0 ≤ k) :
    (2 : ℚ) ^ k = (((2 : Int) ^ k.toNat : Int) : ℚ) := by
  obtain ⟨n, rfl⟩ := Int.eq_ofNat_of_zero_le hk
  simp

theorem round_le_pow {x : ℚ} {K e : Int} (hx : x ≤ (2 : ℚ) ^ K) (he : e ≤ K) :
    (roundHalfEven (x / pow2 e) : ℚ) * pow2 e ≤ (2 : ℚ) ^ K := by
  rw [pow2_eq]
  have hpos : (0 : ℚ) < (2 : ℚ) ^ e := by positivity
  have hsplit : (2 : ℚ) ^ K = (2 : ℚ) ^ (K - e) * (2 : ℚ) ^ e := by
    rw [← zpow_add₀ (by norm_num : (2 : ℚ) ≠ 0)]
    congr 1
    ring
  have hdiv : x / (2 : ℚ) ^ e ≤ (((2 : Int) ^ (K - e).toNat : Int) : ℚ) := by
    rw [← zpow_two_eq_intCast (by omega), div_le_iff₀ hpos, ← hsplit]
    exact hx
  have hm := roundHalfEven_mono hdiv
  rw [roundHalfEven_intCast] at hm
  have hm' : (roundHalfEven (x / (2 : ℚ) ^ e) : ℚ) ≤ (((2 : Int) ^ (K - e).toNat : Int) : ℚ) := by
    exact_mod_cast hm
  rw [← zpow_two_eq_intCast (by omega)] at hm'
  rw [hsplit]
  exact mul_le_mul_of_nonneg_right hm' (le_of_lt hpos)

theorem pow_le_round {y : ℚ} {K e : Int} (hy : (2 : ℚ) ^ K ≤ y) (he : e ≤ K) :
    (2 : ℚ) ^ K ≤ (roundHalfEven (y / pow2 e) : ℚ) * pow2 e := by
  rw [pow2_eq]
  have hpos : (0 : ℚ) < (2 : ℚ) ^ e := by positivity
  have hsplit : (2 : ℚ) ^ K = (2 : ℚ) ^ (K - e) * (2 : ℚ) ^ e := by
    rw [← zpow_add₀ (by norm_num : (2 : ℚ) ≠ 0)]
    congr 1
    ring
  have hdiv : (((2 : Int) ^ (K - e).toNat : Int) : ℚ) ≤ y / (2 : ℚ) ^ e := by
    rw [← zpow_two_eq_intCast (by omega), le_div_iff₀ hpos, ← hsplit]
    exact hy
  have hm := roundHalfEven_mono hdiv
  rw [roundHalfEven_intCast] at hm
  have hm' : (((2 : Int) ^ (K - e).toNat : Int) : ℚ) ≤ (roundHalfEven (y / (2 : ℚ) ^ e) : ℚ) := by
    exact_mod_cast hm
  rw [← zpow_two_eq_intCast (by omega)] at hm'
  rw [hsplit]
  exact mul_le_mul_of_nonneg_right hm' (le_of_lt hpos)

theorem roundFloat64_of_pos {x : ℚ} (hx : 0 < x) :
    roundFloat64 x =
      (roundHalfEven (x / pow2 (max (binade x - 52) (-1074))) : ℚ) *
        pow2 (max (binade x - 52) (-1074)) := by
  unfold roundFloat64
  rw [if_neg (ne_of_gt hx)]
  simp only [abs_of_pos hx]
  rw [if_neg (not_lt.mpr (le_of_lt hx))]

theorem roundFloat64_neg (x : ℚ) : roundFloat64 (-x) = -roundFloat64 x := by
  unfold roundFloat64
  by_cases h0 : x = 0
  · simp [h0]
  · rw [if_neg (neg_ne_zero.mpr h0), if_neg h0]
    simp only [abs_neg]
    rcases lt_or_gt_of_ne h0 with h | h
    · rw [if_neg (by linarith), if_pos h, neg_neg]
    · rw [if_pos (by linarith), if_neg (by linarith)]

theorem roundFloat64_nonneg {x : ℚ} (hx : 0 ≤ x) : 0 ≤ roundFloat64 x := by
  rcases eq_or_lt_of_le hx with h | h
  · rw [← h]; simp [roundFloat64]
  · rw [roundFloat64_of_pos h]
    apply mul_nonneg _ (le_of_lt (pow2_pos _))
    have h1 := (roundHalfEven_bounds (x / pow2 (max (binade x - 52) (-1074)))).1
    have h2 : 0 ≤ x / pow2 (max (binade x - 52) (-1074)) :=
      div_nonneg hx (le_of_lt (pow2_pos _))
    have h3 : (0 : Int) ≤ ⌊x / pow2 (max (binade x - 52) (-1074))⌋ := Int.floor_nonneg.mpr h2
    exact_mod_cast le_trans h3 h1

theorem binade_mono {x y : ℚ} (hx : 0 < x) (h : x ≤ y) : binade x ≤ binade y := by
  have h1 := (binade_spec x hx).1
  have h2 := (binade_spec y (lt_of_lt_of_le hx h)).2
  have h3 : (2 : ℚ) ^ binade x < (2 : ℚ) ^ (binade y + 1) := lt_of_le_of_lt (le_trans h1 h) h2
  have h4 := (zpow_lt_zpow_iff_right₀ (by norm_num : (1 : ℚ) < 2)).mp h3
  omega

theorem roundFloat64_mono_pos {x y : ℚ} (hx : 0 < x) (h : x ≤ y) :
    roundFloat64 x ≤ roundFloat64 y := by
  have hy : 0 < y := lt_of_lt_of_le hx h
  rw [roundFloat64_of_pos hx, roundFloat64_of_pos hy]
  have hb := binade_mono hx h
  rcases eq_or_lt_of_le (max_le_max (sub_le_sub_right hb 52) (le_refl (-1074 : Int))) with he | he
  · rw [he]
    apply mul_le_mul_of_nonneg_right _ (le_of_lt (pow2_pos _))
    have := roundHalfEven_mono (div_le_div_of_nonneg_right h (le_of_lt (pow2_pos (max (binade y - 52) (-1074)))))
    exact_mod_cast this
  · have hxy : binade x + 1 ≤ binade y := by omega
    have hxK : x ≤ (2 : ℚ) ^ binade y :=
      le_trans (le_of_lt (binade_spec x hx).2)
        ((zpow_le_zpow_iff_right₀ (by norm_num : (1 : ℚ) < 2)).mpr hxy)
    exact le_trans (round_le_pow hxK (by omega)) (pow_le_round (binade_spec y hy).1 (by omega))

theorem roundFloat64_mono {x y : ℚ} (h : x ≤ y) : roundFloat64 x ≤ roundFloat64 y := by
  rcases lt_trichotomy x 0 with hx | hx | hx
  · rcases lt_or_le y 0 with hy | hy
    · have := roundFloat64_mono_pos (neg_pos.mpr hy) (neg_le_neg h)
      rw [roundFloat64_neg, roundFloat64_neg] at this
      linarith
    · have h1 := roundFloat64_nonneg (le_of_lt (neg_pos.mpr hx))
      rw [roundFloat64_neg] at h1
      have h2 := roundFloat64_nonneg hy
      linarith
  · subst hx
    have := roundFloat64_nonneg h
    simpa [roundFloat64] using this
  · exact roundFloat64_mono_pos hx h

theorem binade_unique {y : ℚ} {E : Int} (hy : 0 < y) (h1 : (2 : ℚ) ^ E ≤ y)
    (h2 : y < (2 : ℚ) ^ (E + 1)) : binade y = E := by
  obtain ⟨s1, s2⟩ := binade_spec y hy
  have a1 := (zpow_lt_zpow_iff_right₀ (by norm_num : (1 : ℚ) < 2)).mp (lt_of_le_of_lt s1 h2)
  have a2 := (zpow_lt_zpow_iff_right₀ (by norm_num : (1 : ℚ) < 2)).mp (lt_of_le_of_lt h1 s2)
  omega

theorem roundFloat64_of_grid {y : ℚ} (hy : 0 < y)
    (h : ∃ N : Int, y / pow2 (max (binade y - 52) (-1074)) = (N : ℚ)) : roundFloat64 y = y := by
  obtain ⟨N, hN⟩ := h
  rw [roundFloat64_of_pos hy, hN, roundHalfEven_intCast, ← hN]
  exact div_mul_cancel₀ _ (ne_of_gt (pow2_pos _))

theorem roundFloat64_grid (m e : Int) (hm : 0 < m) (he : -1074 ≤ e)
    (hle : (m : ℚ) * (2 : ℚ) ^ e ≤ (2 : ℚ) ^ (e + 53)) :
    roundFloat64 ((m : ℚ) * (2 : ℚ) ^ e) = (m : ℚ) * (2 : ℚ) ^ e := by
  have h2 : (2 : ℚ) ≠ 0 := by norm_num
  have hmq : (0 : ℚ) < m := by exact_mod_cast hm
  have hy : (0 : ℚ) < (m : ℚ) * (2 : ℚ) ^ e := mul_pos hmq (by positivity)
  apply roundFloat64_of_grid hy
  rcases lt_or_eq_of_le hle with hlt | heq
  · have hb : binade ((m : ℚ) * (2 : ℚ) ^ e) < e + 53 :=
      (zpow_lt_zpow_iff_right₀ (by norm_num : (1 : ℚ) < 2)).mp
        (lt_of_le_of_lt (binade_spec _ hy).1 hlt)
    have h52 : binade ((m : ℚ) * (2 : ℚ) ^ e) - 52 ≤ e := by omega
    have hle' : max (binade ((m : ℚ) * (2 : ℚ) ^ e) - 52) (-1074) ≤ e := max_le h52 he
    refine ⟨m * (2 : Int) ^ (e - max (binade ((m : ℚ) * (2 : ℚ) ^ e) - 52) (-1074)).toNat, ?_⟩
    rw [pow2_eq, mul_div_assoc, ← zpow_sub₀ h2, zpow_two_eq_intCast (by omega)]
    push_cast
    rfl
  · have hb : binade ((m : ℚ) * (2 : ℚ) ^ e) = e + 53 := by
      apply binade_unique hy (le_of_eq heq.symm)
      rw [heq]
      exact (zpow_lt_zpow_iff_right₀ (by norm_num : (1 : ℚ) < 2)).mpr (by omega)
    have hmax : max (binade ((m : ℚ) * (2 : ℚ) ^ e) - 52) (-1074) = e + 1 := by
      rw [hb]
      have h1 : (-1074 : Int) ≤ e + 53 - 52 := by omega
      rw [max_eq_left h1]
      ring
    refine ⟨(2 : Int) ^ 52, ?_⟩
    rw [hmax, pow2_eq, heq, ← zpow_sub₀ h2]
    have : e + 53 - (e + 1) = ((52 : Nat) : Int) := by push_cast; ring
    rw [this, zpow_natCast]
    push_cast
    rfl

theorem roundFloat64_idem (x : ℚ) : roundFloat64 (roundFloat64 x) = roundFloat64 x := by
  have hpos : ∀ x : ℚ, 0 < x → roundFloat64 (roundFloat64 x) = roundFloat64 x := by
    intro x hx
    have hnn := roundFloat64_nonneg (le_of_lt hx)
    rw [roundFloat64_of_pos hx] at hnn ⊢
    rw [pow2_eq] at hnn ⊢
    have hp : (0 : ℚ) < (2 : ℚ) ^ max (binade x - 52) (-1074) := by positivity
    have hm0 : (0 : ℚ) ≤ (roundHalfEven (x / (2 : ℚ) ^ max (binade x - 52) (-1074)) : ℚ) := by
      by_contra hneg
      push_neg at hneg
      have := mul_neg_of_neg_of_pos hneg hp
      linarith
    rcases eq_or_lt_of_le hm0 with h0 | h0
    · rw [← h0]
      simp [roundFloat64]
    · apply roundFloat64_grid _ _ (by exact_mod_cast h0) (le_max_right _ _)
      have hxK : x ≤ (2 : ℚ) ^ (max (binade x - 52) (-1074) + 53) :=
        le_trans (le_of_lt (binade_spec x hx).2)
          ((zpow_le_zpow_iff_right₀ (by norm_num : (1 : ℚ) < 2)).mpr
            (by have := le_max_left (binade x - 52) (-1074); omega))
      have := round_le_pow hxK (by omega : max (binade x - 52) (-1074) ≤ max (binade x - 52) (-1074) + 53)
      rw [pow2_eq] at this
      exact this
  rcases lt_trichotomy x 0 with hx | hx | hx
  · have := hpos (-x) (neg_pos.mpr hx)
    rw [roundFloat64_neg, roundFloat64_neg] at this
    exact neg_injective this
  · subst hx
    simp [roundFloat64]
  · exact hpos x hx

theorem roundFloat64_one : roundFloat64 1 = 1 := by
  have := roundFloat64_grid 1 0 (by norm_num) (by norm_num) (by norm_num)
  simpa using this

theorem roundFloat64_zero : roundFloat64 0 = 0 := by
  simp [roundFloat64]

/-! ### Edit distance and similarity -/

theorem min3_eq_min (a b c : Nat) : min3 a b c = min a (min b c) := by
  unfold min3
  split_ifs <;> omega

theorem min3_swap (a b c : Nat) : min3 a b c = min3 b a c := by
  rw [min3_eq_min, min3_eq_min]; omega

theorem editDist_nil_left (ys : List UInt8) : editDist [] ys = ys.length := by
  rw [editDist]

theorem editDist_nil_right (xs : List UInt8) : editDist xs [] = xs.length := by
  cases xs with
  | nil => rw [editDist]
  | cons x xs => rw [editDist]

theorem editDist_cons_cons (x y : UInt8) (xs ys : List UInt8) :
    editDist (x :: xs) (y :: ys) =
      min3 (editDist xs (y :: ys) + 1) (editDist (x :: xs) ys + 1)
        (editDist xs ys + (if x ≠ y then 1 else 0)) := by
  rw [editDist]

theorem editDist_comm : ∀ xs ys : List UInt8, editDist xs ys = editDist ys xs := by
  intro xs
  induction xs with
  | nil => intro ys; rw [editDist_nil_left, editDist_nil_right]
  | cons x xs ihx =>
    intro ys
    induction ys with
    | nil => rw [editDist_nil_left, editDist_nil_right]
    | cons y ys ihy =>
      rw [editDist_cons_cons, editDist_cons_cons, min3_swap, ihy, ihx (y :: ys), ihx ys]
      have hc : (if x ≠ y then 1 else 0) = (if y ≠ x then 1 else 0) := by
        by_cases h : x = y
        · subst h; rfl
        · have h2 : y ≠ x := fun e => h e.symm
          simp [h, h2]
      rw [hc]

theorem rowOf_eq_cons (p q rest : List UInt8) :
    rowOf p q rest = editDist p q :: (rowOf p q rest).tail := by
  cases rest <;> simp [rowOf]

theorem fillRow_rowOf (c : UInt8) (p : List UInt8) :
    ∀ rest q, fillRow c rest (rowOf p q rest) (editDist (c :: p) q) = (rowOf (c :: p) q rest).tail := by
  intro rest
  induction rest with
  | nil => intro q; simp [rowOf, fillRow]
  | cons r rest ih =>
    intro q
    have h1 : rowOf p q (r :: rest) = editDist p q :: editDist p (r :: q) :: (rowOf p (r :: q) rest).tail := by
      conv_lhs => rw [rowOf, rowOf_eq_cons p (r :: q) rest]
    have h2 : editDist p (r :: q) :: (rowOf p (r :: q) rest).tail = rowOf p (r :: q) rest :=
      (rowOf_eq_cons p (r :: q) rest).symm
    rw [h1, fillRow]
    rw [← editDist_cons_cons, h2, ih (r :: q)]
    simp only [rowOf, List.tail_cons]
    exact (rowOf_eq_cons (c :: p) (r :: q) rest).symm

theorem rowOf_nil (rest : List UInt8) :
    ∀ q, rowOf [] q rest = List.range' q.length (rest.length + 1) := by
  induction rest with
  | nil => intro q; simp [rowOf, editDist_nil_left]
  | cons r rest ih =>
    intro q
    rw [rowOf, ih (r :: q), editDist_nil_left]
    simp [List.range'_succ]

theorem rowOf_getD (p : List UInt8) (rest : List UInt8) :
    ∀ q, (rowOf p q rest).getD rest.length 0 = editDist p (rest.reverse ++ q) := by
  induction rest with
  | nil => intro q; simp [rowOf]
  | cons r rest ih =>
    intro q
    rw [rowOf]
    simp only [List.length_cons, List.getD_cons_succ, List.reverse_cons, List.append_assoc,
      List.singleton_append]
    exact ih (r :: q)

theorem levenshteinRows_fold (s2 : GoString) :
    ∀ (s1 p : GoString),
      s1.foldl (fun st c => (st.1 + 1, (st.1 + 1) :: fillRow c s2 st.2 (st.1 + 1)))
          (p.length, rowOf p [] s2) =
        ((s1.reverse ++ p).length, rowOf (s1.reverse ++ p) [] s2) := by
  intro s1
  induction s1 with
  | nil => intro p; simp
  | cons c s1 ih =>
    intro p
    have hrow : (p.length + 1) :: fillRow c s2 (rowOf p [] s2) (p.length + 1) = rowOf (c :: p) [] s2 := by
      have h := fillRow_rowOf c p s2 []
      rw [editDist_nil_right] at h
      rw [List.length_cons] at h
      rw [h, rowOf_eq_cons (c :: p) [] s2, editDist_nil_right]
      simp
    simp only [List.foldl_cons]
    rw [hrow]
    have := ih (c :: p)
    simp only [List.length_cons] at this
    rw [this]
    simp

theorem levenshteinRows_eq (s1 s2 : GoString) :
    levenshteinRows s1 s2 = (s1.length, rowOf s1.reverse [] s2) := by
  have h := levenshteinRows_fold s2 s1 []
  rw [rowOf_nil] at h
  simp only [List.length_nil, zero_add, List.append_nil, List.length_reverse] at h
  unfold levenshteinRows
  rw [List.range_eq_range']
  exact h

/-- The matrix computation returns the recursive edit distance of the reversed strings. -/
theorem levenshteinDistance_eq_editDist (s1 s2 : GoString) :
    levenshteinDistance s1 s2 = editDist s1.reverse s2.reverse := by
  unfold levenshteinDistance
  split_ifs with h1 h2
  · have : s1 = [] := List.length_eq_zero.mp h1
    subst this
    simp [editDist_nil_left]
  · have : s2 = [] := List.length_eq_zero.mp h2
    subst this
    simp [editDist_nil_right]
  · rw [levenshteinRows_eq]
    have := rowOf_getD s1.reverse s2 []
    simpa using this

/-- C10: `calculateStringSimilarity(a, b) == calculateStringSimilarity(b, a)` for all
strings `a` and `b`, and likewise `levenshteinDistance(a, b) == levenshteinDistance(b, a)`. -/
theorem similarity_symmetric (a b : GoString) :
    calculateStringSimilarity a b = calculateStringSimilarity b a ∧
      levenshteinDistance a b = levenshteinDistance b a := by
  have hlev : levenshteinDistance a b = levenshteinDistance b a := by
    rw [levenshteinDistance_eq_editDist, levenshteinDistance_eq_editDist, editDist_comm]
  refine ⟨?_, hlev⟩
  unfold calculateStringSimilarity
  by_cases hab : a = b
  · subst hab; rfl
  · have hba : ¬ b = a := fun e => hab e.symm
    have hmax : (if b.length > a.length then b.length else a.length) =
        (if a.length > b.length then a.length else b.length) := by
      split_ifs <;> omega
    simp only [hab, hba, if_false]
    rw [hmax, hlev]

/-! ### The contract of `sort.Slice` and the two comparisons -/

theorem insertionSort_contract (less : DuplicateCluster → DuplicateCluster → Bool)
    (xs : List DuplicateCluster) (h : StrictWeakOrder less) :
    (xs.insertionSort (fun a b => less b a = false)).Pairwise (fun a b => less b a = false) := by
  obtain ⟨hirr, htrans, hneg⟩ := h
  haveI : IsTotal DuplicateCluster (fun a b => less b a = false) := ⟨by
    intro a b
    by_cases hba : less b a = false
    · exact Or.inl hba
    · right
      by_contra hab
      have h1 : less b a = true := by simpa using hba
      have h2 : less a b = true := by simpa using hab
      have := htrans a b a h2 h1
      rw [hirr a] at this
      exact Bool.noConfusion this⟩
  haveI : IsTrans DuplicateCluster (fun a b => less b a = false) := ⟨by
    intro a b c hab hbc
    exact hneg c b a hbc hab⟩
  exact List.sorted_insertionSort (fun a b => less b a = false) xs

theorem refLib_sortOK : refLib.SortOK := by
  intro less xs
  exact ⟨List.perm_insertionSort _ xs, insertionSort_contract less xs⟩

theorem priorityLess_iff (a b : DuplicateCluster) :
    priorityLess a b = true ↔
      (a.Strategy < b.Strategy ∨ (a.Strategy = b.Strategy ∧
        calculateAverageConfidence b.Candidates < calculateAverageConfidence a.Candidates)) := by
  unfold priorityLess
  by_cases h : a.Strategy = b.Strategy
  · simp [h]
  · simp [h]

theorem priorityLess_strictWeakOrder : StrictWeakOrder priorityLess := by
  refine ⟨?_, ?_, ?_⟩
  · intro a
    rw [Bool.eq_false_iff]
    intro h
    rw [priorityLess_iff] at h
    rcases h with h | ⟨_, h⟩
    · exact lt_irrefl _ h
    · exact lt_irrefl _ h
  · intro a b c hab hbc
    rw [priorityLess_iff] at *
    rcases hab with h1 | ⟨e1, h1⟩ <;> rcases hbc with h2 | ⟨e2, h2⟩
    · exact Or.inl (lt_trans h1 h2)
    · exact Or.inl (e2 ▸ h1)
    · exact Or.inl (e1 ▸ h2)
    · exact Or.inr ⟨e1.trans e2, lt_trans h2 h1⟩
  · intro a b c hab hbc
    rw [Bool.eq_false_iff] at *
    rw [Ne, priorityLess_iff] at *
    intro hac
    rcases hac with h | ⟨he, hlt⟩
    · by_cases h1 : a.Strategy < b.Strategy
      · exact hab (Or.inl h1)
      · exact hbc (Or.inl (lt_of_le_of_lt (not_lt.mp h1) h))
    · by_cases h1 : a.Strategy < b.Strategy
      · exact hab (Or.inl h1)
      · by_cases h2 : b.Strategy < c.Strategy
        · exact hbc (Or.inl h2)
        · have e1 : a.Strategy = b.Strategy :=
            le_antisymm (he.le.trans (not_lt.mp h2)) (not_lt.mp h1)
          have e2 : b.Strategy = c.Strategy :=
            le_antisymm ((not_lt.mp h1).trans he.le) (not_lt.mp h2)
          have g1 : ¬ calculateAverageConfidence b.Candidates < calculateAverageConfidence a.Candidates :=
            fun g => hab (Or.inr ⟨e1, g⟩)
          have g2 : ¬ calculateAverageConfidence c.Candidates < calculateAverageConfidence b.Candidates :=
            fun g => hbc (Or.inr ⟨e2, g⟩)
          exact absurd hlt (not_lt.mpr (le_trans (not_lt.mp g1) (not_lt.mp g2)))

theorem savingsLess_strictWeakOrder : StrictWeakOrder savingsLess := by
  unfold StrictWeakOrder savingsLess
  simp only [decide_eq_true_eq, decide_eq_false_iff_not, gt_iff_lt, lt_self_iff_false,
    not_false_eq_true, implies_true, true_and, not_lt]
  exact ⟨fun a b c h1 h2 => lt_trans h2 h1, fun a b c h1 h2 => le_trans h1 h2⟩

/-! ### The reconciler -/

theorem sharesFile_symm {a b : DuplicateCluster} (h : SharesFile a b) : SharesFile b a := by
  obtain ⟨x, hx, y, hy, hxy⟩ := h
  exact ⟨y, hy, x, hx, hxy.symm⟩

theorem selectClusters_spec :
    ∀ (l : List DuplicateCluster) (used : List Nat),
      (selectClusters l used).Pairwise (fun a b => ¬ SharesFile a b) ∧
        ∀ c ∈ selectClusters l used, ∀ x ∈ c.Candidates, x.File.ID ∉ used := by
  intro l
  induction l with
  | nil => intro used; simp [selectClusters]
  | cons d rest ih =>
    intro used
    rw [selectClusters]
    split_ifs with h
    · exact ih used
    · obtain ⟨hp, hm⟩ := ih (used ++ d.Candidates.map (fun candidate => candidate.File.ID))
      constructor
      · rw [List.pairwise_cons]
        refine ⟨?_, hp⟩
        rintro e he ⟨x, hx, y, hy, hxy⟩
        apply hm e he y hy
        rw [List.mem_append]
        right
        rw [List.mem_map]
        exact ⟨x, hx, hxy⟩
      · intro c hc x hx
        rcases List.mem_cons.mp hc with rfl | hc2
        · intro hu
          apply h
          rw [List.any_eq_true]
          exact ⟨x, hx, by simpa using hu⟩
        · intro hu
          exact hm c hc2 x hx (List.mem_append_left _ hu)

theorem selectClusters_sublist :
    ∀ (l : List DuplicateCluster) (used : List Nat), (selectClusters l used).Sublist l := by
  intro l
  induction l with
  | nil => intro used; simp [selectClusters]
  | cons d rest ih =>
    intro used
    rw [selectClusters]
    split_ifs with h
    · exact (ih used).cons d
    · exact (ih _).cons₂ d

theorem exclusive_of_pairwise {r : List DuplicateCluster}
    (h : r.Pairwise (fun a b => ¬ SharesFile a b)) : Exclusive r := by
  intro i j hi hj hne
  rw [List.pairwise_iff_get] at h
  rcases Nat.lt_or_gt_of_ne hne with hlt | hgt
  · exact h ⟨i, hi⟩ ⟨j, hj⟩ hlt
  · intro hs
    exact h ⟨j, hj⟩ ⟨i, hi⟩ hgt (sharesFile_symm hs)

theorem pairwise_of_exclusive {r : List DuplicateCluster} (h : Exclusive r) :
    r.Pairwise (fun a b => ¬ SharesFile a b) := by
  rw [List.pairwise_iff_get]
  intro i j hij
  exact h i.1 j.1 i.2 j.2 (Nat.ne_of_lt hij)

theorem exclusive_perm {r₁ r₂ : List DuplicateCluster} (hp : r₁.Perm r₂) (h : Exclusive r₂) :
    Exclusive r₁ := by
  apply exclusive_of_pairwise
  exact (hp.pairwise_iff (R := fun a b => ¬ SharesFile a b)
    (fun hab hba => hab (sharesFile_symm hba))).mpr (pairwise_of_exclusive h)

theorem detectAdvanced_ok {L : Lib} {db : MetadataSource} {userID : UUID} {r : List DuplicateCluster}
    (h : detectAdvanced L db userID = .ok r) :
    ∃ hashClusters sizeNameClusters,
      detectByHash L db userID = .ok hashClusters ∧
        detectBySizeAndName L db userID = .ok sizeNameClusters ∧
          r = rankBySavings L (deduplicateClusters L (hashClusters ++ sizeNameClusters)) := by
  unfold detectAdvanced at h
  cases h1 : detectByHash L db userID with
  | error e => rw [h1] at h; cases h
  | ok hs =>
    cases h2 : detectBySizeAndName L db userID with
    | error e => rw [h1, h2] at h; cases h
    | ok ns =>
      rw [h1, h2] at h
      simp only [Except.ok.injEq] at h
      exact ⟨hs, ns, rfl, rfl, h.symm⟩

/-- C1: the list returned by `deduplicateClusters` has no file ID in two
different clusters, and neither has the list returned by `detectAdvanced`,
which is the reconciled list re-ordered by `sort.Slice`. -/
theorem reconciler_exclusive (L : Lib) :
    (∀ cs, Exclusive (deduplicateClusters L cs)) ∧
      (L.SortOK → ∀ db userID r, detectAdvanced L db userID = .ok r → Exclusive r) := by
  constructor
  · intro cs
    exact exclusive_of_pairwise (selectClusters_spec _ []).1
  · intro hL db userID r h
    obtain ⟨hs, ns, _, _, hr⟩ := detectAdvanced_ok h
    subst hr
    exact exclusive_perm (hL savingsLess _).1 (exclusive_of_pairwise (selectClusters_spec _ []).1)

theorem detectAdvanced_fourFiles :
    clusterFiles (detectAdvanced refLib (tableSource fourFiles) 1) = .ok [(0, [1, 2]), (0, [3, 4])] := by
  decide!

theorem reconciler_exclusive_witness :
    refLib.SortOK ∧ ∃ r, detectAdvanced refLib (tableSource fourFiles) 1 = .ok r ∧
      r.map (fun c => c.Candidates.map (fun x => x.File.ID)) = [[1, 2], [3, 4]] ∧ Exclusive r := by
  refine ⟨refLib_sortOK, ?_⟩
  have e := detectAdvanced_fourFiles
  cases h : detectAdvanced refLib (tableSource fourFiles) 1 with
  | error err => rw [h] at e; cases e
  | ok r =>
    rw [h] at e
    refine ⟨r, rfl, ?_, (reconciler_exclusive refLib).2 refLib_sortOK _ _ _ h⟩
    simp only [clusterFiles, Except.map, Except.ok.injEq] at e
    have := congrArg (List.map Prod.snd) e
    simpa using this

theorem selectClusters_keeps_hash :
    ∀ (l : List DuplicateCluster) (used : List Nat),
      l.Pairwise (fun a b => b.Strategy = StrategyHash → a.Strategy = StrategyHash) →
      l.Pairwise (fun a b => a.Strategy = StrategyHash → b.Strategy = StrategyHash → ¬ SharesFile a b) →
      (∀ c ∈ l, c.Strategy = StrategyHash → ∀ x ∈ c.Candidates, x.File.ID ∉ used) →
      (selectClusters l used).filter (fun c => decide (c.Strategy = StrategyHash)) =
        l.filter (fun c => decide (c.Strategy = StrategyHash)) := by
  intro l
  induction l with
  | nil => intro used _ _ _; simp [selectClusters]
  | cons d rest ih =>
    intro used hfirst hdisj hused
    rw [List.pairwise_cons] at hfirst hdisj
    by_cases hd : d.Strategy = StrategyHash
    · have hnot : ¬ (d.Candidates.any (fun candidate => decide (candidate.File.ID ∈ used)) = true) := by
        rw [List.any_eq_true]
        rintro ⟨x, hx, hxu⟩
        exact hused d (List.mem_cons_self _ _) hd x hx (by simpa using hxu)
      rw [selectClusters, if_neg hnot]
      simp only [List.filter_cons, hd, decide_True, if_true]
      congr 1
      apply ih _ hfirst.2 hdisj.2
      intro c hc hcs x hx hmem
      rw [List.mem_append] at hmem
      rcases hmem with hm | hm
      · exact hused c (List.mem_cons_of_mem _ hc) hcs x hx hm
      · rw [List.mem_map] at hm
        obtain ⟨y, hy, hyx⟩ := hm
        exact hdisj.1 c hc hd hcs ⟨y, hy, x, hx, hyx⟩
    · have hrest : ∀ e ∈ rest, ¬ e.Strategy = StrategyHash := fun e he hes => hd (hfirst.1 e he hes)
      have hl : (d :: rest).filter (fun c => decide (c.Strategy = StrategyHash)) = [] := by
        rw [List.filter_eq_nil_iff]
        intro e he
        rcases List.mem_cons.mp he with rfl | he2
        · simpa using hd
        · simpa using hrest e he2
      rw [hl, List.filter_eq_nil_iff]
      intro e he
      have hmem := (selectClusters_sublist (d :: rest) used).subset he
      rcases List.mem_cons.mp hmem with rfl | he2
      · simpa using hd
      · simpa using hrest e he2

/-- C2: on an input whose Hash-strategy clusters are pairwise disjoint in file
IDs, `deduplicateClusters` keeps every Hash-strategy cluster (each as often as
the input holds it) and drops every Size+Name cluster that shares a file ID with
a Hash-strategy cluster. -/
theorem reconciler_keeps_hash (L : Lib) (hL : L.SortOK) (cs : List DuplicateCluster)
    (hdisj : HashClustersDisjoint cs) :
    (∀ c ∈ cs, c.Strategy = StrategyHash → c ∈ deduplicateClusters L cs) ∧
      ((deduplicateClusters L cs).filter (fun c => decide (c.Strategy = StrategyHash))).Perm
        (cs.filter (fun c => decide (c.Strategy = StrategyHash))) ∧
      (∀ c ∈ cs, c.Strategy = StrategySizeAndName →
        (∃ h ∈ cs, h.Strategy = StrategyHash ∧ SharesFile c h) → c ∉ deduplicateClusters L cs) := by
  obtain ⟨hperm, hsorted⟩ := hL priorityLess cs
  have hsorted := hsorted priorityLess_strictWeakOrder
  have hfirst : (L.sortSlice priorityLess cs).Pairwise
      (fun a b => b.Strategy = StrategyHash → a.Strategy = StrategyHash) := by
    refine hsorted.imp ?_
    intro a b hba hb
    by_contra ha
    have : priorityLess b a = true := by
      rw [priorityLess_iff]
      left
      rw [hb]
      exact Nat.pos_of_ne_zero ha
    rw [hba] at this
    exact Bool.noConfusion this
  have hpw : cs.Pairwise
      (fun a b => a.Strategy = StrategyHash → b.Strategy = StrategyHash → ¬ SharesFile a b) := by
    rw [List.pairwise_iff_get]
    intro i j hij
    exact hdisj i.1 j.1 i.2 j.2 (Nat.ne_of_lt hij)
  have hpw2 : (L.sortSlice priorityLess cs).Pairwise
      (fun a b => a.Strategy = StrategyHash → b.Strategy = StrategyHash → ¬ SharesFile a b) :=
    (hperm.pairwise_iff
      (R := fun a b => a.Strategy = StrategyHash → b.Strategy = StrategyHash → ¬ SharesFile a b)
      (fun hab hb ha hs => hab ha hb (sharesFile_symm hs))).mpr hpw
  have hkeep := selectClusters_keeps_hash (L.sortSlice priorityLess cs) [] hfirst hpw2
    (fun _ _ _ _ _ => List.not_mem_nil _)
  have hmemHash : ∀ c ∈ cs, c.Strategy = StrategyHash → c ∈ deduplicateClusters L cs := by
    intro c hc hcs
    have h1 : c ∈ (L.sortSlice priorityLess cs).filter (fun c => decide (c.Strategy = StrategyHash)) := by
      rw [List.mem_filter]
      exact ⟨hperm.mem_iff.mpr hc, by simpa using hcs⟩
    rw [← hkeep] at h1
    exact (List.mem_filter.mp h1).1
  refine ⟨hmemHash, ?_, ?_⟩
  · unfold deduplicateClusters
    rw [hkeep]
    exact hperm.filter _
  · rintro c hc hcs ⟨h, hh, hhs, hshare⟩ hin
    have hne : c ≠ h := by
      intro e
      rw [e, hhs] at hcs
      exact absurd hcs (by decide)
    have hexcl := (selectClusters_spec (L.sortSlice priorityLess cs) []).1
    have hsymm : Symmetric (fun a b : DuplicateCluster => ¬ SharesFile a b) :=
      fun _ _ hab hba => hab (sharesFile_symm hba)
    exact List.Pairwise.forall hsymm hexcl hin (hmemHash h hh hhs) hne hshare

theorem hashClustersDisjoint_pair : HashClustersDisjoint [pairNameCluster, pairHashCluster] := by
  intro i j hi hj hne h1 h2
  simp only [List.length_cons, List.length_nil] at hi hj
  interval_cases i <;> interval_cases j <;>
    simp_all [pairNameCluster, StrategySizeAndName, StrategyHash]

theorem scenario4_pairFiles :
    clusterFiles (detectByHash refLib (tableSource pairFiles) 1) = .ok [(0, [1, 2])] ∧
      clusterFiles (detectBySizeAndName refLib (tableSource pairFiles) 1) = .ok [(2, [1, 2])] ∧
      clusterFiles (detectAdvanced refLib (tableSource pairFiles) 1) = .ok [(0, [1, 2])] := by
  refine ⟨by decide, by decide!, by decide!⟩

theorem reconciler_keeps_hash_witness :
    refLib.SortOK ∧ HashClustersDisjoint [pairNameCluster, pairHashCluster] ∧
      pairHashCluster ∈ deduplicateClusters refLib [pairNameCluster, pairHashCluster] ∧
      pairNameCluster ∉ deduplicateClusters refLib [pairNameCluster, pairHashCluster] ∧
      clusterFiles (detectBySizeAndName refLib (tableSource pairFiles) 1) = .ok [(2, [1, 2])] ∧
      clusterFiles (detectAdvanced refLib (tableSource pairFiles) 1) = .ok [(0, [1, 2])] := by
  have h := reconciler_keeps_hash refLib refLib_sortOK [pairNameCluster, pairHashCluster]
    hashClustersDisjoint_pair
  refine ⟨refLib_sortOK, hashClustersDisjoint_pair, ?_, ?_, scenario4_pairFiles.2.1,
    scenario4_pairFiles.2.2⟩
  · exact h.1 pairHashCluster (by simp) rfl
  · refine h.2.2 pairNameCluster (by simp) rfl ⟨pairHashCluster, by simp, rfl, ?_⟩
    exact ⟨_, List.mem_cons_self _ _, _, List.mem_cons_self _ _, rfl⟩

/-! ### The ranking step -/

theorem rankBySavings_pairwise (L : Lib) (hL : L.SortOK) (cs : List DuplicateCluster) :
    (rankBySavings L cs).Pairwise (fun a b => savings a ≥ savings b) := by
  have h := (hL savingsLess cs).2 savingsLess_strictWeakOrder
  refine h.imp ?_
  intro a b hba
  unfold savingsLess at hba
  simpa using hba

/-- C7: the ranking step of `detectAdvanced` returns a permutation of the
reconciled list in which `TotalSize - Size` never increases from one position to
the next, and the list `detectAdvanced` returns is that ranking of the
reconciled list. -/
theorem ranking_descending (L : Lib) (hL : L.SortOK) :
    (∀ cs, (rankBySavings L cs).Perm cs ∧ RankedBySavings (rankBySavings L cs)) ∧
      (∀ db userID r, detectAdvanced L db userID = .ok r →
        ∃ hashClusters sizeNameClusters,
          detectByHash L db userID = .ok hashClusters ∧
            detectBySizeAndName L db userID = .ok sizeNameClusters ∧
              r = rankBySavings L (deduplicateClusters L (hashClusters ++ sizeNameClusters)) ∧
                r.Perm (deduplicateClusters L (hashClusters ++ sizeNameClusters)) ∧
                  RankedBySavings r) := by
  have hrank : ∀ cs, (rankBySavings L cs).Perm cs ∧ RankedBySavings (rankBySavings L cs) := by
    intro cs
    refine ⟨(hL savingsLess cs).1, ?_⟩
    intro i h
    have hp := rankBySavings_pairwise L hL cs
    rw [List.pairwise_iff_get] at hp
    exact hp ⟨i, Nat.lt_of_succ_lt h⟩ ⟨i + 1, h⟩ (Nat.lt_succ_self i)
  refine ⟨hrank, ?_⟩
  intro db userID r h
  obtain ⟨hs, ns, h1, h2, hr⟩ := detectAdvanced_ok h
  subst hr
  exact ⟨hs, ns, h1, h2, rfl, (hrank _).1, (hrank _).2⟩

theorem ranking_descending_witness :
    refLib.SortOK ∧
      (rankBySavings refLib [pairNameCluster, otherHashCluster]).Perm [pairNameCluster, otherHashCluster] ∧
      RankedBySavings (rankBySavings refLib [pairNameCluster, otherHashCluster]) :=
  ⟨refLib_sortOK, (ranking_descending refLib refLib_sortOK).1 [pairNameCluster, otherHashCluster]⟩

/-- C9, counterexample: over the rows of `tiedFiles` the Hash strategy returns
the thirteen clusters `tiedClusters`, by total size descending, and the
Size+Name strategy three clusters over the same files. `sort.Slice` with the
comparison of `deduplicateClusters` leaves the joined list as it is and the
selection keeps exactly the Hash clusters, so `tiedClusters` is the reconciled
list. Its clusters have `TotalSize - Size` 100, except the seventh with 135.
`sort.Slice` with the comparison of the ranking step takes the fourth cluster as
pivot and swaps it to the front: in the ranked result the clusters `d` and `c`
stand before `a`, which stood before them, all three with the value 100. Two
tied clusters alone keep their order, the slice being short enough for
insertion sort. -/
theorem ranking_not_stable :
    detectByHash refLib (tableSource tiedFiles) 1 = .ok tiedClusters ∧
    detectBySizeAndName refLib (tableSource tiedFiles) 1 = .ok tiedNameClusters ∧
    hashAndSavings tiedClusters =
      [(97, 200, 100), (98, 200, 100), (99, 200, 100), (100, 200, 100), (101, 200, 100),
       (102, 200, 100), (103, 180, 135), (104, 150, 100), (105, 150, 100), (106, 150, 100),
       (107, 150, 100), (108, 150, 100), (109, 150, 100)] ∧
    sortSliceGo priorityLess (tiedClusters ++ tiedNameClusters) =
      some (tiedClusters ++ tiedNameClusters) ∧
    selectClusters (tiedClusters ++ tiedNameClusters) [] = tiedClusters ∧
    (sortSliceGo savingsLess tiedClusters).map hashAndSavings =
      some [(103, 180, 135), (100, 200, 100), (99, 200, 100), (97, 200, 100), (101, 200, 100),
        (102, 200, 100), (98, 200, 100), (104, 150, 100), (105, 150, 100), (106, 150, 100),
        (107, 150, 100), (108, 150, 100), (109, 150, 100)] ∧
    (sortSliceGo savingsLess tiedClusters).map
        (fun r => hashAndSavings (r.filter (fun c => decide (savings c = 100)))) ≠
      some (hashAndSavings (tiedClusters.filter (fun c => decide (savings c = 100)))) ∧
    (∀ L : Lib, sortSliceGo savingsLess tiedClusters = some (L.sortSlice savingsLess tiedClusters) →
      ¬ StableRanking L) ∧
    sortSliceGo savingsLess [pairHashCluster, otherHashCluster] =
      some [pairHashCluster, otherHashCluster] := by
  have hne : (sortSliceGo savingsLess tiedClusters).map
        (fun r => hashAndSavings (r.filter (fun c => decide (savings c = 100)))) ≠
      some (hashAndSavings (tiedClusters.filter (fun c => decide (savings c = 100)))) := by
    decide!
  refine ⟨by decide!, by decide!, by decide!, by decide!, by decide!, by decide!, hne, ?_,
    by decide!⟩
  intro L hL hstable
  apply hne
  rw [hL, Option.map_some']
  have h := hstable tiedClusters 100
  unfold rankBySavings at h
  rw [h]

/-- C9, amended: the ranking step sorts by `TotalSize - Size` descending with
`sort.Slice`: a cluster of strictly greater `TotalSize - Size` stands before
every cluster of smaller value, and the clusters of one value are, in the
result, a rearrangement of the clusters of that value in the reconciled list
(their relative order is the one the library sort leaves). -/
theorem ranking_orders_by_savings (L : Lib) (hL : L.SortOK) (cs : List DuplicateCluster) :
    (∀ i j (hi : i < (rankBySavings L cs).length) (hj : j < (rankBySavings L cs).length),
        savings ((rankBySavings L cs).get ⟨i, hi⟩) > savings ((rankBySavings L cs).get ⟨j, hj⟩) →
          i < j) ∧
      (∀ v : Int, ((rankBySavings L cs).filter (fun c => decide (savings c = v))).Perm
        (cs.filter (fun c => decide (savings c = v)))) := by
  constructor
  · intro i j hi hj hgt
    by_contra hij
    have hp := rankBySavings_pairwise L hL cs
    rw [List.pairwise_iff_get] at hp
    rcases Nat.lt_or_ge j i with hlt | hge
    · have := hp ⟨j, hj⟩ ⟨i, hi⟩ hlt
      omega
    · have hji : j = i := by omega
      subst hji
      exact lt_irrefl _ hgt
  · intro v
    exact (hL savingsLess cs).1.filter _

theorem insertionSortSlice_stable : StableRanking refLib := by
  intro cs v
  have hsub : (cs.filter (fun c => decide (savings c = v))).Sublist
      (rankBySavings refLib cs) := by
    apply List.sublist_insertionSort
    · rw [List.pairwise_iff_forall_sublist]
      intro a b hab
      have ha := (List.mem_filter.mp (hab.subset (List.mem_cons_self _ _))).2
      have hb := (List.mem_filter.mp
        (hab.subset (List.mem_cons_of_mem _ (List.mem_cons_self _ _)))).2
      simp only [decide_eq_true_eq] at ha hb
      simp [savingsLess, ha, hb]
    · exact List.filter_sublist _
  have hsub2 := hsub.filter (fun c => decide (savings c = v))
  rw [List.filter_filter] at hsub2
  simp only [Bool.and_self] at hsub2
  have hlen : ((rankBySavings refLib cs).filter (fun c => decide (savings c = v))).length =
      (cs.filter (fun c => decide (savings c = v))).length :=
    ((refLib_sortOK savingsLess cs).1.filter _).length_eq
  exact (hsub2.eq_of_length hlen.symm).symm

theorem ranking_orders_by_savings_witness :
    refLib.SortOK ∧ StableRanking refLib ∧
      ∀ v : Int, ((rankBySavings refLib [pairHashCluster, otherHashCluster]).filter
          (fun c => decide (savings c = v))).Perm
        ([pairHashCluster, otherHashCluster].filter (fun c => decide (savings c = v))) :=
  ⟨refLib_sortOK, insertionSortSlice_stable,
    (ranking_orders_by_savings refLib refLib_sortOK [pairHashCluster, otherHashCluster]).2⟩

/-! ### Failure of metadata-source reads -/

theorem detectByHash_isOk (L : Lib) (db : MetadataSource) (userID : UUID) :
    (detectByHash L db userID).isOk = (db.hashGroups userID).isOk := by
  unfold detectByHash
  cases db.hashGroups userID <;> rfl

theorem detectBySize_isOk (L : Lib) (db : MetadataSource) (userID : UUID) :
    (detectBySize L db userID).isOk = (db.sizeGroups userID).isOk := by
  unfold detectBySize
  cases db.sizeGroups userID <;> rfl

theorem detectBySizeAndName_isOk (L : Lib) (db : MetadataSource) (userID : UUID) :
    (detectBySizeAndName L db userID).isOk = (db.sizeGroups userID).isOk := by
  rw [← detectBySize_isOk L]
  unfold detectBySizeAndName
  cases detectBySize L db userID <;> rfl

theorem detectAdvanced_isOk (L : Lib) (db : MetadataSource) (userID : UUID) :
    (detectAdvanced L db userID).isOk =
      ((db.hashGroups userID).isOk && (db.sizeGroups userID).isOk) := by
  rw [← detectByHash_isOk L, ← detectBySizeAndName_isOk L]
  unfold detectAdvanced
  cases detectByHash L db userID with
  | error e => rfl
  | ok hs => cases detectBySizeAndName L db userID <;> rfl

/-- C6 fails on a per-group member fetch: over a source whose grouped queries
answer and whose member fetches all fail, every strategy returns a successful,
empty result from which the group is missing. -/
theorem member_fetch_failure_is_skipped :
    (fetchFailingSource pairFiles).hashGroups 1 =
        .ok [{ SHA256 := hashOf 97, Size := 100, Count := 2, TotalSize := 200 }] ∧
      (fetchFailingSource pairFiles).filesByHash 1 (hashOf 97) =
        .error (.source (ascii "connection reset")) ∧
      DetectDuplicates refLib (fetchFailingSource pairFiles) 1 StrategyHash = .ok [] ∧
      DetectDuplicates refLib (fetchFailingSource pairFiles) 1 StrategySize = .ok [] ∧
      DetectDuplicates refLib (fetchFailingSource pairFiles) 1 StrategySizeAndName = .ok [] ∧
      DetectDuplicates refLib (fetchFailingSource pairFiles) 1 StrategyAdvanced = .ok [] := by
  refine ⟨by decide, by decide, by decide, by decide, by decide, by decide!⟩

/-- C6, amended: for every strategy, `DetectDuplicates` returns an error and no
cluster list exactly when a grouped aggregate query it issues fails (the hash
query for Hash and for unnamed strategy values, the size query for Size and
Size+Name, either of the two for Advanced); a failed per-group member fetch
never fails the call. -/
theorem detect_succeeds_iff_grouped_queries_succeed (L : Lib) (db : MetadataSource)
    (userID : UUID) (strategy : DetectionStrategy) :
    (DetectDuplicates L db userID strategy).isOk =
      (if strategy = StrategySize ∨ strategy = StrategySizeAndName then
        (db.sizeGroups userID).isOk
      else if strategy = StrategyAdvanced then
        ((db.hashGroups userID).isOk && (db.sizeGroups userID).isOk)
      else (db.hashGroups userID).isOk) := by
  unfold DetectDuplicates
  by_cases h0 : strategy = StrategyHash
  · subst h0
    simp [StrategyHash, StrategySize, StrategySizeAndName, StrategyAdvanced, detectByHash_isOk]
  · by_cases h1 : strategy = StrategySize
    · subst h1
      simp [StrategyHash, StrategySize, detectBySize_isOk]
    · by_cases h2 : strategy = StrategySizeAndName
      · subst h2
        simp [StrategyHash, StrategySize, StrategySizeAndName, detectBySizeAndName_isOk]
      · by_cases h3 : strategy = StrategyAdvanced
        · subst h3
          simp [StrategyHash, StrategySize, StrategySizeAndName, StrategyAdvanced, detectAdvanced_isOk]
        · simp [h0, h1, h2, h3, detectByHash_isOk]

/-! ### The strategies over a table -/

theorem filterMap_some_eq_map {α β : Type} (f : α → β) :
    ∀ l : List α, l.filterMap (fun x => some (f x)) = l.map f := by
  intro l
  induction l with
  | nil => rfl
  | cons a l ih => simp [List.filterMap_cons, ih]

theorem detectByHash_tableSource (L : Lib) (table : List File) (userID : UUID) :
    detectByHash L (tableSource table) userID =
      .ok ((hashGroupsOf table userID).map
        (fun row => hashCluster L row (filesByHashOf table userID row.SHA256))) := by
  simp only [detectByHash, tableSource]
  rw [filterMap_some_eq_map]

theorem detectBySize_tableSource (L : Lib) (table : List File) (userID : UUID) :
    detectBySize L (tableSource table) userID =
      .ok ((sizeGroupsOf table userID).map
        (fun row => sizeCluster L row (filesBySizeOf table userID row.Size))) := by
  simp only [detectBySize, tableSource]
  rw [filterMap_some_eq_map]

theorem filesBySizeOf_perm (table : List File) (userID : UUID) (size : Int) :
    (filesBySizeOf table userID size).Perm
      (table.filter (fun f => decide (f.UserID = userID ∧ f.Size = size))) :=
  List.perm_insertionSort _ _

theorem filesByHashOf_perm (table : List File) (userID : UUID) (sha : GoString) :
    (filesByHashOf table userID sha).Perm (filesWithHash table userID sha) :=
  List.perm_insertionSort _ _

theorem sum_map_const {α : Type} (f : α → Int) (s : Int) :
    ∀ l : List α, (∀ x ∈ l, f x = s) → (l.map f).sum = (l.length : Int) * s := by
  intro l
  induction l with
  | nil => intro _; simp
  | cons a l ih =>
    intro h
    rw [List.map_cons, List.sum_cons, ih (fun x hx => h x (List.mem_cons_of_mem _ hx)),
      h a (List.mem_cons_self _ _), List.length_cons]
    push_cast
    ring

theorem mem_sizeGroupsOf {table : List File} {userID : UUID} {row : SizeGroupRow}
    (h : row ∈ sizeGroupsOf table userID) :
    row.Count = ((filesBySizeOf table userID row.Size).length : Int) ∧ row.Count > 1 ∧
      row.TotalSize = ((filesBySizeOf table userID row.Size).map (fun f => f.Size)).sum ∧
      ∀ f ∈ filesBySizeOf table userID row.Size, f.Size = row.Size := by
  unfold sizeGroupsOf at h
  rw [(List.perm_insertionSort _ _).mem_iff, List.mem_filter, List.mem_map] at h
  obtain ⟨⟨k, hk, rfl⟩, hcount⟩ := h
  rw [List.mem_dedup, List.mem_map] at hk
  obtain ⟨f0, hf0, hf0k⟩ := hk
  have hkpos : k > 0 := by
    have := (List.mem_filter.mp hf0).2
    simp only [decide_eq_true_eq] at this
    rw [← hf0k]
    exact this.2
  have hmembers :
      (table.filter (fun f => decide (f.UserID = userID ∧ f.Size > 0))).filter
          (fun f => decide (f.Size = k)) =
        table.filter (fun f => decide (f.UserID = userID ∧ f.Size = k)) := by
    rw [List.filter_filter]
    apply List.filter_congr
    intro f _
    by_cases h1 : f.Size = k
    · simp [h1, hkpos]
    · simp [h1]
  have hperm := filesBySizeOf_perm table userID k
  simp only [hmembers] at hcount ⊢
  refine ⟨?_, by simpa using hcount, ?_, ?_⟩
  · rw [hperm.length_eq]
  · exact ((hperm.map (fun f => f.Size)).sum_eq).symm
  · intro f hf
    have := (List.mem_filter.mp (hperm.mem_iff.mp hf)).2
    simp only [decide_eq_true_eq] at this
    exact this.2

theorem sizeCluster_invariant (L : Lib) {table : List File} {userID : UUID} {row : SizeGroupRow}
    (h : row ∈ sizeGroupsOf table userID) :
    ClusterInvariant (sizeCluster L row (filesBySizeOf table userID row.Size)) ∧
      UniformSize (sizeCluster L row (filesBySizeOf table userID row.Size)) := by
  obtain ⟨h1, h2, h3, h4⟩ := mem_sizeGroupsOf h
  refine ⟨⟨?_, ?_, ?_⟩, ?_⟩
  · simp [sizeCluster, h1]
  · simp only [sizeCluster]
    omega
  · simp only [sizeCluster, List.map_map]
    rw [h3]
    rfl
  · intro x hx
    simp only [sizeCluster, List.mem_map] at hx
    obtain ⟨f, hf, rfl⟩ := hx
    exact h4 f hf

/-! ### Name groups -/

theorem NameGroups.mem_of_mem_get {groups : NameGroups} {key : GoString} {x : DuplicateCandidate}
    (h : x ∈ groups.get key) : ∃ e ∈ groups, x ∈ e.2 := by
  unfold NameGroups.get at h
  cases hf : groups.find? (fun e => decide (e.1 = key)) with
  | none => rw [hf] at h; simp at h
  | some e =>
    rw [hf] at h
    exact ⟨e, List.mem_of_find?_eq_some hf, h⟩

theorem NameGroups.mem_set {groups : NameGroups} {key : GoString} {value : List DuplicateCandidate}
    {e : GoString × List DuplicateCandidate} (h : e ∈ groups.set key value) :
    e ∈ groups ∨ e.2 = value := by
  unfold NameGroups.set at h
  split_ifs at h
  · rw [List.mem_map] at h
    obtain ⟨e0, he0, rfl⟩ := h
    by_cases hk : e0.1 = key
    · right; simp [hk]
    · left; simpa [hk] using he0
  · rw [List.mem_append] at h
    rcases h with h | h
    · exact Or.inl h
    · right
      simp only [List.mem_singleton] at h
      rw [h]

theorem NameGroups.mem_range {L : Lib} {groups : NameGroups}
    {entry : GoString × List DuplicateCandidate} (h : entry ∈ groups.range L) :
    ∃ e ∈ groups, entry.2 = e.2 := by
  unfold NameGroups.range at h
  rw [List.mem_filterMap] at h
  obtain ⟨k, _, hk⟩ := h
  cases hf : groups.find? (fun e => decide (e.1 = k)) with
  | none => rw [hf] at hk; simp at hk
  | some e =>
    rw [hf] at hk
    simp only [Option.map_some', Option.some.injEq] at hk
    exact ⟨e, List.mem_of_find?_eq_some hf, by rw [← hk]⟩

theorem groupByNameSimilarity_fold_mem (L : Lib) (S : List DuplicateCandidate) :
    ∀ (candidates : List DuplicateCandidate) (groups : NameGroups),
      (∀ x ∈ candidates, x ∈ S) → (∀ e ∈ groups, ∀ x ∈ e.2, x ∈ S) →
      ∀ e ∈ candidates.foldl (fun groups candidate =>
          let filename := extractFilename candidate.File.PathTail
          let normalizedName := normalizeFilename L filename
          let found := findSimilarGroup L normalizedName groups
          let groupKey := if found = [] then normalizedName else found
          groups.set groupKey (groups.get groupKey ++ [candidate])) groups,
        ∀ x ∈ e.2, x ∈ S := by
  intro candidates
  induction candidates with
  | nil => intro groups _ hg; simpa using hg
  | cons c rest ih =>
    intro groups hc hg
    rw [List.foldl_cons]
    apply ih
    · exact fun x hx => hc x (List.mem_cons_of_mem _ hx)
    · intro e he x hx
      rcases NameGroups.mem_set he with h | h
      · exact hg e h x hx
      · rw [h, List.mem_append] at hx
        rcases hx with hx | hx
        · obtain ⟨e2, he2, hx2⟩ := NameGroups.mem_of_mem_get hx
          exact hg e2 he2 x hx2
        · simp only [List.mem_singleton] at hx
          rw [hx]
          exact hc c (List.mem_cons_self _ _)

theorem groupByNameSimilarity_mem (L : Lib) (candidates : List DuplicateCandidate) :
    ∀ e ∈ groupByNameSimilarity L candidates, ∀ x ∈ e.2, x ∈ candidates := by
  unfold groupByNameSimilarity
  exact groupByNameSimilarity_fold_mem L candidates candidates [] (fun _ h => h)
    (fun _ h => absurd h (List.not_mem_nil _))

theorem refineSizeCluster_invariant (L : Lib) (cluster : DuplicateCluster)
    (hsize : UniformSize cluster) :
    ∀ c ∈ refineSizeCluster L cluster, ClusterInvariant c ∧ UniformSize c := by
  intro c hc
  unfold refineSizeCluster at hc
  split_ifs at hc with hlen
  · simp at hc
  · rw [List.mem_filterMap] at hc
    obtain ⟨entry, hentry, hsome⟩ := hc
    simp only [] at hsome
    split_ifs at hsome with hg
    simp only [Option.some.injEq] at hsome
    obtain ⟨e, he, hee⟩ := NameGroups.mem_range hentry
    have hmem : ∀ x ∈ entry.2, x.File.Size = cluster.Size := by
      intro x hx
      rw [hee] at hx
      exact hsize x (groupByNameSimilarity_mem L cluster.Candidates e he x hx)
    subst hsome
    refine ⟨⟨?_, ?_, ?_⟩, ?_⟩
    · simp
    · simp only []
      omega
    · simp only [List.map_map]
      rw [show ((fun x : DuplicateCandidate => x.File.Size) ∘ fun c : DuplicateCandidate =>
          ({ File := c.File, Confidence := calculateNameSimilarityConfidence entry.2,
             Reason := ascii "Size + filename similarity (" ++
               L.formatFloat1 (calculateNameSimilarityConfidence entry.2 * 100) ++ ascii "%)" } :
            DuplicateCandidate)) = fun c => c.File.Size from rfl]
      rw [sum_map_const (fun c : DuplicateCandidate => c.File.Size) cluster.Size entry.2 hmem]
    · intro x hx
      simp only [List.mem_map] at hx
      obtain ⟨y, hy, rfl⟩ := hx
      exact hmem y hy

/-- C5: over every table, the Size strategy and the Size+Name strategy return a
list of clusters, each of which satisfies the Cluster invariant (`Count` is the
number of candidates and at least 2, `TotalSize` is the sum of the candidates'
file sizes) and holds only files of the cluster's `Size`. -/
theorem size_strategies_invariant (L : Lib) (table : List File) (userID : UUID) :
    (∃ cs, detectBySize L (tableSource table) userID = .ok cs ∧
        ∀ c ∈ cs, ClusterInvariant c ∧ UniformSize c) ∧
      (∃ cs, detectBySizeAndName L (tableSource table) userID = .ok cs ∧
        ∀ c ∈ cs, ClusterInvariant c ∧ UniformSize c) := by
  have hsize : ∀ c ∈ (sizeGroupsOf table userID).map
      (fun row => sizeCluster L row (filesBySizeOf table userID row.Size)),
      ClusterInvariant c ∧ UniformSize c := by
    intro c hc
    rw [List.mem_map] at hc
    obtain ⟨row, hrow, rfl⟩ := hc
    exact sizeCluster_invariant L hrow
  constructor
  · exact ⟨_, detectBySize_tableSource L table userID, hsize⟩
  · refine ⟨_, by rw [detectBySizeAndName, detectBySize_tableSource], ?_⟩
    intro c hc
    rw [List.mem_flatMap] at hc
    obtain ⟨sc, hsc, hc⟩ := hc
    exact refineSizeCluster_invariant L sc (hsize sc hsc).2 c hc

/-! ### The Hash strategy over a table -/

theorem hashGroupsOf_keys_perm (table : List File) (userID : UUID) :
    ((hashGroupsOf table userID).map (fun row => (row.SHA256, row.Size))).Perm
      (((table.filter (fun f => decide (f.UserID = userID ∧ f.SHA256 ≠ []))).map
          (fun f => (f.SHA256, f.Size))).dedup.filter
        (fun k => decide (((table.filter (fun f => decide (f.UserID = userID ∧ f.SHA256 ≠ []))).filter
          (fun f => decide (f.SHA256 = k.1 ∧ f.Size = k.2))).length > 1))) := by
  unfold hashGroupsOf
  refine ((List.perm_insertionSort _ _).map _).trans ?_
  rw [List.filter_map, List.map_map]
  have : ∀ l : List (GoString × Int),
      List.map ((fun row : HashGroupRow => (row.SHA256, row.Size)) ∘ fun k =>
        ({ SHA256 := k.1, Size := k.2,
           Count := (((table.filter (fun f => decide (f.UserID = userID ∧ f.SHA256 ≠ []))).filter
             (fun f => decide (f.SHA256 = k.1 ∧ f.Size = k.2))).length : Int),
           TotalSize := (((table.filter (fun f => decide (f.UserID = userID ∧ f.SHA256 ≠ []))).filter
             (fun f => decide (f.SHA256 = k.1 ∧ f.Size = k.2))).map (fun f => f.Size)).sum } :
          HashGroupRow)) l = l := by
    intro l
    induction l with
    | nil => rfl
    | cons a l ih => rw [List.map_cons, ih]; rfl
  rw [this]
  apply List.Perm.of_eq
  apply List.filter_congr
  intro k _
  simp

theorem hashGroup_members (table : List File) (userID : UUID) (sha : GoString) (size : Int)
    (hsha : sha ≠ []) :
    (table.filter (fun f => decide (f.UserID = userID ∧ f.SHA256 ≠ []))).filter
        (fun f => decide (f.SHA256 = sha ∧ f.Size = size)) =
      filesWithHashAndSize table userID sha size := by
  unfold filesWithHashAndSize
  rw [List.filter_filter]
  apply List.filter_congr
  intro f _
  by_cases h1 : f.SHA256 = sha
  · simp [h1, hsha, Bool.and_comm]
  · simp [h1]

theorem hashGroupsOf_keys_nodup (table : List File) (userID : UUID) :
    ((hashGroupsOf table userID).map (fun row => (row.SHA256, row.Size))).Nodup :=
  (hashGroupsOf_keys_perm table userID).nodup_iff.mpr
    (List.Nodup.sublist (List.filter_sublist _) (List.nodup_dedup _))

theorem mem_hashGroupsOf_keys (table : List File) (userID : UUID) (sha : GoString) (size : Int) :
    (sha, size) ∈ (hashGroupsOf table userID).map (fun row => (row.SHA256, row.Size)) ↔
      sha ≠ [] ∧ 2 ≤ (filesWithHashAndSize table userID sha size).length := by
  rw [(hashGroupsOf_keys_perm table userID).mem_iff, List.mem_filter, List.mem_dedup, List.mem_map]
  constructor
  · rintro ⟨⟨f, hf, hkey⟩, hcount⟩
    have hf2 := (List.mem_filter.mp hf).2
    simp only [decide_eq_true_eq] at hf2
    simp only [Prod.mk.injEq] at hkey
    have hsha : sha ≠ [] := by rw [← hkey.1]; exact hf2.2
    refine ⟨hsha, ?_⟩
    simp only [decide_eq_true_eq] at hcount
    rw [hashGroup_members table userID sha size hsha] at hcount
    omega
  · rintro ⟨hsha, hlen⟩
    have hpos : 0 < (filesWithHashAndSize table userID sha size).length := by omega
    obtain ⟨f, hf⟩ := List.exists_mem_of_length_pos hpos
    have hf2 := List.mem_filter.mp hf
    have hcond := hf2.2
    simp only [decide_eq_true_eq] at hcond
    refine ⟨⟨f, ?_, ?_⟩, ?_⟩
    · rw [List.mem_filter]
      refine ⟨hf2.1, ?_⟩
      simp only [decide_eq_true_eq]
      exact ⟨hcond.1, by rw [hcond.2.1]; exact hsha⟩
    · rw [hcond.2.1, hcond.2.2]
    · simp only [decide_eq_true_eq]
      rw [hashGroup_members table userID sha size hsha]
      omega

theorem scenario1_hash :
    clusterTotals (detectByHash refLib (tableSource scenario1Files) 1) =
      .ok [(hashOf 97, 2, 200, 2, 200)] := by
  decide

/-- C3 fails when one hash is carried by files of two sizes: two files of one
hash and different sizes give no cluster for that hash, and two files of each
of two sizes give two clusters for the one hash. -/
theorem hash_strategy_not_one_cluster_per_hash :
    (filesWithHash splitHashFiles 1 (hashOf 97)).length = 2 ∧
      clusterTotals (detectByHash refLib (tableSource splitHashFiles) 1) = .ok [] ∧
      clusterTotals (detectByHash refLib (tableSource twoGroupFiles) 1) =
        .ok [(hashOf 97, 2, 400, 4, 600), (hashOf 97, 2, 200, 4, 600)] := by
  refine ⟨by decide, by decide, by decide⟩

/-- C3, amended: over every table, `detectByHash` returns exactly one cluster
for each distinct pair of a non-empty content hash and a size carried by at
least two of the user's files, and no other cluster; on the files
`[{H1,100},{H1,100},{H2,200}]` that is one cluster, with hash H1, `Count` 2 and
`TotalSize` 200. -/
theorem hash_strategy_one_cluster_per_hash_and_size (L : Lib) (table : List File) (userID : UUID) :
    (∃ cs, detectByHash L (tableSource table) userID = .ok cs ∧
        (cs.map (fun c => (c.SHA256, c.Size))).Nodup ∧
        ∀ sha size, (sha, size) ∈ cs.map (fun c => (c.SHA256, c.Size)) ↔
          sha ≠ [] ∧ 2 ≤ (filesWithHashAndSize table userID sha size).length) ∧
      clusterTotals (detectByHash refLib (tableSource scenario1Files) 1) =
        .ok [(hashOf 97, 2, 200, 2, 200)] := by
  refine ⟨⟨_, detectByHash_tableSource L table userID, ?_, ?_⟩, scenario1_hash⟩
  · rw [List.map_map]
    exact hashGroupsOf_keys_nodup table userID
  · intro sha size
    rw [List.map_map]
    exact mem_hashGroupsOf_keys table userID sha size

/-- C4 at the failing input (one hash on two files of size 100 and one file of
size 200): the one cluster returned has `Count` 2 and `TotalSize` 200 but three
candidates, whose sizes add up to 400. -/
theorem hash_cluster_count_mismatch :
    clusterTotals (detectByHash refLib (tableSource mixedSizeFiles) 1) =
      .ok [(hashOf 97, 2, 200, 3, 400)] := by
  decide

/-! ### Order of the returned clusters -/

theorem hashGroupsOf_sorted (table : List File) (userID : UUID) :
    (hashGroupsOf table userID).Pairwise (fun a b => a.TotalSize ≥ b.TotalSize) := by
  unfold hashGroupsOf
  haveI : IsTotal HashGroupRow (fun a b => a.TotalSize ≥ b.TotalSize) :=
    ⟨fun a b => le_total b.TotalSize a.TotalSize⟩
  haveI : IsTrans HashGroupRow (fun a b => a.TotalSize ≥ b.TotalSize) :=
    ⟨fun a b c h1 h2 => le_trans h2 h1⟩
  exact List.sorted_insertionSort _ _

theorem sizeGroupsOf_sorted (table : List File) (userID : UUID) :
    (sizeGroupsOf table userID).Pairwise (fun a b => a.TotalSize ≥ b.TotalSize) := by
  unfold sizeGroupsOf
  haveI : IsTotal SizeGroupRow (fun a b => a.TotalSize ≥ b.TotalSize) :=
    ⟨fun a b => le_total b.TotalSize a.TotalSize⟩
  haveI : IsTrans SizeGroupRow (fun a b => a.TotalSize ≥ b.TotalSize) :=
    ⟨fun a b c h1 h2 => le_trans h2 h1⟩
  exact List.sorted_insertionSort _ _

/-- C8 fails for the Hash and the Size strategy: on two files of size 100 and
three files of size 60 both return the cluster of total size 200 (savings 100)
before the cluster of total size 180 (savings 120). -/
theorem plain_strategies_not_ranked :
    (DetectDuplicates refLib (tableSource unrankedFiles) 1 StrategyHash).map (List.map savings) =
        .ok [100, 120] ∧
      (DetectDuplicates refLib (tableSource unrankedFiles) 1 StrategySize).map (List.map savings) =
        .ok [100, 120] ∧
      ¬ (∀ (L : Lib) (table : List File) (userID : UUID) (strategy : DetectionStrategy)
          (r : List DuplicateCluster),
          DetectDuplicates L (tableSource table) userID strategy = .ok r → RankedBySavings r) := by
  have h1 : (DetectDuplicates refLib (tableSource unrankedFiles) 1 StrategyHash).map
      (List.map savings) = .ok [100, 120] := by decide
  refine ⟨h1, by decide, ?_⟩
  intro hall
  cases h : DetectDuplicates refLib (tableSource unrankedFiles) 1 StrategyHash with
  | error e => rw [h] at h1; cases h1
  | ok r =>
    rw [h] at h1
    simp only [Except.map, Except.ok.injEq] at h1
    have hr := hall refLib unrankedFiles 1 StrategyHash r h
    match r, h1, hr with
    | [a, b], h1, hr =>
      simp only [List.map_cons, List.map_nil, List.cons.injEq, and_true] at h1
      have := hr 0 (by simp)
      simp only [List.get_eq_getElem, List.getElem_cons_zero, List.getElem_cons_succ] at this
      unfold savings at h1
      omega

/-- C8, amended: the list `DetectDuplicates` returns for the Advanced strategy
is ranked by `TotalSize - Size` descending; the lists it returns for the Hash
and the Size strategy are in the order of the grouped query, `TotalSize`
descending. (The Size+Name strategy appends its clusters in map iteration
order.) -/
theorem detect_order (L : Lib) :
    (L.SortOK → ∀ db userID r,
        DetectDuplicates L db userID StrategyAdvanced = .ok r → RankedBySavings r) ∧
      (∀ table userID, ∃ r, DetectDuplicates L (tableSource table) userID StrategyHash = .ok r ∧
        r.Pairwise (fun a b => a.TotalSize ≥ b.TotalSize)) ∧
      (∀ table userID, ∃ r, DetectDuplicates L (tableSource table) userID StrategySize = .ok r ∧
        r.Pairwise (fun a b => a.TotalSize ≥ b.TotalSize)) := by
  refine ⟨?_, ?_, ?_⟩
  · intro hL db userID r h
    have h2 : detectAdvanced L db userID = .ok r := h
    obtain ⟨hs, ns, _, _, hr⟩ := detectAdvanced_ok h2
    subst hr
    intro i hi
    have hp := rankBySavings_pairwise L hL (deduplicateClusters L (hs ++ ns))
    rw [List.pairwise_iff_get] at hp
    exact hp ⟨i, Nat.lt_of_succ_lt hi⟩ ⟨i + 1, hi⟩ (Nat.lt_succ_self i)
  · intro table userID
    refine ⟨_, detectByHash_tableSource L table userID, ?_⟩
    rw [List.pairwise_map]
    exact hashGroupsOf_sorted table userID
  · intro table userID
    refine ⟨_, detectBySize_tableSource L table userID, ?_⟩
    rw [List.pairwise_map]
    exact sizeGroupsOf_sorted table userID

theorem detect_order_witness :
    refLib.SortOK ∧ ∃ r, DetectDuplicates refLib (tableSource unrankedFiles) 1 StrategyAdvanced = .ok r ∧
      r.map savings = [120, 100] ∧ RankedBySavings r := by
  refine ⟨refLib_sortOK, ?_⟩
  have e : (DetectDuplicates refLib (tableSource unrankedFiles) 1 StrategyAdvanced).map
      (List.map savings) = .ok [120, 100] := by decide!
  cases h : DetectDuplicates refLib (tableSource unrankedFiles) 1 StrategyAdvanced with
  | error err => rw [h] at e; cases e
  | ok r =>
    rw [h] at e
    simp only [Except.map, Except.ok.injEq] at e
    exact ⟨r, rfl, e, (detect_order refLib).1 refLib_sortOK _ _ _ h⟩

/-! ### Bounds of the similarity -/

theorem min3_le_third (a b c : Nat) : min3 a b c ≤ c := by
  rw [min3_eq_min]; omega

theorem editDist_le_max : ∀ xs ys : List UInt8, editDist xs ys ≤ max xs.length ys.length := by
  intro xs
  induction xs with
  | nil => intro ys; rw [editDist_nil_left]; exact le_max_right _ _
  | cons x xs ihx =>
    intro ys
    cases ys with
    | nil => rw [editDist_nil_right]; exact le_max_left _ _
    | cons y ys =>
      rw [editDist_cons_cons]
      have h1 := min3_le_third (editDist xs (y :: ys) + 1) (editDist (x :: xs) ys + 1)
        (editDist xs ys + (if x ≠ y then 1 else 0))
      have h2 := ihx ys
      have h3 : (if x ≠ y then 1 else 0) ≤ 1 := by split_ifs <;> omega
      simp only [List.length_cons]
      omega

theorem levenshteinDistance_le_max (a b : GoString) :
    levenshteinDistance a b ≤ max a.length b.length := by
  rw [levenshteinDistance_eq_editDist]
  have := editDist_le_max a.reverse b.reverse
  simpa using this

theorem similarity_eq (a b : GoString) :
    calculateStringSimilarity a b =
      if a = b then 1
      else if max a.length b.length = 0 then 1
      else 1 - (levenshteinDistance a b : ℚ) / ((max a.length b.length : Nat) : ℚ) := by
  have hmax : (if b.length > a.length then b.length else a.length) = max a.length b.length := by
    split_ifs <;> omega
  unfold calculateStringSimilarity
  simp only [hmax]

theorem similarity_nonneg (a b : GoString) : 0 ≤ calculateStringSimilarity a b := by
  rw [similarity_eq]
  split_ifs with h1 h2
  · norm_num
  · norm_num
  · have hd := levenshteinDistance_le_max a b
    have hpos : (0 : ℚ) < ((max a.length b.length : Nat) : ℚ) := by
      have : 0 < max a.length b.length := Nat.pos_of_ne_zero h2
      exact_mod_cast this
    have hle : (levenshteinDistance a b : ℚ) ≤ ((max a.length b.length : Nat) : ℚ) := by
      exact_mod_cast hd
    have := (div_le_one hpos).mpr hle
    linarith

theorem similarity_le_one (a b : GoString) : calculateStringSimilarity a b ≤ 1 := by
  rw [similarity_eq]
  split_ifs with h1 h2
  · norm_num
  · norm_num
  · have : (0 : ℚ) ≤ (levenshteinDistance a b : ℚ) / ((max a.length b.length : Nat) : ℚ) :=
      div_nonneg (Nat.cast_nonneg _) (Nat.cast_nonneg _)
    linarith

theorem similarity_self (a : GoString) : calculateStringSimilarity a a = 1 := by
  unfold calculateStringSimilarity
  simp

/-- C11: for all strings `a` and `b`, `0 <= calculateStringSimilarity(a, b) <= 1`
(the similarity being the exact rational `1 - distance/maxLen`), which rests on
`levenshteinDistance(a, b) <= max(len(a), len(b))`, and
`calculateStringSimilarity(a, a) == 1` for every `a`, the empty string included. -/
theorem similarity_bounds (a b : GoString) :
    0 ≤ calculateStringSimilarity a b ∧ calculateStringSimilarity a b ≤ 1 ∧
      levenshteinDistance a b ≤ max a.length b.length ∧
      calculateStringSimilarity a a = 1 ∧ calculateStringSimilarity [] [] = 1 :=
  ⟨similarity_nonneg a b, similarity_le_one a b, levenshteinDistance_le_max a b,
    similarity_self a, similarity_self []⟩

/-! ### Membership in the results of the strategies -/

theorem mem_detectByHash {L : Lib} {db : MetadataSource} {userID : UUID}
    {r : List DuplicateCluster} {c : DuplicateCluster}
    (h : detectByHash L db userID = .ok r) (hc : c ∈ r) :
    ∃ row files, c = hashCluster L row files := by
  unfold detectByHash at h
  cases hq : db.hashGroups userID with
  | error e => rw [hq] at h; cases h
  | ok results =>
    rw [hq] at h
    simp only [Except.ok.injEq] at h
    subst h
    rw [List.mem_filterMap] at hc
    obtain ⟨row, _, hrow⟩ := hc
    cases hf : db.filesByHash userID row.SHA256 with
    | error e => rw [hf] at hrow; cases hrow
    | ok files =>
      rw [hf] at hrow
      simp only [Option.some.injEq] at hrow
      exact ⟨row, files, hrow.symm⟩

theorem mem_detectBySize {L : Lib} {db : MetadataSource} {userID : UUID}
    {r : List DuplicateCluster} {c : DuplicateCluster}
    (h : detectBySize L db userID = .ok r) (hc : c ∈ r) :
    ∃ row files, c = sizeCluster L row files := by
  unfold detectBySize at h
  cases hq : db.sizeGroups userID with
  | error e => rw [hq] at h; cases h
  | ok results =>
    rw [hq] at h
    simp only [Except.ok.injEq] at h
    subst h
    rw [List.mem_filterMap] at hc
    obtain ⟨row, _, hrow⟩ := hc
    cases hf : db.filesBySize userID row.Size with
    | error e => rw [hf] at hrow; cases hrow
    | ok files =>
      rw [hf] at hrow
      simp only [Option.some.injEq] at hrow
      exact ⟨row, files, hrow.symm⟩

theorem mem_detectBySizeAndName {L : Lib} {db : MetadataSource} {userID : UUID}
    {r : List DuplicateCluster} {c : DuplicateCluster}
    (h : detectBySizeAndName L db userID = .ok r) (hc : c ∈ r) :
    ∃ sizeClusters sc, detectBySize L db userID = .ok sizeClusters ∧ sc ∈ sizeClusters ∧
      c ∈ refineSizeCluster L sc := by
  unfold detectBySizeAndName at h
  cases hq : detectBySize L db userID with
  | error e => rw [hq] at h; cases h
  | ok sizeClusters =>
    rw [hq] at h
    simp only [Except.ok.injEq] at h
    subst h
    rw [List.mem_flatMap] at hc
    obtain ⟨sc, hsc, hc⟩ := hc
    exact ⟨sizeClusters, sc, rfl, hsc, hc⟩

theorem mem_refineSizeCluster {L : Lib} {cluster c : DuplicateCluster}
    (hc : c ∈ refineSizeCluster L cluster) :
    ∃ entry ∈ (groupByNameSimilarity L cluster.Candidates).range L,
      2 ≤ entry.2.length ∧ c.Strategy = StrategySizeAndName ∧ c.Size = cluster.Size ∧
      c.Count = (entry.2.length : Int) ∧ c.TotalSize = (entry.2.length : Int) * cluster.Size ∧
      c.Candidates.map (fun x => x.File) = entry.2.map (fun x => x.File) ∧
      ∀ x ∈ c.Candidates, x.Confidence = calculateNameSimilarityConfidence entry.2 := by
  unfold refineSizeCluster at hc
  split_ifs at hc with hlen
  · simp at hc
  · rw [List.mem_filterMap] at hc
    obtain ⟨entry, hentry, hsome⟩ := hc
    simp only [] at hsome
    split_ifs at hsome with hg
    simp only [Option.some.injEq] at hsome
    subst hsome
    refine ⟨entry, hentry, by omega, rfl, rfl, rfl, rfl, ?_, ?_⟩
    · simp only [List.map_map]
      rfl
    · intro x hx
      simp only [List.mem_map] at hx
      obtain ⟨y, _, rfl⟩ := hx
      rfl

theorem mem_detectAdvanced {L : Lib} (hL : L.SortOK) {db : MetadataSource} {userID : UUID}
    {r : List DuplicateCluster} {c : DuplicateCluster}
    (h : detectAdvanced L db userID = .ok r) (hc : c ∈ r) :
    ∃ hashClusters sizeNameClusters,
      detectByHash L db userID = .ok hashClusters ∧
        detectBySizeAndName L db userID = .ok sizeNameClusters ∧
          (c ∈ hashClusters ∨ c ∈ sizeNameClusters) := by
  obtain ⟨hs, ns, h1, h2, hr⟩ := detectAdvanced_ok h
  subst hr
  refine ⟨hs, ns, h1, h2, ?_⟩
  have h3 : c ∈ deduplicateClusters L (hs ++ ns) := (hL savingsLess _).1.mem_iff.mp hc
  have h4 : c ∈ L.sortSlice priorityLess (hs ++ ns) := (selectClusters_sublist _ []).subset h3
  exact List.mem_append.mp ((hL priorityLess _).1.mem_iff.mp h4)

theorem detectDuplicates_cases (L : Lib) (db : MetadataSource) (userID : UUID)
    (strategy : DetectionStrategy) :
    DetectDuplicates L db userID strategy = detectByHash L db userID ∨
      DetectDuplicates L db userID strategy = detectBySize L db userID ∨
      DetectDuplicates L db userID strategy = detectBySizeAndName L db userID ∨
      DetectDuplicates L db userID strategy = detectAdvanced L db userID := by
  unfold DetectDuplicates
  split_ifs <;> simp

/-! ### Confidence values -/

theorem calculateSizeConfidence_range (size count : Int) :
    0 ≤ calculateSizeConfidence size count ∧ calculateSizeConfidence size count ≤ 1 := by
  unfold calculateSizeConfidence
  simp only []
  split_ifs <;> constructor <;> norm_num

theorem sum_range (l : List ℚ) (h : ∀ x ∈ l, 0 ≤ x ∧ x ≤ 1) :
    0 ≤ l.sum ∧ l.sum ≤ (l.length : ℚ) := by
  induction l with
  | nil => simp
  | cons a l ih =>
    have ha := h a (List.mem_cons_self _ _)
    have hl := ih (fun x hx => h x (List.mem_cons_of_mem _ hx))
    rw [List.sum_cons, List.length_cons]
    push_cast
    constructor <;> linarith [ha.1, ha.2, hl.1, hl.2]

theorem pairSimilarities_range :
    ∀ (l : List DuplicateCandidate), ∀ s ∈ pairSimilarities l, 0 ≤ s ∧ s ≤ 1 := by
  intro l
  induction l with
  | nil => intro s hs; simp [pairSimilarities] at hs
  | cons c rest ih =>
    intro s hs
    rw [pairSimilarities, List.mem_append] at hs
    rcases hs with hs | hs
    · rw [List.mem_map] at hs
      obtain ⟨d, _, rfl⟩ := hs
      exact ⟨similarity_nonneg _ _, similarity_le_one _ _⟩
    · exact ih s hs

theorem calculateNameSimilarityConfidence_eq (candidates : List DuplicateCandidate) :
    calculateNameSimilarityConfidence candidates =
      if candidates.length < 2 then 0
      else if (pairSimilarities candidates).length = 0 then 0
      else confidenceBand
        ((pairSimilarities candidates).sum / ((pairSimilarities candidates).length : ℚ)) := by
  rfl

theorem confidenceBand_range (avg : ℚ) (h0 : 0 ≤ avg) (h1 : avg ≤ 1) :
    0 ≤ confidenceBand avg ∧ confidenceBand avg ≤ 1 := by
  unfold confidenceBand
  split_ifs <;> constructor <;> linarith

theorem calculateNameSimilarityConfidence_range (candidates : List DuplicateCandidate) :
    0 ≤ calculateNameSimilarityConfidence candidates ∧
      calculateNameSimilarityConfidence candidates ≤ 1 := by
  rw [calculateNameSimilarityConfidence_eq]
  split_ifs with h1 h2
  · norm_num
  · norm_num
  · have hs := sum_range (pairSimilarities candidates) (pairSimilarities_range candidates)
    have hpos : (0 : ℚ) < ((pairSimilarities candidates).length : ℚ) := by
      have : 0 < (pairSimilarities candidates).length := Nat.pos_of_ne_zero h2
      exact_mod_cast this
    exact confidenceBand_range _ (div_nonneg hs.1 (le_of_lt hpos)) ((div_le_one hpos).mpr hs.2)

theorem hashCluster_confidence (L : Lib) (row : HashGroupRow) (files : List File) :
    (hashCluster L row files).Strategy = StrategyHash ∧
      ∀ x ∈ (hashCluster L row files).Candidates, x.Confidence = 1 := by
  refine ⟨rfl, ?_⟩
  intro x hx
  simp only [hashCluster, List.mem_map] at hx
  obtain ⟨f, _, rfl⟩ := hx
  rfl

theorem sizeCluster_confidence (L : Lib) (row : SizeGroupRow) (files : List File) :
    ∀ x ∈ (sizeCluster L row files).Candidates,
      x.Confidence = calculateSizeConfidence row.Size row.Count := by
  intro x hx
  simp only [sizeCluster, List.mem_map] at hx
  obtain ⟨f, _, rfl⟩ := hx
  rfl

theorem detectByHash_confidenceInRange {L : Lib} {db : MetadataSource} {userID : UUID}
    {r : List DuplicateCluster} (h : detectByHash L db userID = .ok r) :
    ∀ c ∈ r, ConfidenceInRange c := by
  intro c hc x hx
  obtain ⟨row, files, rfl⟩ := mem_detectByHash h hc
  rw [(hashCluster_confidence L row files).2 x hx]
  norm_num

theorem detectBySize_confidenceInRange {L : Lib} {db : MetadataSource} {userID : UUID}
    {r : List DuplicateCluster} (h : detectBySize L db userID = .ok r) :
    ∀ c ∈ r, ConfidenceInRange c := by
  intro c hc x hx
  obtain ⟨row, files, rfl⟩ := mem_detectBySize h hc
  rw [sizeCluster_confidence L row files x hx]
  exact calculateSizeConfidence_range _ _

theorem detectBySizeAndName_confidenceInRange {L : Lib} {db : MetadataSource} {userID : UUID}
    {r : List DuplicateCluster} (h : detectBySizeAndName L db userID = .ok r) :
    ∀ c ∈ r, ConfidenceInRange c := by
  intro c hc x hx
  obtain ⟨_, sc, _, _, hc2⟩ := mem_detectBySizeAndName h hc
  obtain ⟨entry, _, _, _, _, _, _, _, hconf⟩ := mem_refineSizeCluster hc2
  rw [hconf x hx]
  exact calculateNameSimilarityConfidence_range _

/-- C17: every candidate of every cluster returned by `DetectDuplicates`, for
every strategy and every metadata source, has `0 <= Confidence <= 1`;
`calculateSizeConfidence` lies in `[0, 1]` for all sizes and counts and
`calculateNameSimilarityConfidence` lies in `[0, 1]` for every group
(confidences being exact rationals). -/
theorem confidence_in_unit_interval (L : Lib) (hL : L.SortOK) :
    (∀ db userID strategy r, DetectDuplicates L db userID strategy = .ok r →
        ∀ c ∈ r, ∀ x ∈ c.Candidates, 0 ≤ x.Confidence ∧ x.Confidence ≤ 1) ∧
      (∀ size count : Int,
        0 ≤ calculateSizeConfidence size count ∧ calculateSizeConfidence size count ≤ 1) ∧
      (∀ group : List DuplicateCandidate,
        0 ≤ calculateNameSimilarityConfidence group ∧
          calculateNameSimilarityConfidence group ≤ 1) := by
  refine ⟨?_, calculateSizeConfidence_range, calculateNameSimilarityConfidence_range⟩
  intro db userID strategy r h c hc
  rcases detectDuplicates_cases L db userID strategy with e | e | e | e <;> rw [e] at h
  · exact detectByHash_confidenceInRange h c hc
  · exact detectBySize_confidenceInRange h c hc
  · exact detectBySizeAndName_confidenceInRange h c hc
  · obtain ⟨hs, ns, h1, h2, hmem⟩ := mem_detectAdvanced hL h hc
    rcases hmem with hm | hm
    · exact detectByHash_confidenceInRange h1 c hm
    · exact detectBySizeAndName_confidenceInRange h2 c hm

theorem exists_ok_of_map {α β : Type} {f : α → β} {r : Except GoError α} {v : β}
    (h : r.map f = .ok v) : ∃ a, r = .ok a ∧ f a = v := by
  cases r with
  | error e => cases h
  | ok a =>
    simp only [Except.map, Except.ok.injEq] at h
    exact ⟨a, rfl, h⟩

theorem sizeName_pairFiles_confidence :
    (DetectDuplicates refLib (tableSource pairFiles) 1 StrategySizeAndName).map
        (List.map (fun c => c.Candidates.map (fun x => x.Confidence))) =
      .ok [[7 / 10, 7 / 10]] := by
  decide!

theorem confidence_in_unit_interval_witness :
    refLib.SortOK ∧ ∃ r, DetectDuplicates refLib (tableSource pairFiles) 1 StrategySizeAndName = .ok r ∧
      r.map (fun c => c.Candidates.map (fun x => x.Confidence)) = [[7 / 10, 7 / 10]] ∧
      ∀ c ∈ r, ∀ x ∈ c.Candidates, 0 ≤ x.Confidence ∧ x.Confidence ≤ 1 := by
  obtain ⟨r, hr, hv⟩ := exists_ok_of_map sizeName_pairFiles_confidence
  exact ⟨refLib_sortOK, r, hr, hv,
    (confidence_in_unit_interval refLib refLib_sortOK).1 _ _ _ r hr⟩

theorem refineSizeCluster_strategy {L : Lib} {cluster c : DuplicateCluster}
    (hc : c ∈ refineSizeCluster L cluster) : c.Strategy = StrategySizeAndName := by
  obtain ⟨_, _, _, h, _⟩ := mem_refineSizeCluster hc
  exact h

/-- C18: every candidate of every cluster with `Strategy = Hash` has confidence
exactly 1, in the result of the Hash strategy (all of whose clusters are Hash
clusters) and in the result of the Advanced strategy. -/
theorem hash_confidence_one (L : Lib) :
    (∀ db userID r, DetectDuplicates L db userID StrategyHash = .ok r →
        ∀ c ∈ r, c.Strategy = StrategyHash ∧ ∀ x ∈ c.Candidates, x.Confidence = 1) ∧
      (L.SortOK → ∀ db userID r, DetectDuplicates L db userID StrategyAdvanced = .ok r →
        ∀ c ∈ r, c.Strategy = StrategyHash → ∀ x ∈ c.Candidates, x.Confidence = 1) := by
  constructor
  · intro db userID r h c hc
    have h2 : detectByHash L db userID = .ok r := h
    obtain ⟨row, files, rfl⟩ := mem_detectByHash h2 hc
    exact hashCluster_confidence L row files
  · intro hL db userID r h c hc hs
    have h2 : detectAdvanced L db userID = .ok r := h
    obtain ⟨hcs, ns, h3, h4, hmem⟩ := mem_detectAdvanced hL h2 hc
    rcases hmem with hm | hm
    · obtain ⟨row, files, rfl⟩ := mem_detectByHash h3 hm
      exact (hashCluster_confidence L row files).2
    · obtain ⟨_, sc, _, _, hc2⟩ := mem_detectBySizeAndName h4 hm
      have := refineSizeCluster_strategy hc2
      rw [hs] at this
      exact absurd this (by decide)

theorem advanced_fourFiles_confidence :
    (DetectDuplicates refLib (tableSource fourFiles) 1 StrategyAdvanced).map
        (List.map (fun c => (c.Strategy, c.Candidates.map (fun x => x.Confidence)))) =
      .ok [(0, [1, 1]), (0, [1, 1])] := by
  decide!

theorem hash_confidence_one_witness :
    refLib.SortOK ∧ ∃ r, DetectDuplicates refLib (tableSource fourFiles) 1 StrategyAdvanced = .ok r ∧
      r.map (fun c => (c.Strategy, c.Candidates.map (fun x => x.Confidence))) =
        [(0, [1, 1]), (0, [1, 1])] ∧
      ∀ c ∈ r, c.Strategy = StrategyHash → ∀ x ∈ c.Candidates, x.Confidence = 1 := by
  obtain ⟨r, hr, hv⟩ := exists_ok_of_map advanced_fourFiles_confidence
  exact ⟨refLib_sortOK, r, hr, hv, (hash_confidence_one refLib).2 refLib_sortOK _ _ r hr⟩

/-! ### Dispatch on the strategy -/

/-- C20: for every strategy value other than the four named ones,
`DetectDuplicates` returns exactly what it returns for Hash (so it fails only
when the Hash strategy fails), and the handler maps every strategy token other
than `hash`, `size`, `size_name` and `advanced`, and an absent token, to the
Hash strategy. -/
theorem unknown_strategy_defaults_to_hash :
    (∀ (L : Lib) (db : MetadataSource) (userID : UUID) (strategy : DetectionStrategy),
        strategy ≠ StrategyHash → strategy ≠ StrategySize → strategy ≠ StrategySizeAndName →
        strategy ≠ StrategyAdvanced →
        DetectDuplicates L db userID strategy = DetectDuplicates L db userID StrategyHash ∧
          DetectDuplicates L db userID strategy = detectByHash L db userID) ∧
      (∀ token : GoString, token ≠ ascii "hash" → token ≠ ascii "size" →
        token ≠ ascii "size_name" → token ≠ ascii "advanced" →
        handlerStrategy (some token) = StrategyHash) ∧
      handlerStrategy none = StrategyHash := by
  refine ⟨?_, ?_, by decide⟩
  · intro L db userID strategy h0 h1 h2 h3
    unfold DetectDuplicates
    simp [h0, h1, h2, h3]
  · intro token h0 h1 h2 h3
    unfold handlerStrategy
    simp [h0, h1, h2, h3]

theorem unknown_strategy_defaults_to_hash_witness :
    (7 : DetectionStrategy) ≠ StrategyHash ∧ (7 : DetectionStrategy) ≠ StrategySize ∧
      (7 : DetectionStrategy) ≠ StrategySizeAndName ∧ (7 : DetectionStrategy) ≠ StrategyAdvanced ∧
      DetectDuplicates refLib (tableSource fourFiles) 1 7 =
        DetectDuplicates refLib (tableSource fourFiles) 1 StrategyHash ∧
      ascii "fuzzy" ≠ ascii "hash" ∧ ascii "fuzzy" ≠ ascii "size" ∧
      ascii "fuzzy" ≠ ascii "size_name" ∧ ascii "fuzzy" ≠ ascii "advanced" ∧
      handlerStrategy (some (ascii "fuzzy")) = StrategyHash :=
  ⟨by decide, by decide, by decide, by decide,
    (unknown_strategy_defaults_to_hash.1 refLib (tableSource fourFiles) 1 7
      (by decide) (by decide) (by decide) (by decide)).1,
    by decide, by decide, by decide, by decide,
    unknown_strategy_defaults_to_hash.2.1 (ascii "fuzzy")
      (by decide) (by decide) (by decide) (by decide)⟩

/-! ### The summary of the handler -/

theorem wrapInt64_of_range (x : Int) (h1 : -2 ^ 63 ≤ x) (h2 : x < 2 ^ 63) : wrapInt64 x = x := by
  unfold wrapInt64
  norm_num at h1 h2 ⊢
  omega

theorem wrapInt64_range (x : Int) : -2 ^ 63 ≤ wrapInt64 x ∧ wrapInt64 x < 2 ^ 63 := by
  unfold wrapInt64
  norm_num
  omega

theorem wrapInt64_idem (x : Int) : wrapInt64 (wrapInt64 x) = wrapInt64 x :=
  wrapInt64_of_range _ (wrapInt64_range x).1 (wrapInt64_range x).2

theorem wrapInt64_eq_add (x : Int) : ∃ k : Int, wrapInt64 x = x + 2 ^ 64 * k := by
  refine ⟨-((x + 2 ^ 63) / 2 ^ 64), ?_⟩
  unfold wrapInt64
  have := Int.emod_add_ediv (x + 2 ^ 63) (2 ^ 64)
  linarith

theorem wrapInt64_add_mul (y z : Int) : wrapInt64 (y + 2 ^ 64 * z) = wrapInt64 y := by
  unfold wrapInt64
  rw [show y + 2 ^ 64 * z + 2 ^ 63 = (y + 2 ^ 63) + 2 ^ 64 * z by ring,
    Int.add_mul_emod_self_left]

theorem wrapInt64_add_left (a b : Int) : wrapInt64 (wrapInt64 a + b) = wrapInt64 (a + b) := by
  obtain ⟨k, hk⟩ := wrapInt64_eq_add a
  rw [hk, show a + 2 ^ 64 * k + b = (a + b) + 2 ^ 64 * k by ring, wrapInt64_add_mul]

theorem wrapInt64_add_right (a b : Int) : wrapInt64 (a + wrapInt64 b) = wrapInt64 (a + b) := by
  rw [add_comm, wrapInt64_add_left, add_comm]

theorem wrapInt64_mul_left (a b : Int) : wrapInt64 (wrapInt64 a * b) = wrapInt64 (a * b) := by
  obtain ⟨k, hk⟩ := wrapInt64_eq_add a
  rw [hk, show (a + 2 ^ 64 * k) * b = a * b + 2 ^ 64 * (k * b) by ring, wrapInt64_add_mul]

theorem wrapInt64_sub_one (a : Int) : wrapInt64 (wrapInt64 a - 1) = wrapInt64 (a - 1) := by
  rw [sub_eq_add_neg, wrapInt64_add_left, ← sub_eq_add_neg]

theorem summarize_fold (clusters : List DuplicateCluster) :
    ∀ acc : Int × Int,
      wrapInt64 (clusters.foldl (fun (acc : Int × Int) cluster =>
          let duplicateCount := wrapInt64 (cluster.Count - 1)
          (wrapInt64 (acc.1 + duplicateCount),
            wrapInt64 (acc.2 + wrapInt64 (duplicateCount * cluster.Size)))) acc).1 =
        wrapInt64 (acc.1 + (clusters.map (fun c => c.Count - 1)).sum) ∧
      wrapInt64 (clusters.foldl (fun (acc : Int × Int) cluster =>
          let duplicateCount := wrapInt64 (cluster.Count - 1)
          (wrapInt64 (acc.1 + duplicateCount),
            wrapInt64 (acc.2 + wrapInt64 (duplicateCount * cluster.Size)))) acc).2 =
        wrapInt64 (acc.2 + (clusters.map (fun c => (c.Count - 1) * c.Size)).sum) := by
  induction clusters with
  | nil => intro acc; simp
  | cons c rest ih =>
    intro acc
    rw [List.foldl_cons]
    obtain ⟨h1, h2⟩ := ih (wrapInt64 (acc.1 + wrapInt64 (c.Count - 1)),
      wrapInt64 (acc.2 + wrapInt64 (wrapInt64 (c.Count - 1) * c.Size)))
    refine ⟨h1.trans ?_, h2.trans ?_⟩
    · simp only [List.map_cons, List.sum_cons]
      obtain ⟨k1, hk1⟩ := wrapInt64_eq_add (c.Count - 1)
      obtain ⟨k2, hk2⟩ := wrapInt64_eq_add (acc.1 + wrapInt64 (c.Count - 1))
      rw [hk2, hk1, show acc.1 + (c.Count - 1 + 2 ^ 64 * k1) + 2 ^ 64 * k2 +
          (rest.map (fun c => c.Count - 1)).sum =
        acc.1 + (c.Count - 1 + (rest.map (fun c => c.Count - 1)).sum) + 2 ^ 64 * (k1 + k2) by ring,
        wrapInt64_add_mul]
    · simp only [List.map_cons, List.sum_cons]
      obtain ⟨k1, hk1⟩ := wrapInt64_eq_add (c.Count - 1)
      obtain ⟨k2, hk2⟩ := wrapInt64_eq_add (wrapInt64 (c.Count - 1) * c.Size)
      obtain ⟨k3, hk3⟩ := wrapInt64_eq_add (acc.2 + wrapInt64 (wrapInt64 (c.Count - 1) * c.Size))
      rw [hk3, hk2, hk1, show acc.2 + ((c.Count - 1 + 2 ^ 64 * k1) * c.Size + 2 ^ 64 * k2) +
          2 ^ 64 * k3 + (rest.map (fun c => (c.Count - 1) * c.Size)).sum =
        acc.2 + ((c.Count - 1) * c.Size + (rest.map (fun c => (c.Count - 1) * c.Size)).sum) +
          2 ^ 64 * (k1 * c.Size + k2 + k3) by ring,
        wrapInt64_add_mul]

theorem summarize_fold_range (clusters : List DuplicateCluster) :
    ∀ acc : Int × Int, wrapInt64 acc.1 = acc.1 → wrapInt64 acc.2 = acc.2 →
      wrapInt64 (clusters.foldl (fun (acc : Int × Int) cluster =>
          let duplicateCount := wrapInt64 (cluster.Count - 1)
          (wrapInt64 (acc.1 + duplicateCount),
            wrapInt64 (acc.2 + wrapInt64 (duplicateCount * cluster.Size)))) acc).1 =
        (clusters.foldl (fun (acc : Int × Int) cluster =>
          let duplicateCount := wrapInt64 (cluster.Count - 1)
          (wrapInt64 (acc.1 + duplicateCount),
            wrapInt64 (acc.2 + wrapInt64 (duplicateCount * cluster.Size)))) acc).1 ∧
      wrapInt64 (clusters.foldl (fun (acc : Int × Int) cluster =>
          let duplicateCount := wrapInt64 (cluster.Count - 1)
          (wrapInt64 (acc.1 + duplicateCount),
            wrapInt64 (acc.2 + wrapInt64 (duplicateCount * cluster.Size)))) acc).2 =
        (clusters.foldl (fun (acc : Int × Int) cluster =>
          let duplicateCount := wrapInt64 (cluster.Count - 1)
          (wrapInt64 (acc.1 + duplicateCount),
            wrapInt64 (acc.2 + wrapInt64 (duplicateCount * cluster.Size)))) acc).2 := by
  induction clusters with
  | nil => intro acc h1 h2; exact ⟨h1, h2⟩
  | cons c rest ih =>
    intro acc _ _
    rw [List.foldl_cons]
    exact ih _ (wrapInt64_idem _) (wrapInt64_idem _)

theorem summarize_eq (clusters : List DuplicateCluster) :
    (summarize clusters).totalClusters = (clusters.length : Int) ∧
      (summarize clusters).totalDuplicates =
        wrapInt64 (clusters.map (fun c => c.Count - 1)).sum ∧
      (summarize clusters).potentialSavings =
        wrapInt64 (clusters.map (fun c => (c.Count - 1) * c.Size)).sum := by
  have hfold := summarize_fold clusters (0, 0)
  have hrange := summarize_fold_range clusters (0, 0) rfl rfl
  simp only [zero_add] at hfold
  refine ⟨rfl, ?_, ?_⟩
  · exact hrange.1.symm.trans hfold.1
  · exact hrange.2.symm.trans hfold.2

theorem mem_hashGroupsOf_total {table : List File} {userID : UUID} {row : HashGroupRow}
    (h : row ∈ hashGroupsOf table userID) :
    row.TotalSize = row.Count * row.Size ∧ row.Count > 1 := by
  unfold hashGroupsOf at h
  rw [(List.perm_insertionSort _ _).mem_iff, List.mem_filter, List.mem_map] at h
  obtain ⟨⟨k, _, rfl⟩, hcount⟩ := h
  refine ⟨?_, by simpa using hcount⟩
  simp only []
  apply sum_map_const
  intro f hf
  have := (List.mem_filter.mp hf).2
  simp only [decide_eq_true_eq] at this
  exact this.2

theorem mem_sizeGroupsOf_total {table : List File} {userID : UUID} {row : SizeGroupRow}
    (h : row ∈ sizeGroupsOf table userID) : row.TotalSize = row.Count * row.Size := by
  obtain ⟨h1, _, h3, h4⟩ := mem_sizeGroupsOf h
  rw [h3, h1]
  exact sum_map_const _ _ _ h4

theorem detectByHash_total {L : Lib} {table : List File} {userID : UUID}
    {r : List DuplicateCluster} (h : detectByHash L (tableSource table) userID = .ok r) :
    ∀ c ∈ r, c.TotalSize = c.Count * c.Size := by
  rw [detectByHash_tableSource] at h
  simp only [Except.ok.injEq] at h
  subst h
  intro c hc
  rw [List.mem_map] at hc
  obtain ⟨row, hrow, rfl⟩ := hc
  exact (mem_hashGroupsOf_total hrow).1

theorem detectBySize_total {L : Lib} {table : List File} {userID : UUID}
    {r : List DuplicateCluster} (h : detectBySize L (tableSource table) userID = .ok r) :
    ∀ c ∈ r, c.TotalSize = c.Count * c.Size := by
  rw [detectBySize_tableSource] at h
  simp only [Except.ok.injEq] at h
  subst h
  intro c hc
  rw [List.mem_map] at hc
  obtain ⟨row, hrow, rfl⟩ := hc
  exact mem_sizeGroupsOf_total hrow

theorem detectBySizeAndName_total {L : Lib} {db : MetadataSource} {userID : UUID}
    {r : List DuplicateCluster} (h : detectBySizeAndName L db userID = .ok r) :
    ∀ c ∈ r, c.TotalSize = c.Count * c.Size := by
  intro c hc
  obtain ⟨_, sc, _, _, hc2⟩ := mem_detectBySizeAndName h hc
  obtain ⟨entry, _, _, _, hsize, hcount, htotal, _, _⟩ := mem_refineSizeCluster hc2
  rw [htotal, hcount, hsize]

theorem sum_savings_eq (r : List DuplicateCluster)
    (h : ∀ c ∈ r, c.TotalSize = c.Count * c.Size) :
    (r.map (fun c => (c.Count - 1) * c.Size)).sum = (r.map (fun c => c.TotalSize - c.Size)).sum := by
  induction r with
  | nil => rfl
  | cons c rest ih =>
    simp only [List.map_cons, List.sum_cons]
    rw [ih (fun d hd => h d (List.mem_cons_of_mem _ hd)), h c (List.mem_cons_self _ _)]
    ring

/-- C19 (counterexample): four pairs of files of about 3.5e18 bytes, each pair
with its own hash, give four Hash clusters whose `(Count - 1) * Size` add up to
14000000000000000006, more than an `int64` holds; the handler's
`potential_savings` is -4446744073709551610. -/
theorem summary_savings_wrap :
    (DetectDuplicates refLib (tableSource hugePairs) 1 StrategyHash).map
        (fun r => ((summarize r).potentialSavings,
          (r.map (fun c => (c.Count - 1) * c.Size)).sum,
          r.map (fun c => (c.Count, c.Size)))) =
      .ok (-4446744073709551610, 14000000000000000006,
        [(2, 3500000000000000003), (2, 3500000000000000002), (2, 3500000000000000001),
          (2, 3500000000000000000)]) := by
  decide!

/-- C19: the summary the handler computes has `total_duplicates` the sum of
`Count - 1` and `potential_savings` the sum of `(Count - 1) * Size` over the
clusters, each reduced to an `int64` by wrap-around, and equal to the sum itself
whenever the sum lies in the `int64` range; for the list `DetectDuplicates`
returns over a table, under every strategy, each cluster has
`TotalSize == Count * Size`, so that the sum of `(Count - 1) * Size` is the sum
of `TotalSize - Size`. -/
theorem summary_totals (L : Lib) (hL : L.SortOK) :
    (∀ clusters : List DuplicateCluster,
        (summarize clusters).totalClusters = (clusters.length : Int) ∧
        (summarize clusters).totalDuplicates =
          wrapInt64 (clusters.map (fun c => c.Count - 1)).sum ∧
        (summarize clusters).potentialSavings =
          wrapInt64 (clusters.map (fun c => (c.Count - 1) * c.Size)).sum ∧
        (-2 ^ 63 ≤ (clusters.map (fun c => c.Count - 1)).sum →
          (clusters.map (fun c => c.Count - 1)).sum < 2 ^ 63 →
          (summarize clusters).totalDuplicates = (clusters.map (fun c => c.Count - 1)).sum) ∧
        (-2 ^ 63 ≤ (clusters.map (fun c => (c.Count - 1) * c.Size)).sum →
          (clusters.map (fun c => (c.Count - 1) * c.Size)).sum < 2 ^ 63 →
          (summarize clusters).potentialSavings =
            (clusters.map (fun c => (c.Count - 1) * c.Size)).sum)) ∧
      (∀ table userID strategy r,
        DetectDuplicates L (tableSource table) userID strategy = .ok r →
          (∀ c ∈ r, c.TotalSize = c.Count * c.Size) ∧
          (r.map (fun c => (c.Count - 1) * c.Size)).sum =
            (r.map (fun c => c.TotalSize - c.Size)).sum ∧
          (summarize r).potentialSavings =
            wrapInt64 (r.map (fun c => c.TotalSize - c.Size)).sum ∧
          (-2 ^ 63 ≤ (r.map (fun c => c.TotalSize - c.Size)).sum →
            (r.map (fun c => c.TotalSize - c.Size)).sum < 2 ^ 63 →
            (summarize r).potentialSavings = (r.map (fun c => c.TotalSize - c.Size)).sum)) ∧
      (∀ db uid query r, DetectDuplicates L db uid (handlerStrategy query) = .ok r →
        ∃ summary, detectDuplicatesHandler L db uid query = .ok summary r ∧
          summary = summarize r) := by
  refine ⟨?_, ?_, ?_⟩
  · intro clusters
    obtain ⟨h1, h2, h3⟩ := summarize_eq clusters
    refine ⟨h1, h2, h3, ?_, ?_⟩
    · intro ha hb
      rw [h2, wrapInt64_of_range _ ha hb]
    · intro ha hb
      rw [h3, wrapInt64_of_range _ ha hb]
  · intro table userID strategy r h
    have htotal : ∀ c ∈ r, c.TotalSize = c.Count * c.Size := by
      rcases detectDuplicates_cases L (tableSource table) userID strategy with e | e | e | e <;>
        rw [e] at h
      · exact detectByHash_total h
      · exact detectBySize_total h
      · exact detectBySizeAndName_total h
      · intro c hc
        obtain ⟨hs, ns, h1, h2, hmem⟩ := mem_detectAdvanced hL h hc
        rcases hmem with hm | hm
        · exact detectByHash_total h1 c hm
        · exact detectBySizeAndName_total h2 c hm
    have hsum := sum_savings_eq r htotal
    have hwrap : (summarize r).potentialSavings =
        wrapInt64 (r.map (fun c => c.TotalSize - c.Size)).sum := by
      rw [(summarize_eq r).2.2, hsum]
    refine ⟨htotal, hsum, hwrap, ?_⟩
    intro ha hb
    rw [hwrap, wrapInt64_of_range _ ha hb]
  · intro db uid query r h
    refine ⟨summarize r, ?_, rfl⟩
    unfold detectDuplicatesHandler
    rw [h]

theorem summary_unrankedFiles :
    (DetectDuplicates refLib (tableSource unrankedFiles) 1 StrategyAdvanced).map
        (fun r => (summarize r, r.map (fun c => c.TotalSize - c.Size))) =
      .ok ({ totalClusters := 2, totalDuplicates := 3, potentialSavings := 220 },
        [120, 100]) := by
  decide!

theorem summary_totals_witness :
    refLib.SortOK ∧ ∃ r, DetectDuplicates refLib (tableSource unrankedFiles) 1 StrategyAdvanced = .ok r ∧
      summarize r = { totalClusters := 2, totalDuplicates := 3, potentialSavings := 220 } ∧
      (∀ c ∈ r, c.TotalSize = c.Count * c.Size) ∧
      (summarize r).potentialSavings = (r.map (fun c => c.TotalSize - c.Size)).sum := by
  obtain ⟨r, hr, hv⟩ := exists_ok_of_map summary_unrankedFiles
  have h := (summary_totals refLib refLib_sortOK).2.1 unrankedFiles 1 StrategyAdvanced r hr
  have hlist : r.map (fun c => c.TotalSize - c.Size) = [120, 100] := (Prod.mk.inj hv).2
  refine ⟨refLib_sortOK, r, hr, (Prod.mk.inj hv).1, h.1, ?_⟩
  apply h.2.2.2
  · rw [hlist]; decide
  · rw [hlist]; decide

/-! ### Scenario 2: files of one size -/

theorem detectBySize_uniform (L : Lib) (table : List File) (userID : UUID) (s : Int) (n : Nat)
    (hs : s > 0) (hn : 2 ≤ n) (hlen : (userFiles table userID).length = n)
    (hall : ∀ f ∈ userFiles table userID, f.Size = s) :
    detectBySize L (tableSource table) userID =
        .ok [sizeCluster L { Size := s, Count := (n : Int), TotalSize := (n : Int) * s }
          (filesBySizeOf table userID s)] ∧
      (filesBySizeOf table userID s).length = n ∧
      (filesBySizeOf table userID s).Perm (userFiles table userID) := by
  have hrows : table.filter (fun f => decide (f.UserID = userID ∧ f.Size > 0)) =
      userFiles table userID := by
    unfold userFiles
    apply List.filter_congr
    intro f hf
    by_cases hu : f.UserID = userID
    · have hmem : f ∈ userFiles table userID := by
        unfold userFiles
        rw [List.mem_filter]
        exact ⟨hf, by simpa using hu⟩
      have := hall f hmem
      simp [hu, this, hs]
    · simp [hu]
  have hfiles : table.filter (fun f => decide (f.UserID = userID ∧ f.Size = s)) =
      userFiles table userID := by
    unfold userFiles
    apply List.filter_congr
    intro f hf
    by_cases hu : f.UserID = userID
    · have hmem : f ∈ userFiles table userID := by
        unfold userFiles
        rw [List.mem_filter]
        exact ⟨hf, by simpa using hu⟩
      have := hall f hmem
      simp [hu, this]
    · simp [hu]
  have hmap : (userFiles table userID).map (fun f => f.Size) = List.replicate n s := by
    rw [List.eq_replicate_iff]
    refine ⟨by rw [List.length_map, hlen], ?_⟩
    intro b hb
    rw [List.mem_map] at hb
    obtain ⟨f, hf, rfl⟩ := hb
    exact hall f hf
  have hmembers : (userFiles table userID).filter (fun f => decide (f.Size = s)) =
      userFiles table userID := by
    rw [List.filter_eq_self]
    intro f hf
    simpa using hall f hf
  have hsum : ((userFiles table userID).map (fun f => f.Size)).sum = (n : Int) * s := by
    rw [sum_map_const _ s _ hall, hlen]
  have hgroups : sizeGroupsOf table userID =
      [{ Size := s, Count := (n : Int), TotalSize := (n : Int) * s }] := by
    unfold sizeGroupsOf
    simp only [hrows, hmap]
    rw [List.replicate_dedup (by omega)]
    simp only [List.map_cons, List.map_nil, hmembers, hlen]
    rw [hsum]
    have hc : decide ((n : Int) > 1) = true := by
      simp only [decide_eq_true_eq]
      omega
    rw [List.filter_cons]
    simp only [hc, if_true, List.filter_nil, List.insertionSort, List.orderedInsert]
  refine ⟨?_, ?_, ?_⟩
  · rw [detectBySize_tableSource, hgroups]
    rfl
  · rw [(filesBySizeOf_perm table userID s).length_eq, hfiles, hlen]
  · rw [← hfiles]
    exact filesBySizeOf_perm table userID s

/-- C12 fails on the confidence: five files of 5,000,000 bytes give one cluster
with `Count = 5` whose candidates all have confidence 0.4, not 0.28; a group of
exactly five members is not discounted. -/
theorem five_files_confidence :
    clusterConfidences (DetectDuplicates refLib (tableSource fiveLargeFiles) 1 StrategySize) =
        .ok [(5, [4 / 10, 4 / 10, 4 / 10, 4 / 10, 4 / 10])] ∧
      (4 / 10 : ℚ) ≠ 4 / 10 * (7 / 10) ∧
      calculateSizeConfidence 5000000 5 = 4 / 10 := by
  refine ⟨by decide!, by norm_num, by decide!⟩

/-- C12, amended: for a user whose files are exactly five files of size
5,000,000 bytes, the Size strategy returns exactly one cluster, with
`Count = 5` and five candidates, each with confidence 0.4 (size tier above 1 MB;
the 0.7 discount applies to groups of more than five members, so that six such
files give 0.4 * 0.7 = 0.28). -/
theorem five_files_one_cluster (L : Lib) (table : List File) (userID : UUID)
    (hlen : (userFiles table userID).length = 5)
    (hall : ∀ f ∈ userFiles table userID, f.Size = 5000000) :
    (∃ c, DetectDuplicates L (tableSource table) userID StrategySize = .ok [c] ∧
        c.Count = 5 ∧ c.Candidates.length = 5 ∧ c.Size = 5000000 ∧
        ∀ x ∈ c.Candidates, x.Confidence = 4 / 10) ∧
      calculateSizeConfidence 5000000 6 = 4 / 10 * (7 / 10) := by
  refine ⟨?_, by decide!⟩
  obtain ⟨h1, h2, _⟩ := detectBySize_uniform L table userID 5000000 5 (by norm_num) (by norm_num)
    hlen hall
  refine ⟨_, h1, rfl, ?_, rfl, ?_⟩
  · simp only [sizeCluster, List.length_map]
    exact h2
  · intro x hx
    rw [sizeCluster_confidence L _ _ x hx]
    decide!

theorem five_files_one_cluster_witness :
    (userFiles fiveLargeFiles 1).length = 5 ∧
      (∀ f ∈ userFiles fiveLargeFiles 1, f.Size = 5000000) ∧
      ∃ c, DetectDuplicates refLib (tableSource fiveLargeFiles) 1 StrategySize = .ok [c] ∧
        c.Count = 5 ∧ c.Candidates.length = 5 ∧ c.Size = 5000000 ∧
        ∀ x ∈ c.Candidates, x.Confidence = 4 / 10 :=
  ⟨by decide, by decide,
    (five_files_one_cluster refLib fiveLargeFiles 1 (by decide) (by decide)).1⟩

/-! ### Scenario 3: two names below the threshold -/

theorem normalizeFilename_eq (L : Lib) (filename : GoString) :
    normalizeFilename L filename = L.trimSpace (normalizeCore (L.toLower filename)) := rfl

theorem range_nil (L : Lib) (hmap : L.MapOrderOK) : NameGroups.range L [] = [] := by
  unfold NameGroups.range
  have : L.mapOrder [] = [] := List.Perm.eq_nil (hmap [] List.nodup_nil)
  simp [this]

theorem range_singleton (L : Lib) (hmap : L.MapOrderOK) (e : GoString × List DuplicateCandidate) :
    NameGroups.range L [e] = [e] := by
  unfold NameGroups.range
  have : L.mapOrder [e.1] = [e.1] :=
    List.perm_singleton.mp (hmap [e.1] (List.nodup_singleton _))
  simp [this]

theorem groupByNameSimilarity_two (L : Lib) (hmap : L.MapOrderOK) (x y : DuplicateCandidate)
    (hsim : calculateStringSimilarity (normalizedName L y) (normalizedName L x) < 8 / 10) :
    groupByNameSimilarity L [x, y] = [(normalizedName L x, [x]), (normalizedName L y, [y])] := by
  have hne : ¬ normalizedName L x = normalizedName L y := by
    intro e
    rw [e, similarity_self] at hsim
    norm_num at hsim
  have hstep1 : findSimilarGroup L (normalizedName L x) [] = [] := by
    unfold findSimilarGroup
    rw [range_nil L hmap]
    rfl
  have hstep2 : findSimilarGroup L (normalizedName L y) [(normalizedName L x, [x])] = [] := by
    unfold findSimilarGroup
    rw [range_singleton L hmap]
    have : decide (calculateStringSimilarity (normalizedName L y) (normalizedName L x) ≥ 8 / 10)
        = false := by
      simp only [decide_eq_false_iff_not, ge_iff_le, not_le]
      exact hsim
    simp [List.find?, this]
  unfold groupByNameSimilarity
  simp only [List.foldl_cons, List.foldl_nil]
  simp only [← normalizedName.eq_1, hstep1, if_true]
  have h1 : NameGroups.set [] (normalizedName L x) (NameGroups.get [] (normalizedName L x) ++ [x]) =
      [(normalizedName L x, [x])] := by
    simp [NameGroups.set, NameGroups.get]
  rw [h1, hstep2]
  simp [NameGroups.set, NameGroups.get, hne]

theorem refineSizeCluster_two_dissimilar (L : Lib) (hmap : L.MapOrderOK)
    (cluster : DuplicateCluster) (x y : DuplicateCandidate) (hc : cluster.Candidates = [x, y])
    (hsim : calculateStringSimilarity (normalizedName L y) (normalizedName L x) < 8 / 10) :
    refineSizeCluster L cluster = [] := by
  rw [List.eq_nil_iff_forall_not_mem]
  intro c hcm
  obtain ⟨entry, hentry, hlen, _⟩ := mem_refineSizeCluster hcm
  obtain ⟨e, he, hee⟩ := NameGroups.mem_range hentry
  rw [hc, groupByNameSimilarity_two L hmap x y hsim] at he
  rw [hee] at hlen
  simp only [List.mem_cons, List.mem_singleton, List.not_mem_nil, or_false] at he
  rcases he with rfl | rfl <;> simp at hlen

theorem refLib_mapOrderOK : refLib.MapOrderOK := fun keys _ => List.Perm.refl keys

theorem perm_pair {α : Type} {l : List α} {a b : α} (h : l.Perm [a, b]) :
    l = [a, b] ∨ l = [b, a] := by
  have hl := h.length_eq
  match l, h, hl with
  | [c, d], h, _ =>
    have hc : c ∈ [a, b] := h.mem_iff.mp (List.mem_cons_self _ _)
    simp only [List.mem_cons, List.mem_singleton, List.not_mem_nil, or_false] at hc
    rcases hc with rfl | rfl
    · left
      have := List.perm_singleton.mp (List.Perm.cons_inv h)
      simp only [List.cons.injEq, and_true] at this
      rw [this]
    · right
      have h2 : [c, d].Perm [c, a] := h.trans (List.Perm.swap c a [])
      have := List.perm_singleton.mp (List.Perm.cons_inv h2)
      simp only [List.cons.injEq, and_true] at this
      rw [this]

theorem vacation_similarity :
    calculateStringSimilarity (ascii "vacation photo") (ascii "vacation photo (1)") = 7 / 9 ∧
      calculateStringSimilarity (ascii "vacation photo (1)") (ascii "vacation photo") = 7 / 9 := by
  refine ⟨by decide!, by decide!⟩

/-- C13 fails: for the two files `vacation_photo.jpg` and
`vacation-photo (1).jpg` of one size the Size+Name strategy returns no cluster;
the normalized names `vacation photo` and `vacation photo (1)` have similarity
1 - 4/18 = 7/9, below the threshold 0.8. -/
theorem vacation_photos_counterexample :
    clusterFiles (DetectDuplicates refLib (tableSource vacationFiles) 1 StrategySizeAndName) = .ok [] ∧
      vacationFiles.map (fun f => normalizeFilename refLib (extractFilename f.PathTail)) =
        [ascii "vacation photo", ascii "vacation photo (1)"] ∧
      levenshteinDistance (ascii "vacation photo") (ascii "vacation photo (1)") = 4 ∧
      calculateStringSimilarity (ascii "vacation photo") (ascii "vacation photo (1)") = 7 / 9 ∧
      ¬ ((7 : ℚ) / 9 ≥ 8 / 10) := by
  refine ⟨by decide!, by decide, by decide!, by decide!, by norm_num⟩

/-- C13, amended: for a user whose files are exactly two files of identical
positive size with path tails `vacation_photo.jpg` and `vacation-photo (1).jpg`,
the Size+Name strategy returns no cluster: the normalized names
`vacation photo` and `vacation photo (1)` have similarity 7/9 < 0.8, so each
file starts a sub-group of its own and both sub-groups are discarded. (The
library is any one that visits every map key once and whose `ToLower` and
`TrimSpace` leave these lower-case, untrimmed names unchanged, as Go's do.) -/
theorem vacation_photos_not_grouped (L : Lib) (hmap : L.MapOrderOK)
    (hlow1 : L.toLower (ascii "vacation_photo.jpg") = ascii "vacation_photo.jpg")
    (hlow2 : L.toLower (ascii "vacation-photo (1).jpg") = ascii "vacation-photo (1).jpg")
    (htrim1 : L.trimSpace (ascii "vacation photo") = ascii "vacation photo")
    (htrim2 : L.trimSpace (ascii "vacation photo (1)") = ascii "vacation photo (1)")
    (table : List File) (userID : UUID) (f1 f2 : File)
    (hfiles : userFiles table userID = [f1, f2])
    (hsize : f1.Size = f2.Size) (hpos : f1.Size > 0)
    (hp1 : f1.PathTail = ascii "vacation_photo.jpg")
    (hp2 : f2.PathTail = ascii "vacation-photo (1).jpg") :
    DetectDuplicates L (tableSource table) userID StrategySizeAndName = .ok [] ∧
      calculateStringSimilarity (ascii "vacation photo") (ascii "vacation photo (1)") = 7 / 9 := by
  refine ⟨?_, vacation_similarity.1⟩
  have hall : ∀ f ∈ userFiles table userID, f.Size = f1.Size := by
    intro f hf
    rw [hfiles] at hf
    simp only [List.mem_cons, List.mem_singleton, List.not_mem_nil, or_false] at hf
    rcases hf with rfl | rfl
    · rfl
    · exact hsize.symm
  obtain ⟨h1, _, h3⟩ := detectBySize_uniform L table userID f1.Size 2 hpos (le_refl 2)
    (by rw [hfiles]; rfl) hall
  rw [hfiles] at h3
  have hn1 : ∀ c : DuplicateCandidate, c.File = f1 → normalizedName L c = ascii "vacation photo" := by
    intro c hc
    unfold normalizedName
    rw [hc, hp1, show extractFilename (ascii "vacation_photo.jpg") = ascii "vacation_photo.jpg" from
      by decide, normalizeFilename_eq, hlow1,
      show normalizeCore (ascii "vacation_photo.jpg") = ascii "vacation photo" from by decide, htrim1]
  have hn2 : ∀ c : DuplicateCandidate, c.File = f2 →
      normalizedName L c = ascii "vacation photo (1)" := by
    intro c hc
    unfold normalizedName
    rw [hc, hp2, show extractFilename (ascii "vacation-photo (1).jpg") =
      ascii "vacation-photo (1).jpg" from by decide, normalizeFilename_eq, hlow2,
      show normalizeCore (ascii "vacation-photo (1).jpg") = ascii "vacation photo (1)" from
        by decide, htrim2]
  have h78 : (7 : ℚ) / 9 < 8 / 10 := by norm_num
  change detectBySizeAndName L (tableSource table) userID = .ok []
  unfold detectBySizeAndName
  rw [h1]
  simp only [List.flatMap_cons, List.flatMap_nil, List.append_nil]
  congr 1
  rcases perm_pair h3 with hf | hf
  · apply refineSizeCluster_two_dissimilar L hmap _ _ _ (by rw [sizeCluster, hf]; rfl)
    rw [hn2 _ rfl, hn1 _ rfl, vacation_similarity.2]
    exact h78
  · apply refineSizeCluster_two_dissimilar L hmap _ _ _ (by rw [sizeCluster, hf]; rfl)
    rw [hn1 _ rfl, hn2 _ rfl, vacation_similarity.1]
    exact h78

theorem vacation_photos_not_grouped_witness :
    refLib.MapOrderOK ∧
      refLib.toLower (ascii "vacation_photo.jpg") = ascii "vacation_photo.jpg" ∧
      refLib.toLower (ascii "vacation-photo (1).jpg") = ascii "vacation-photo (1).jpg" ∧
      refLib.trimSpace (ascii "vacation photo") = ascii "vacation photo" ∧
      refLib.trimSpace (ascii "vacation photo (1)") = ascii "vacation photo (1)" ∧
      userFiles vacationFiles 1 = vacationFiles ∧
      DetectDuplicates refLib (tableSource vacationFiles) 1 StrategySizeAndName = .ok [] :=
  ⟨refLib_mapOrderOK, by decide, by decide, by decide, by decide, by decide,
    (vacation_photos_not_grouped refLib refLib_mapOrderOK (by decide) (by decide) (by decide)
      (by decide) vacationFiles 1 (fileRow 1 [] 2048 "vacation_photo.jpg" 1)
      (fileRow 2 [] 2048 "vacation-photo (1).jpg" 2) (by decide) (by decide) (by decide)
      (by decide) (by decide)).1⟩

/-! ### What a sub-group guarantees -/

theorem groupByNameSimilarity_eq_foldl (L : Lib) (candidates : List DuplicateCandidate) :
    groupByNameSimilarity L candidates = candidates.foldl (groupStep L) [] := rfl

theorem groupStep_eq (L : Lib) (groups : NameGroups) (c : DuplicateCandidate) :
    groupStep L groups c =
      groups.set
        (if findSimilarGroup L (normalizedName L c) groups = [] then normalizedName L c
          else findSimilarGroup L (normalizedName L c) groups)
        (groups.get
          (if findSimilarGroup L (normalizedName L c) groups = [] then normalizedName L c
            else findSimilarGroup L (normalizedName L c) groups) ++ [c]) := rfl

theorem findSimilarGroup_spec (L : Lib) (name : GoString) (groups : NameGroups) :
    findSimilarGroup L name groups = [] ∨
      (calculateStringSimilarity name (findSimilarGroup L name groups) ≥ 8 / 10 ∧
        findSimilarGroup L name groups ∈ groups.map Prod.fst) := by
  unfold findSimilarGroup
  cases hf : (groups.range L).find?
      (fun e => decide (calculateStringSimilarity name e.1 ≥ 8 / 10)) with
  | none => left; rfl
  | some e =>
    right
    have hp := List.find?_some hf
    simp only [decide_eq_true_eq] at hp
    refine ⟨hp, ?_⟩
    have hmem := List.mem_of_find?_eq_some hf
    unfold NameGroups.range at hmem
    rw [List.mem_filterMap] at hmem
    obtain ⟨k, _, hk⟩ := hmem
    cases hg : groups.find? (fun e => decide (e.1 = k)) with
    | none => rw [hg] at hk; simp at hk
    | some e0 =>
      rw [hg] at hk
      simp only [Option.map_some', Option.some.injEq] at hk
      have h1 := List.find?_some hg
      simp only [decide_eq_true_eq] at h1
      rw [List.mem_map]
      exact ⟨e0, List.mem_of_find?_eq_some hg, by rw [← hk]; exact h1⟩

theorem NameGroups.get_spec (groups : NameGroups) (key : GoString) :
    groups.get key = [] ∨ ∃ e ∈ groups, e.1 = key ∧ groups.get key = e.2 := by
  unfold NameGroups.get
  cases hf : groups.find? (fun e => decide (e.1 = key)) with
  | none => left; rfl
  | some e =>
    right
    have h1 := List.find?_some hf
    simp only [decide_eq_true_eq] at h1
    exact ⟨e, List.mem_of_find?_eq_some hf, h1, rfl⟩

theorem NameGroups.mem_set_cases {groups : NameGroups} {key : GoString}
    {value : List DuplicateCandidate} {e : GoString × List DuplicateCandidate}
    (h : e ∈ groups.set key value) : e ∈ groups ∨ e = (key, value) := by
  unfold NameGroups.set at h
  split_ifs at h
  · rw [List.mem_map] at h
    obtain ⟨e0, he0, rfl⟩ := h
    by_cases hk : e0.1 = key
    · right; simp [hk]
    · left; simpa [hk] using he0
  · rw [List.mem_append] at h
    rcases h with h | h
    · exact Or.inl h
    · right
      simpa using h

theorem groupStep_anchored (L : Lib) (groups : NameGroups) (c : DuplicateCandidate)
    (hg : ∀ e ∈ groups, AnchoredGroup L e) : ∀ e ∈ groupStep L groups c, AnchoredGroup L e := by
  intro e he
  rw [groupStep_eq] at he
  rcases NameGroups.mem_set_cases he with h | h
  · exact hg e h
  · have hkey : calculateStringSimilarity (normalizedName L c)
        (if findSimilarGroup L (normalizedName L c) groups = [] then normalizedName L c
          else findSimilarGroup L (normalizedName L c) groups) ≥ 8 / 10 := by
      split_ifs with hf
      · rw [similarity_self]; norm_num
      · rcases findSimilarGroup_spec L (normalizedName L c) groups with h0 | h0
        · exact absurd h0 hf
        · exact h0.1
    rw [h]
    rcases NameGroups.get_spec groups
        (if findSimilarGroup L (normalizedName L c) groups = [] then normalizedName L c
          else findSimilarGroup L (normalizedName L c) groups) with h0 | ⟨e0, he0, hk0, hv0⟩
    · rw [h0]
      refine ⟨?_, c, [], rfl, ?_⟩
      · intro x hx
        simp only [List.nil_append, List.mem_singleton] at hx
        rw [hx]
        exact hkey
      · split_ifs with hf
        · rfl
        · exfalso
          rcases findSimilarGroup_spec L (normalizedName L c) groups with h1 | h1
          · exact hf h1
          · rw [List.mem_map] at h1
            obtain ⟨e1, he1, hk1⟩ := h1.2
            have hget : groups.get (findSimilarGroup L (normalizedName L c) groups) ≠ [] := by
              unfold NameGroups.get
              cases hfind : groups.find?
                  (fun e => decide (e.1 = findSimilarGroup L (normalizedName L c) groups)) with
              | none =>
                have := List.find?_eq_none.mp hfind e1 he1
                simp only [decide_eq_true_eq] at this
                exact absurd hk1 this
              | some e2 =>
                obtain ⟨_, first, rest, h2, _⟩ := hg e2 (List.mem_of_find?_eq_some hfind)
                simp only []
                rw [h2]
                exact List.cons_ne_nil _ _
            rw [if_neg hf] at h0
            exact hget h0
    · rw [hv0]
      obtain ⟨hsim, first, rest, hfirst, hnorm⟩ := hg e0 he0
      refine ⟨?_, first, rest ++ [c], by rw [hfirst]; rfl, by rw [hnorm, hk0]⟩
      intro x hx
      rw [List.mem_append] at hx
      rcases hx with hx | hx
      · have := hsim x hx
        rw [hk0] at this
        exact this
      · simp only [List.mem_singleton] at hx
        rw [hx]
        exact hkey

theorem foldl_groupStep_anchored (L : Lib) :
    ∀ (candidates : List DuplicateCandidate) (groups : NameGroups),
      (∀ e ∈ groups, AnchoredGroup L e) →
      ∀ e ∈ candidates.foldl (groupStep L) groups, AnchoredGroup L e := by
  intro candidates
  induction candidates with
  | nil => intro groups hg; simpa using hg
  | cons c rest ih =>
    intro groups hg
    rw [List.foldl_cons]
    exact ih _ (groupStep_anchored L groups c hg)

theorem groupByNameSimilarity_anchored (L : Lib) (candidates : List DuplicateCandidate) :
    ∀ e ∈ groupByNameSimilarity L candidates, AnchoredGroup L e := by
  rw [groupByNameSimilarity_eq_foldl]
  exact foldl_groupStep_anchored L candidates [] (fun _ h => absurd h (List.not_mem_nil _))

theorem normalizedName_congr (L : Lib) {x y : DuplicateCandidate} (h : x.File = y.File) :
    normalizedName L x = normalizedName L y := by
  unfold normalizedName
  rw [h]

/-- C14 fails: the files `abcde.txt`, `xbcde.txt`, `abcdz.txt` of one size form
one sub-group (and one Size+Name cluster), the second and the third each being
0.8 similar to the key `abcde`, while their own normalized names `xbcde` and
`abcdz` are only 0.6 similar. -/
theorem subgroup_members_not_mutually_similar :
    groupIDs (groupByNameSimilarity refLib (chainFiles.map bareCandidate)) =
        [(ascii "abcde", [1, 2, 3])] ∧
      chainFiles.map (fun f => normalizedName refLib (bareCandidate f)) =
        [ascii "abcde", ascii "xbcde", ascii "abcdz"] ∧
      calculateStringSimilarity (ascii "xbcde") (ascii "abcdz") = 3 / 5 ∧
      ¬ ((3 : ℚ) / 5 ≥ 8 / 10) ∧
      clusterFiles (DetectDuplicates refLib (tableSource chainFiles) 1 StrategySizeAndName) =
        .ok [(2, [1, 2, 3])] := by
  refine ⟨by decide!, by decide, by decide!, by norm_num, by decide!⟩

/-- C14, amended: in every sub-group produced by `groupByNameSimilarity` (hence
in every cluster returned by the Size+Name strategy) the normalized filename of
every member is at least 0.8 similar to the normalized filename of the
sub-group's first member, which is the sub-group's key; two later members need
not be similar to each other. -/
theorem subgroup_members_similar_to_first (L : Lib) :
    (∀ candidates, ∀ e ∈ groupByNameSimilarity L candidates,
        ∃ first rest, e.2 = first :: rest ∧ e.1 = normalizedName L first ∧
          ∀ x ∈ e.2, calculateStringSimilarity (normalizedName L x) (normalizedName L first) ≥
            8 / 10) ∧
      (∀ db userID r, DetectDuplicates L db userID StrategySizeAndName = .ok r → ∀ c ∈ r,
        ∃ first rest, c.Candidates = first :: rest ∧
          ∀ x ∈ c.Candidates,
            calculateStringSimilarity (normalizedName L x) (normalizedName L first) ≥ 8 / 10) := by
  constructor
  · intro candidates e he
    obtain ⟨hsim, first, rest, hfirst, hnorm⟩ := groupByNameSimilarity_anchored L candidates e he
    refine ⟨first, rest, hfirst, hnorm.symm, ?_⟩
    intro x hx
    rw [hnorm]
    exact hsim x hx
  · intro db userID r h c hc
    have h2 : detectBySizeAndName L db userID = .ok r := h
    obtain ⟨_, sc, _, _, hc2⟩ := mem_detectBySizeAndName h2 hc
    obtain ⟨entry, hentry, _, _, _, _, _, hfiles, _⟩ := mem_refineSizeCluster hc2
    obtain ⟨e, he, hee⟩ := NameGroups.mem_range hentry
    obtain ⟨hsim, first, rest, hfirst, hnorm⟩ :=
      groupByNameSimilarity_anchored L sc.Candidates e he
    rw [hee, hfirst] at hfiles
    match hcs : c.Candidates, hfiles with
    | [], hfiles => simp at hfiles
    | cfirst :: crest, hfiles =>
      refine ⟨cfirst, crest, rfl, ?_⟩
      simp only [List.map_cons, List.cons.injEq] at hfiles
      intro x hx
      have hxf : x.File ∈ (cfirst :: crest).map (fun x => x.File) := List.mem_map_of_mem _ hx
      rw [List.map_cons, hfiles.1, hfiles.2, ← List.map_cons, ← hfirst, List.mem_map] at hxf
      obtain ⟨y, hy, hyx⟩ := hxf
      rw [normalizedName_congr L hyx.symm, normalizedName_congr L hfiles.1, hnorm]
      exact hsim y hy

theorem subgroup_members_similar_to_first_witness :
    ∃ r, DetectDuplicates refLib (tableSource chainFiles) 1 StrategySizeAndName = .ok r ∧
      r.map (fun c => c.Candidates.map (fun x => x.File.ID)) = [[1, 2, 3]] ∧
      ∀ c ∈ r, ∃ first rest, c.Candidates = first :: rest ∧
        ∀ x ∈ c.Candidates,
          calculateStringSimilarity (normalizedName refLib x) (normalizedName refLib first) ≥
            8 / 10 := by
  have e : (DetectDuplicates refLib (tableSource chainFiles) 1 StrategySizeAndName).map
      (List.map (fun c => c.Candidates.map (fun x => x.File.ID))) = .ok [[1, 2, 3]] := by
    decide!
  obtain ⟨r, hr, hv⟩ := exists_ok_of_map e
  exact ⟨r, hr, hv, (subgroup_members_similar_to_first refLib).2 _ _ r hr⟩

/-! ### The confidence of a cluster of two files -/

theorem calculateNameSimilarityConfidence_pair (x y : DuplicateCandidate) :
    calculateNameSimilarityConfidence [x, y] =
      confidenceBand (calculateStringSimilarity (extractFilename x.File.PathTail)
        (extractFilename y.File.PathTail)) := by
  rw [calculateNameSimilarityConfidence_eq]
  simp [pairSimilarities]

/-- C15 fails: the files `IMG_1.JPG` and `img-1.png` of one size have the same
normalized name `img 1` and form a Size+Name cluster of two, whose confidence is
computed from the names as they stand (similarity 2/9) and is 2/9 * 0.6 = 2/15,
none of 0.9, 0.7, 0.5. -/
theorem pair_confidence_below_bands :
    clusterConfidences (DetectDuplicates refLib (tableSource caseFiles) 1 StrategySizeAndName) =
        .ok [(2, [2 / 15, 2 / 15])] ∧
      caseFiles.map (fun f => normalizedName refLib (bareCandidate f)) =
        [ascii "img 1", ascii "img 1"] ∧
      calculateStringSimilarity (ascii "IMG_1.JPG") (ascii "img-1.png") = 2 / 9 ∧
      (2 / 15 : ℚ) ≠ 9 / 10 ∧ (2 / 15 : ℚ) ≠ 7 / 10 ∧ (2 / 15 : ℚ) ≠ 5 / 10 := by
  refine ⟨by decide!, by decide, by decide!, by norm_num, by norm_num, by norm_num⟩

/-- C15, amended: for every cluster of exactly two files returned by the
Size+Name strategy, the confidence of both candidates is the band of the
similarity `s` of the two file names as `extractFilename` returns them (not
normalized): one of 0.9, 0.7, 0.5 when `s > 0.6`, and `s * 0.6` when
`s <= 0.6`, which names that differ in case, separators or extension reach
although their normalized names are at least 0.8 similar. -/
theorem pair_confidence_is_band_of_raw_similarity (L : Lib) (db : MetadataSource)
    (userID : UUID) (r : List DuplicateCluster)
    (h : DetectDuplicates L db userID StrategySizeAndName = .ok r)
    (c : DuplicateCluster) (hc : c ∈ r) (x y : DuplicateCandidate)
    (hxy : c.Candidates = [x, y]) :
    x.Confidence = confidenceBand (calculateStringSimilarity (extractFilename x.File.PathTail)
        (extractFilename y.File.PathTail)) ∧
      y.Confidence = x.Confidence ∧
      (calculateStringSimilarity (extractFilename x.File.PathTail)
          (extractFilename y.File.PathTail) > 6 / 10 →
        x.Confidence = 9 / 10 ∨ x.Confidence = 7 / 10 ∨ x.Confidence = 5 / 10) ∧
      (calculateStringSimilarity (extractFilename x.File.PathTail)
          (extractFilename y.File.PathTail) ≤ 6 / 10 →
        x.Confidence = calculateStringSimilarity (extractFilename x.File.PathTail)
          (extractFilename y.File.PathTail) * (6 / 10)) := by
  have h2 : detectBySizeAndName L db userID = .ok r := h
  obtain ⟨_, sc, _, _, hc2⟩ := mem_detectBySizeAndName h2 hc
  obtain ⟨entry, _, _, _, _, _, _, hfiles, hconf⟩ := mem_refineSizeCluster hc2
  rw [hxy] at hfiles hconf
  have hx := hconf x (List.mem_cons_self _ _)
  have hy := hconf y (List.mem_cons_of_mem _ (List.mem_cons_self _ _))
  match hent : entry.2, hfiles with
  | [x2, y2], hfiles =>
    simp only [List.map_cons, List.map_nil, List.cons.injEq, and_true] at hfiles
    rw [hent, calculateNameSimilarityConfidence_pair, ← hfiles.1, ← hfiles.2] at hx hy
    refine ⟨hx, by rw [hx, hy], ?_, ?_⟩
    · intro hs
      rw [hx]
      unfold confidenceBand
      split_ifs
      · left; rfl
      · right; left; rfl
      · right; right; rfl
    · intro hs
      rw [hx]
      unfold confidenceBand
      have h1 : ¬ calculateStringSimilarity (extractFilename x.File.PathTail)
          (extractFilename y.File.PathTail) > 95 / 100 := by linarith
      have h2 : ¬ calculateStringSimilarity (extractFilename x.File.PathTail)
          (extractFilename y.File.PathTail) > 8 / 10 := by linarith
      have h3 : ¬ calculateStringSimilarity (extractFilename x.File.PathTail)
          (extractFilename y.File.PathTail) > 6 / 10 := by linarith
      rw [if_neg h1, if_neg h2, if_neg h3]
  | [], hfiles => simp at hfiles
  | [_], hfiles => simp at hfiles
  | _ :: _ :: _ :: _, hfiles => simp at hfiles

theorem caseFiles_sizeName :
    (DetectDuplicates refLib (tableSource caseFiles) 1 StrategySizeAndName).map
        (List.map (fun c => c.Candidates.map (fun x => (x.File.ID, x.Confidence)))) =
      .ok [[(1, 2 / 15), (2, 2 / 15)]] := by
  decide!

theorem eq_singleton_of_map {α β : Type} {f : α → β} {l : List α} {a : β}
    (h : l.map f = [a]) : ∃ x, l = [x] ∧ f x = a := by
  cases l with
  | nil => simp at h
  | cons x t =>
    cases t with
    | nil => exact ⟨x, rfl, by simpa using h⟩
    | cons y t => simp at h

theorem eq_pair_of_map {α β : Type} {f : α → β} {l : List α} {a b : β}
    (h : l.map f = [a, b]) : ∃ x y, l = [x, y] ∧ f x = a ∧ f y = b := by
  cases l with
  | nil => simp at h
  | cons x t =>
    simp only [List.map_cons, List.cons.injEq] at h
    obtain ⟨y, hy, hfy⟩ := eq_singleton_of_map h.2
    exact ⟨x, y, by rw [hy], h.1, hfy⟩

theorem pair_confidence_is_band_of_raw_similarity_witness :
    ∃ r c x y, DetectDuplicates refLib (tableSource caseFiles) 1 StrategySizeAndName = .ok r ∧
      c ∈ r ∧ c.Candidates = [x, y] ∧ x.Confidence = 2 / 15 ∧
      x.Confidence = confidenceBand (calculateStringSimilarity (extractFilename x.File.PathTail)
        (extractFilename y.File.PathTail)) ∧
      y.Confidence = x.Confidence := by
  obtain ⟨r, hr, hv⟩ := exists_ok_of_map caseFiles_sizeName
  obtain ⟨c, hrc, hcv⟩ := eq_singleton_of_map hv
  obtain ⟨x, y, hxy, hx, _⟩ := eq_pair_of_map hcv
  have hc : c ∈ r := by rw [hrc]; exact List.mem_cons_self _ _
  have h := pair_confidence_is_band_of_raw_similarity refLib (tableSource caseFiles) 1 r hr
    c hc x y hxy
  exact ⟨r, c, x, y, hr, hc, hxy, (Prod.mk.inj hx).2, h.1, h.2.1⟩

/-! ### Map iteration order and determinism -/

theorem NameGroups.keys_set (groups : NameGroups) (key : GoString)
    (value : List DuplicateCandidate) :
    (groups.set key value).map Prod.fst =
      if key ∈ groups.map Prod.fst then groups.map Prod.fst else groups.map Prod.fst ++ [key] := by
  unfold NameGroups.set
  by_cases h : key ∈ groups.map Prod.fst
  · have hany : groups.any (fun e => decide (e.1 = key)) = true := by
      rw [List.any_eq_true]
      rw [List.mem_map] at h
      obtain ⟨e, he, hk⟩ := h
      exact ⟨e, he, by simpa using hk⟩
    rw [if_pos hany, if_pos h, List.map_map]
    apply List.map_congr_left
    intro e _
    by_cases hk : e.1 = key <;> simp [hk]
  · have hany : ¬ groups.any (fun e => decide (e.1 = key)) = true := by
      rw [List.any_eq_true]
      rintro ⟨e, he, hk⟩
      apply h
      rw [List.mem_map]
      exact ⟨e, he, by simpa using hk⟩
    rw [if_neg hany, if_neg h]
    simp

theorem NameGroups.keys_set_nodup (groups : NameGroups) (key : GoString)
    (value : List DuplicateCandidate) (h : (groups.map Prod.fst).Nodup) :
    ((groups.set key value).map Prod.fst).Nodup := by
  rw [NameGroups.keys_set]
  split_ifs with hk
  · exact h
  · rw [List.nodup_append]
    refine ⟨h, List.nodup_singleton _, ?_⟩
    intro a ha hb
    simp only [List.mem_singleton] at hb
    exact hk (hb ▸ ha)

theorem groupStep_keys_nodup (L : Lib) (groups : NameGroups) (c : DuplicateCandidate)
    (h : (groups.map Prod.fst).Nodup) : ((groupStep L groups c).map Prod.fst).Nodup := by
  rw [groupStep_eq]
  exact NameGroups.keys_set_nodup _ _ _ h

theorem foldl_groupStep_keys_nodup (L : Lib) :
    ∀ (candidates : List DuplicateCandidate) (groups : NameGroups),
      (groups.map Prod.fst).Nodup →
      ((candidates.foldl (groupStep L) groups).map Prod.fst).Nodup := by
  intro candidates
  induction candidates with
  | nil => intro groups h; simpa using h
  | cons c rest ih =>
    intro groups h
    rw [List.foldl_cons]
    exact ih _ (groupStep_keys_nodup L groups c h)

theorem findSimilarGroup_cases (L : Lib) (hL : L.MapOrderOK) (name : GoString)
    (groups : NameGroups) (hnd : (groups.map Prod.fst).Nodup) :
    (∃ k ∈ groups.map Prod.fst, calculateStringSimilarity name k ≥ 8 / 10 ∧
        findSimilarGroup L name groups = k) ∨
      ((∀ k ∈ groups.map Prod.fst, ¬ calculateStringSimilarity name k ≥ 8 / 10) ∧
        findSimilarGroup L name groups = []) := by
  unfold findSimilarGroup
  cases hf : (groups.range L).find?
      (fun e => decide (calculateStringSimilarity name e.1 ≥ 8 / 10)) with
  | some e =>
    left
    have hp := List.find?_some hf
    simp only [decide_eq_true_eq] at hp
    have hmem := List.mem_of_find?_eq_some hf
    unfold NameGroups.range at hmem
    rw [List.mem_filterMap] at hmem
    obtain ⟨k, _, hk⟩ := hmem
    cases hg : groups.find? (fun e => decide (e.1 = k)) with
    | none => rw [hg] at hk; simp at hk
    | some e0 =>
      rw [hg] at hk
      simp only [Option.map_some', Option.some.injEq] at hk
      have h1 := List.find?_some hg
      simp only [decide_eq_true_eq] at h1
      refine ⟨e.1, ?_, hp, rfl⟩
      rw [List.mem_map]
      exact ⟨e0, List.mem_of_find?_eq_some hg, by rw [← hk]; exact h1⟩
  | none =>
    right
    refine ⟨?_, rfl⟩
    intro k hk hsim
    have hk2 : k ∈ L.mapOrder (groups.map Prod.fst) := (hL _ hnd).mem_iff.mpr hk
    rw [List.mem_map] at hk
    obtain ⟨e0, he0, hk0⟩ := hk
    cases hg : groups.find? (fun e => decide (e.1 = k)) with
    | none =>
      have := List.find?_eq_none.mp hg e0 he0
      simp only [decide_eq_true_eq] at this
      exact this hk0
    | some e1 =>
      have hin : (k, e1.2) ∈ groups.range L := by
        unfold NameGroups.range
        rw [List.mem_filterMap]
        exact ⟨k, hk2, by rw [hg]; rfl⟩
      have := List.find?_eq_none.mp hf (k, e1.2) hin
      simp only [decide_eq_true_eq] at this
      exact this hsim

theorem findSimilarGroup_eq_of_unique (L L2 : Lib) (hL : L.MapOrderOK) (hL2 : L2.MapOrderOK)
    (name : GoString) (groups : NameGroups) (hnd : (groups.map Prod.fst).Nodup)
    (huniq : ∀ k1 ∈ groups.map Prod.fst, ∀ k2 ∈ groups.map Prod.fst,
      calculateStringSimilarity name k1 ≥ 8 / 10 →
      calculateStringSimilarity name k2 ≥ 8 / 10 → k1 = k2) :
    findSimilarGroup L2 name groups = findSimilarGroup L name groups := by
  rcases findSimilarGroup_cases L hL name groups hnd with ⟨k1, hk1, hs1, e1⟩ | ⟨hn1, e1⟩ <;>
    rcases findSimilarGroup_cases L2 hL2 name groups hnd with ⟨k2, hk2, hs2, e2⟩ | ⟨hn2, e2⟩
  · rw [e1, e2]
    exact huniq k2 hk2 k1 hk1 hs2 hs1
  · exact absurd hs1 (hn2 k1 hk1)
  · exact absurd hs2 (hn1 k2 hk2)
  · rw [e1, e2]

theorem groupStep_withMapOrder (L : Lib) (order : List GoString → List GoString)
    (hL : L.MapOrderOK) (hL2 : (L.withMapOrder order).MapOrderOK)
    (groups : NameGroups) (c : DuplicateCandidate) (hnd : (groups.map Prod.fst).Nodup)
    (huniq : ∀ k1 ∈ groups.map Prod.fst, ∀ k2 ∈ groups.map Prod.fst,
      calculateStringSimilarity (normalizedName L c) k1 ≥ 8 / 10 →
      calculateStringSimilarity (normalizedName L c) k2 ≥ 8 / 10 → k1 = k2) :
    groupStep (L.withMapOrder order) groups c = groupStep L groups c := by
  rw [groupStep_eq, groupStep_eq]
  have hn : normalizedName (L.withMapOrder order) c = normalizedName L c := rfl
  rw [hn, findSimilarGroup_eq_of_unique L (L.withMapOrder order) hL hL2 _ groups hnd huniq]

theorem foldl_groupStep_withMapOrder (L : Lib) (order : List GoString → List GoString)
    (hL : L.MapOrderOK) (hL2 : (L.withMapOrder order).MapOrderOK) :
    ∀ (candidates : List DuplicateCandidate) (groups : NameGroups),
      (groups.map Prod.fst).Nodup → Unambiguous L candidates groups →
      candidates.foldl (groupStep (L.withMapOrder order)) groups =
        candidates.foldl (groupStep L) groups := by
  intro candidates
  induction candidates with
  | nil => intro groups _ _; rfl
  | cons c rest ih =>
    intro groups hnd hun
    obtain ⟨huniq, hrest⟩ := hun
    rw [List.foldl_cons, List.foldl_cons, groupStep_withMapOrder L order hL hL2 groups c hnd huniq]
    exact ih _ (groupStep_keys_nodup L groups c hnd) hrest

theorem groupByNameSimilarity_withMapOrder (L : Lib) (order : List GoString → List GoString)
    (hL : L.MapOrderOK) (hL2 : (L.withMapOrder order).MapOrderOK)
    (candidates : List DuplicateCandidate) (hun : Unambiguous L candidates []) :
    groupByNameSimilarity (L.withMapOrder order) candidates = groupByNameSimilarity L candidates := by
  rw [groupByNameSimilarity_eq_foldl, groupByNameSimilarity_eq_foldl]
  exact foldl_groupStep_withMapOrder L order hL hL2 candidates [] List.nodup_nil hun

theorem refineSizeCluster_withMapOrder (L : Lib) (order : List GoString → List GoString)
    (hL : L.MapOrderOK) (hL2 : (L.withMapOrder order).MapOrderOK)
    (sc : DuplicateCluster) (hun : Unambiguous L sc.Candidates []) :
    (refineSizeCluster (L.withMapOrder order) sc).Perm (refineSizeCluster L sc) := by
  unfold refineSizeCluster
  rw [groupByNameSimilarity_withMapOrder L order hL hL2 sc.Candidates hun]
  split_ifs with hlen
  · exact List.Perm.refl _
  · have hnd : ((groupByNameSimilarity L sc.Candidates).map Prod.fst).Nodup := by
      rw [groupByNameSimilarity_eq_foldl]
      exact foldl_groupStep_keys_nodup L sc.Candidates [] List.nodup_nil
    have hrange : (NameGroups.range (L.withMapOrder order) (groupByNameSimilarity L sc.Candidates)).Perm
        (NameGroups.range L (groupByNameSimilarity L sc.Candidates)) := by
      unfold NameGroups.range
      exact List.Perm.filterMap _ ((hL2 _ hnd).trans (hL _ hnd).symm)
    exact List.Perm.filterMap _ hrange

theorem reverseOrderLib_mapOrderOK : reverseOrderLib.MapOrderOK :=
  fun keys _ => List.reverse_perm keys

/-- C16 fails: with the names `xbcde`, `abcdz`, `abcde` (the third 0.8 similar to
both earlier keys), a run that visits the map keys in insertion order puts the
third file with the first and a run that visits them in reverse order puts it
with the second; the Size+Name strategy returns the cluster {1, 3} in one run
and {2, 3} in the other. -/
theorem grouping_depends_on_map_order :
    refLib.MapOrderOK ∧ reverseOrderLib.MapOrderOK ∧
      calculateStringSimilarity (ascii "abcde") (ascii "xbcde") = 8 / 10 ∧
      calculateStringSimilarity (ascii "abcde") (ascii "abcdz") = 8 / 10 ∧
      groupIDs (groupByNameSimilarity refLib (ambiguousFiles.map bareCandidate)) =
        [(ascii "xbcde", [1, 3]), (ascii "abcdz", [2])] ∧
      groupIDs (groupByNameSimilarity reverseOrderLib (ambiguousFiles.map bareCandidate)) =
        [(ascii "xbcde", [1]), (ascii "abcdz", [2, 3])] ∧
      clusterFiles (DetectDuplicates refLib (tableSource ambiguousFiles) 1 StrategySizeAndName) =
        .ok [(2, [1, 3])] ∧
      clusterFiles (DetectDuplicates reverseOrderLib (tableSource ambiguousFiles) 1
        StrategySizeAndName) = .ok [(2, [2, 3])] ∧
      ¬ (∀ (L : Lib) (order : List GoString → List GoString), L.MapOrderOK →
          (L.withMapOrder order).MapOrderOK → ∀ candidates,
            groupByNameSimilarity (L.withMapOrder order) candidates =
              groupByNameSimilarity L candidates) := by
  have h1 : groupIDs (groupByNameSimilarity refLib (ambiguousFiles.map bareCandidate)) =
      [(ascii "xbcde", [1, 3]), (ascii "abcdz", [2])] := by decide!
  have h2 : groupIDs (groupByNameSimilarity reverseOrderLib (ambiguousFiles.map bareCandidate)) =
      [(ascii "xbcde", [1]), (ascii "abcdz", [2, 3])] := by decide!
  refine ⟨refLib_mapOrderOK, reverseOrderLib_mapOrderOK, by decide!, by decide!, h1, h2,
    by decide!, by decide!, ?_⟩
  intro hall
  have h := hall refLib List.reverse refLib_mapOrderOK reverseOrderLib_mapOrderOK
    (ambiguousFiles.map bareCandidate)
  have h3 : groupIDs (groupByNameSimilarity reverseOrderLib (ambiguousFiles.map bareCandidate)) =
      groupIDs (groupByNameSimilarity refLib (ambiguousFiles.map bareCandidate)) :=
    congrArg groupIDs h
  rw [h1, h2] at h3
  revert h3
  decide

/-- C16, amended: name grouping is deterministic when no new name is at least
0.8 similar to more than one existing group key: for every such candidate
sequence, two runs that visit the map keys in different orders yield the same
sub-groups (same keys, same members), and two runs of the Size+Name strategy on
the same data then return the same clusters, up to the order of the list. When
a name is similar to several keys, the sub-group it joins depends on the order
in which Go visits the map. -/
theorem grouping_deterministic_when_unambiguous (L : Lib)
    (order : List GoString → List GoString)
    (hL : L.MapOrderOK) (hL2 : (L.withMapOrder order).MapOrderOK) :
    (∀ candidates, Unambiguous L candidates [] →
        groupByNameSimilarity (L.withMapOrder order) candidates =
          groupByNameSimilarity L candidates) ∧
      (∀ db userID sizeClusters r1 r2, detectBySize L db userID = .ok sizeClusters →
        (∀ sc ∈ sizeClusters, Unambiguous L sc.Candidates []) →
        DetectDuplicates L db userID StrategySizeAndName = .ok r1 →
        DetectDuplicates (L.withMapOrder order) db userID StrategySizeAndName = .ok r2 →
        r2.Perm r1) := by
  refine ⟨groupByNameSimilarity_withMapOrder L order hL hL2, ?_⟩
  intro db userID sizeClusters r1 r2 hsize hun h1 h2
  have hsize2 : detectBySize (L.withMapOrder order) db userID = .ok sizeClusters := hsize
  have e1 : detectBySizeAndName L db userID = .ok r1 := h1
  have e2 : detectBySizeAndName (L.withMapOrder order) db userID = .ok r2 := h2
  unfold detectBySizeAndName at e1 e2
  rw [hsize] at e1
  rw [hsize2] at e2
  simp only [Except.ok.injEq] at e1 e2
  subst e1
  subst e2
  exact List.Perm.flatMap_left _
    (fun sc hsc => refineSizeCluster_withMapOrder L order hL hL2 sc (hun sc hsc))

theorem detectBySize_fourFiles :
    detectBySize refLib (tableSource fourFiles) 1 =
      .ok [sizeCluster refLib { Size := 100, Count := 4, TotalSize := 400 }
        (filesBySizeOf fourFiles 1 100)] := by
  have h := (detectBySize_uniform refLib fourFiles 1 100 4 (by norm_num) (by norm_num)
    (by decide) (by decide)).1
  simpa using h

theorem fourFiles_unambiguous :
    ∀ sc ∈ [sizeCluster refLib { Size := 100, Count := 4, TotalSize := 400 }
        (filesBySizeOf fourFiles 1 100)], Unambiguous refLib sc.Candidates [] := by
  decide!

theorem grouping_deterministic_when_unambiguous_witness :
    refLib.MapOrderOK ∧ (refLib.withMapOrder List.reverse).MapOrderOK ∧
      Unambiguous refLib (fourFiles.map bareCandidate) [] ∧
      groupByNameSimilarity (refLib.withMapOrder List.reverse) (fourFiles.map bareCandidate) =
        groupByNameSimilarity refLib (fourFiles.map bareCandidate) ∧
      groupIDs (groupByNameSimilarity refLib (fourFiles.map bareCandidate)) =
        [(ascii "vacation photo", [1, 2]), (ascii "x", [3]), (ascii "y", [4])] ∧
      ∃ r1 r2, DetectDuplicates refLib (tableSource fourFiles) 1 StrategySizeAndName = .ok r1 ∧
        DetectDuplicates (refLib.withMapOrder List.reverse) (tableSource fourFiles) 1
          StrategySizeAndName = .ok r2 ∧ r2.Perm r1 := by
  have hthm := grouping_deterministic_when_unambiguous refLib List.reverse refLib_mapOrderOK
    reverseOrderLib_mapOrderOK
  have hun : Unambiguous refLib (fourFiles.map bareCandidate) [] := by decide!
  refine ⟨refLib_mapOrderOK, reverseOrderLib_mapOrderOK, hun, hthm.1 _ hun, by decide!, ?_⟩
  have e1 : clusterFiles (DetectDuplicates refLib (tableSource fourFiles) 1 StrategySizeAndName) =
      .ok [(2, [1, 2])] := by decide!
  have e2 : clusterFiles (DetectDuplicates (refLib.withMapOrder List.reverse)
      (tableSource fourFiles) 1 StrategySizeAndName) = .ok [(2, [1, 2])] := by decide!
  obtain ⟨r1, hr1, _⟩ := exists_ok_of_map e1
  obtain ⟨r2, hr2, _⟩ := exists_ok_of_map e2
  exact ⟨r1, r2, hr1, hr2,
    hthm.2 _ _ _ r1 r2 detectBySize_fourFiles fourFiles_unambiguous hr1 hr2⟩

/-! ### The size confidence as base times discount -/

/-- C26: `calculateSizeConfidence size count` is the product of the base
confidence of the size tier and the discount of the member count, as exact
rationals; the comparisons are strict, so a size on a threshold takes the lower
tier and a count of exactly 5 or exactly 10 takes the milder discount. -/
theorem size_confidence_is_base_times_discount (size count : Int) :
    calculateSizeConfidence size count = sizeBase size * countDiscount count ∧
      sizeBase 104857600 = 0.6 ∧ sizeBase 104857601 = 0.8 ∧
      sizeBase 10485760 = 0.4 ∧ sizeBase 10485761 = 0.6 ∧
      sizeBase 1048576 = 0.3 ∧ sizeBase 1048577 = 0.4 ∧
      countDiscount 5 = 1 ∧ countDiscount 6 = 0.7 ∧
      countDiscount 10 = 0.7 ∧ countDiscount 11 = 0.5 ∧
      calculateSizeConfidence 104857600 5 = 0.6 ∧
      calculateSizeConfidence 104857600 10 = 0.42 := by
  refine ⟨?_, ?_, ?_, ?_, ?_, ?_, ?_, ?_, ?_, ?_, ?_, ?_, ?_⟩
  · unfold calculateSizeConfidence sizeBase countDiscount
    split_ifs <;> first | omega | norm_num
  all_goals first
    | (unfold sizeBase; norm_num)
    | (unfold countDiscount; norm_num)
    | (unfold calculateSizeConfidence; norm_num)

/-! ### The recommendation -/

theorem recommendation_texts_distinct :
    recommendHashAccurate ≠ recommendAdvanced ∧ recommendHashAccurate ≠ recommendHashDefault ∧
      recommendAdvanced ≠ recommendHashDefault := by
  decide

theorem getStrategyRecommendation_eq (comparison : Comparison) :
    getStrategyRecommendation comparison =
      if (assertGinH (comparison.lookup (ascii "hash"))).2 &&
          (assertGinH (comparison.lookup (ascii "advanced"))).2 then
        if (assertInt64 ((assertGinH (comparison.lookup (ascii "hash"))).1.lookup
            (ascii "potential_savings"))).1 > 0 then recommendHashAccurate
        else if (assertInt64 ((assertGinH (comparison.lookup (ascii "advanced"))).1.lookup
            (ascii "potential_savings"))).1 >
            wrapInt64 ((assertInt64 ((assertGinH (comparison.lookup (ascii "hash"))).1.lookup
              (ascii "potential_savings"))).1 * 2) then recommendAdvanced
        else recommendHashDefault
      else recommendHashDefault := rfl

theorem assertInt64_of_savingsRead {fields : GinH} {s : Int} (h : SavingsRead fields s) :
    (assertInt64 (fields.lookup (ascii "potential_savings"))).1 = s := by
  rcases h with h | ⟨h, rfl⟩
  · rw [h]; rfl
  · cases hl : fields.lookup (ascii "potential_savings") with
    | none => rfl
    | some v =>
      cases v with
      | int64 v => exact absurd hl (h v)
      | int v => rfl
      | float64 v => rfl
      | string v => rfl

/-- C21 (counterexample): when the Hash strategy failed, the comparison holds
the error entry instead of a summary for "hash", and the recommendation is
nevertheless the Advanced strategy, not the default text; and with summaries of
-9223372036854775808 for Hash and -1 for Advanced the recommendation is the
default text although -1 exceeds twice the Hash savings, the `int64` product
`hashSavings*2` having wrapped to 0. -/
theorem recommendation_with_failed_hash :
    (assertGinH (hashFailedComparison.lookup (ascii "hash"))).1.lookup
        (ascii "potential_savings") = none ∧
      getStrategyRecommendation hashFailedComparison = recommendAdvanced ∧
      getStrategyRecommendation hashFailedComparison ≠ recommendHashDefault ∧
      getStrategyRecommendation (bothSummaries (-9223372036854775808) (-1)) =
        recommendHashDefault ∧
      (-1 : Int) > 2 * (-9223372036854775808) ∧
      wrapInt64 (-9223372036854775808 * 2) = 0 := by
  decide

/-- C21: when the comparison holds an object for both "hash" and "advanced",
with savings read as the `int64` field `potential_savings` or as 0 when an
object has no such field, the recommendation is the accurate-Hash text exactly
when the Hash savings are positive, the Advanced text exactly when they are not
and the Advanced savings exceed the `int64` product of the Hash savings and 2,
and the default text exactly in the remaining case; the product is twice the
Hash savings whenever these are at least -2^62 (and below 2^62); when either
entry is absent or not an object the recommendation is the default text. -/
theorem recommendation_rule (comparison : Comparison) :
    (∀ hashResult advancedResult hashSavings advancedSavings,
      comparison.lookup (ascii "hash") = some (.ginH hashResult) →
      comparison.lookup (ascii "advanced") = some (.ginH advancedResult) →
      SavingsRead hashResult hashSavings → SavingsRead advancedResult advancedSavings →
        (getStrategyRecommendation comparison = recommendHashAccurate ↔ hashSavings > 0) ∧
        (getStrategyRecommendation comparison = recommendAdvanced ↔
          ¬ hashSavings > 0 ∧ advancedSavings > wrapInt64 (2 * hashSavings)) ∧
        (getStrategyRecommendation comparison = recommendHashDefault ↔
          ¬ hashSavings > 0 ∧ ¬ advancedSavings > wrapInt64 (2 * hashSavings)) ∧
        (-2 ^ 62 ≤ hashSavings → hashSavings < 2 ^ 62 →
          wrapInt64 (2 * hashSavings) = 2 * hashSavings)) ∧
      (((∀ fields, comparison.lookup (ascii "hash") ≠ some (.ginH fields)) ∨
        (∀ fields, comparison.lookup (ascii "advanced") ≠ some (.ginH fields))) →
        getStrategyRecommendation comparison = recommendHashDefault) := by
  obtain ⟨h12, h13, h23⟩ := recommendation_texts_distinct
  constructor
  · intro hr ar hs as hh ha hsr har
    have hexact : -2 ^ 62 ≤ hs → hs < 2 ^ 62 → wrapInt64 (2 * hs) = 2 * hs := by
      intro h1 h2
      apply wrapInt64_of_range
      · norm_num at h1 ⊢; omega
      · norm_num at h2 ⊢; omega
    rw [getStrategyRecommendation_eq, hh, ha]
    simp only [assertGinH, Bool.and_self, if_true, assertInt64_of_savingsRead hsr,
      assertInt64_of_savingsRead har]
    have hmul : hs * 2 = 2 * hs := mul_comm _ _
    rw [hmul]
    by_cases h1 : hs > 0
    · rw [if_pos h1]
      exact ⟨⟨fun _ => h1, fun _ => rfl⟩, ⟨fun h => absurd h h12, fun h => absurd h1 h.1⟩,
        ⟨fun h => absurd h h13, fun h => absurd h1 h.1⟩, hexact⟩
    · rw [if_neg h1]
      by_cases h2 : as > wrapInt64 (2 * hs)
      · rw [if_pos h2]
        exact ⟨⟨fun h => absurd h.symm h12, fun h => absurd h h1⟩,
          ⟨fun _ => ⟨h1, h2⟩, fun _ => rfl⟩,
          ⟨fun h => absurd h h23, fun h => absurd h2 h.2⟩, hexact⟩
      · rw [if_neg h2]
        exact ⟨⟨fun h => absurd h.symm h13, fun h => absurd h h1⟩,
          ⟨fun h => absurd h.symm h23, fun h => absurd h.2 h2⟩,
          ⟨fun _ => ⟨h1, h2⟩, fun _ => rfl⟩, hexact⟩
  · intro h
    rw [getStrategyRecommendation_eq]
    have hfalse : ((assertGinH (comparison.lookup (ascii "hash"))).2 &&
        (assertGinH (comparison.lookup (ascii "advanced"))).2) = false := by
      rcases h with h | h
      · have : (assertGinH (comparison.lookup (ascii "hash"))).2 = false := by
          cases hl : comparison.lookup (ascii "hash") with
          | none => rfl
          | some v =>
            cases v with
            | ginH fields => exact absurd hl (h fields)
            | other v => rfl
        rw [this, Bool.false_and]
      · have : (assertGinH (comparison.lookup (ascii "advanced"))).2 = false := by
          cases hl : comparison.lookup (ascii "advanced") with
          | none => rfl
          | some v =>
            cases v with
            | ginH fields => exact absurd hl (h fields)
            | other v => rfl
        rw [this, Bool.and_false]
    rw [hfalse]
    rfl

theorem recommendation_rule_witness :
    (getStrategyRecommendation (bothSummaries 0 100) = recommendAdvanced ↔
      ¬ (0 : Int) > 0 ∧ (100 : Int) > wrapInt64 (2 * 0)) :=
  ((recommendation_rule (bothSummaries 0 100)).1
    [(ascii "potential_savings", .int64 0)] [(ascii "potential_savings", .int64 100)] 0 100
    (by decide) (by decide) (Or.inl (by decide)) (Or.inl (by decide))).2.1

/-! ### The bearer token -/

/-- C22: after "Bearer" and n + 1 spaces, `ExtractBearerToken` returns the
rest of the header with the n further spaces in front of the token; with three
spaces the token comes back with two leading spaces. A header of at most seven
bytes, or one that does not begin with "Bearer ", yields the empty string. -/
theorem extractBearerToken_keeps_extra_spaces :
    (∀ (n : Nat) (token : GoString),
      ExtractBearerToken (ascii "Bearer" ++ List.replicate (n + 1) 32 ++ token) =
        List.replicate n 32 ++ token) ∧
      ExtractBearerToken (ascii "Bearer   eyJhbGciOiJIUzI1NiIsInR5cCI6IkpXVCJ9") =
        ascii "  eyJhbGciOiJIUzI1NiIsInR5cCI6IkpXVCJ9" ∧
      ExtractBearerToken (ascii "Bearer   eyJhbGciOiJIUzI1NiIsInR5cCI6IkpXVCJ9") ≠
        ascii "eyJhbGciOiJIUzI1NiIsInR5cCI6IkpXVCJ9" ∧
      ExtractBearerToken (ascii "Bearer eyJhbGciOiJIUzI1NiIsInR5cCI6IkpXVCJ9") =
        ascii "eyJhbGciOiJIUzI1NiIsInR5cCI6IkpXVCJ9" ∧
      ExtractBearerToken (ascii "") = [] ∧
      ExtractBearerToken (ascii "Bearer") = [] ∧
      ExtractBearerToken (ascii "Bearer ") = [] ∧
      ExtractBearerToken (ascii "eyJhbGciOiJIUzI1NiIsInR5cCI6IkpXVCJ9") = [] ∧
      (∀ authHeader : GoString, authHeader.take 7 ≠ ascii "Bearer " →
        ExtractBearerToken authHeader = []) := by
  refine ⟨?_, by decide, by decide, by decide, by decide, by decide, by decide, by decide, ?_⟩
  · intro n token
    unfold ExtractBearerToken
    have hhead : ascii "Bearer" ++ List.replicate (n + 1) 32 ++ token =
        ascii "Bearer " ++ (List.replicate n 32 ++ token) := by
      rw [List.replicate_succ]
      rfl
    rw [hhead]
    have hlen : (ascii "Bearer ").length = 7 := rfl
    by_cases hrest : List.replicate n (32 : UInt8) ++ token = []
    · rw [hrest]
      simp [hlen]
    · have hpos : 0 < (List.replicate n (32 : UInt8) ++ token).length :=
        List.length_pos.mpr hrest
      have h1 : (ascii "Bearer " ++ (List.replicate n 32 ++ token)).length > 7 := by
        rw [List.length_append, hlen]; omega
      have h2 : (ascii "Bearer " ++ (List.replicate n 32 ++ token)).take 7 = ascii "Bearer " := by
        rw [← hlen, List.take_left]
      have h3 : (ascii "Bearer " ++ (List.replicate n 32 ++ token)).drop 7 =
          List.replicate n 32 ++ token := by
        rw [← hlen, List.drop_left]
      rw [if_pos ⟨h1, h2⟩, h3]
  · intro authHeader h
    unfold ExtractBearerToken
    rw [if_neg (fun hc => h hc.2)]

/-! ### The reconciler as greedy first-fit selection -/

theorem sharesFile_iff (a b : DuplicateCluster) : sharesFile a b = true ↔ SharesFile a b := by
  unfold sharesFile SharesFile
  simp only [List.any_eq_true, decide_eq_true_eq]

theorem selectClusters_eq_firstFit :
    ∀ (l : List DuplicateCluster) (used : List Nat) (kept : List DuplicateCluster),
      (∀ id, id ∈ used ↔ ∃ k ∈ kept, ∃ y ∈ k.Candidates, y.File.ID = id) →
      selectClusters l used = firstFit l kept := by
  intro l
  induction l with
  | nil => intro used kept _; rfl
  | cons d rest ih =>
    intro used kept hinv
    rw [selectClusters, firstFit]
    have hcond : (d.Candidates.any (fun candidate => decide (candidate.File.ID ∈ used))) =
        kept.any (fun k => sharesFile d k) := by
      rw [Bool.eq_iff_iff]
      simp only [List.any_eq_true, decide_eq_true_eq, sharesFile_iff]
      constructor
      · rintro ⟨x, hx, hu⟩
        obtain ⟨k, hk, y, hy, hxy⟩ := (hinv _).mp hu
        exact ⟨k, hk, x, hx, y, hy, hxy.symm⟩
      · rintro ⟨k, hk, x, hx, y, hy, hxy⟩
        exact ⟨x, hx, (hinv _).mpr ⟨k, hk, y, hy, hxy.symm⟩⟩
    rw [hcond]
    split_ifs with h
    · exact ih used kept hinv
    · rw [ih (used ++ d.Candidates.map (fun candidate => candidate.File.ID)) (kept ++ [d])]
      intro id
      rw [List.mem_append, hinv id, List.mem_map]
      constructor
      · rintro (⟨k, hk, y, hy, hid⟩ | ⟨y, hy, hid⟩)
        · exact ⟨k, List.mem_append_left _ hk, y, hy, hid⟩
        · exact ⟨d, List.mem_append_right _ (List.mem_singleton_self d), y, hy, hid⟩
      · rintro ⟨k, hk, y, hy, hid⟩
        rcases List.mem_append.mp hk with hk | hk
        · exact Or.inl ⟨k, hk, y, hy, hid⟩
        · rw [List.mem_singleton] at hk
          subst hk
          exact Or.inr ⟨y, hy, hid⟩

theorem selectClusters_dropped :
    ∀ (l : List DuplicateCluster) (used : List Nat) (c : DuplicateCluster),
      c ∈ l → c ∉ selectClusters l used →
      (∃ x ∈ c.Candidates, x.File.ID ∈ used) ∨
        ∃ l1 l2 k, l = l1 ++ c :: l2 ∧ k ∈ l1 ∧ k ∈ selectClusters l used ∧ SharesFile c k := by
  intro l
  induction l with
  | nil => intro used c hc; cases hc
  | cons d rest ih =>
    intro used c hc hnot
    rw [selectClusters] at hnot ⊢
    split_ifs at hnot ⊢ with h
    · rcases List.mem_cons.mp hc with rfl | hc
      · left
        simpa only [List.any_eq_true, decide_eq_true_eq] using h
      · rcases ih used c hc hnot with hl | ⟨l1, l2, k, hl, hk1, hk2, hs⟩
        · exact Or.inl hl
        · exact Or.inr ⟨d :: l1, l2, k, by rw [hl]; rfl, List.mem_cons_of_mem _ hk1, hk2, hs⟩
    · rw [List.mem_cons, not_or] at hnot
      obtain ⟨hne, hnot⟩ := hnot
      rcases List.mem_cons.mp hc with rfl | hc
      · exact absurd rfl hne
      · rcases ih _ c hc hnot with ⟨x, hx, hu⟩ | ⟨l1, l2, k, hl, hk1, hk2, hs⟩
        · rcases List.mem_append.mp hu with hu | hu
          · exact Or.inl ⟨x, hx, hu⟩
          · right
            obtain ⟨r1, r2, hr⟩ := List.append_of_mem hc
            obtain ⟨y, hy, hxy⟩ := List.mem_map.mp hu
            exact ⟨d :: r1, r2, d, by rw [hr]; rfl, List.mem_cons_self _ _,
              List.mem_cons_self _ _, x, hx, y, hy, hxy.symm⟩
        · exact Or.inr ⟨d :: l1, l2, k, by rw [hl]; rfl, List.mem_cons_of_mem _ hk1,
            List.mem_cons_of_mem _ hk2, hs⟩

theorem sortSlice_pair_of_less (L : Lib) (hL : L.SortOK)
    (less : DuplicateCluster → DuplicateCluster → Bool) (hless : StrictWeakOrder less)
    (a b : DuplicateCluster) (hab : a ≠ b) (hlt : less b a = true) :
    L.sortSlice less [a, b] = [b, a] := by
  obtain ⟨hperm, hsorted⟩ := hL less [a, b]
  have hpw := hsorted hless
  have hlen := hperm.length_eq
  have hnd : (L.sortSlice less [a, b]).Nodup :=
    hperm.nodup_iff.mpr (by simp [hab])
  match hl : L.sortSlice less [a, b], hlen with
  | [x, y], _ =>
    rw [hl] at hperm hpw hnd
    have hx : x ∈ [a, b] := hperm.subset (List.mem_cons_self _ _)
    have hy : y ∈ [a, b] := hperm.subset (List.mem_cons_of_mem _ (List.mem_cons_self _ _))
    have hxy : x ≠ y := by
      intro h
      rw [h] at hnd
      simp at hnd
    have hyx : less y x = false := by
      simpa using hpw
    simp only [List.mem_cons, List.mem_singleton, List.not_mem_nil, or_false] at hx hy
    rcases hx with rfl | rfl <;> rcases hy with rfl | rfl
    · exact absurd rfl hxy
    · rw [hlt] at hyx
      cases hyx
    · rfl
    · exact absurd rfl hxy

/-- C23, counterexample: `tripleNameCluster` (three candidates at the `float64`
0.7) and `unevenNameCluster` (one at 0.7, one at the `float64` next below) have
one Strategy and share file 3. The mean confidence of the first is the larger,
so in priority order by the mean it stands first and greedy first-fit keeps it
alone. `calculateAverageConfidence` returns 0.6999999999999998 for the first and
0.7 for the second, so under every sort that meets the contract of `sort.Slice`
the code walks the second first and keeps that one alone: its result is not
greedy first-fit over any arrangement in priority order by the mean. -/
theorem reconciler_walks_rounded_average :
    tripleNameCluster.Strategy = unevenNameCluster.Strategy ∧
    meanConfidence unevenNameCluster.Candidates < meanConfidence tripleNameCluster.Candidates ∧
    calculateAverageConfidence tripleNameCluster.Candidates = 6305039478318693 / 9007199254740992 ∧
    calculateAverageConfidence unevenNameCluster.Candidates = 6305039478318694 / 9007199254740992 ∧
    InMeanPriorityOrder [tripleNameCluster, unevenNameCluster] ∧
    ¬ InMeanPriorityOrder [unevenNameCluster, tripleNameCluster] ∧
    firstFit [tripleNameCluster, unevenNameCluster] [] = [tripleNameCluster] ∧
    (∀ L : Lib, L.SortOK →
      L.sortSlice priorityLess [tripleNameCluster, unevenNameCluster] =
        [unevenNameCluster, tripleNameCluster] ∧
      deduplicateClusters L [tripleNameCluster, unevenNameCluster] = [unevenNameCluster]) ∧
    ¬ (∀ (L : Lib), L.SortOK → ∀ cs : List DuplicateCluster,
        ∃ sorted : List DuplicateCluster, sorted.Perm cs ∧ InMeanPriorityOrder sorted ∧
          deduplicateClusters L cs = firstFit sorted []) := by
  have hmean : meanConfidence unevenNameCluster.Candidates <
      meanConfidence tripleNameCluster.Candidates := by decide!
  have hsort : ∀ L : Lib, L.SortOK →
      L.sortSlice priorityLess [tripleNameCluster, unevenNameCluster] =
        [unevenNameCluster, tripleNameCluster] := fun L hL =>
    sortSlice_pair_of_less L hL priorityLess priorityLess_strictWeakOrder _ _ (by decide!) (by decide!)
  have hded : ∀ L : Lib, L.SortOK →
      deduplicateClusters L [tripleNameCluster, unevenNameCluster] = [unevenNameCluster] := by
    intro L hL
    unfold deduplicateClusters
    rw [hsort L hL]
    decide!
  have hnot : ¬ InMeanPriorityOrder [unevenNameCluster, tripleNameCluster] := by
    unfold InMeanPriorityOrder
    intro h
    have h1 := (List.pairwise_cons.mp h).1 tripleNameCluster (List.mem_cons_self _ _)
    exact absurd (h1.2 rfl) (not_le.mpr hmean)
  have hfit : firstFit [tripleNameCluster, unevenNameCluster] [] = [tripleNameCluster] := by decide!
  refine ⟨rfl, hmean, by decide!, by decide!, ?_, hnot, hfit, fun L hL => ⟨hsort L hL, hded L hL⟩, ?_⟩
  · unfold InMeanPriorityOrder
    refine List.pairwise_cons.mpr ⟨?_, List.pairwise_singleton _ _⟩
    intro b hb
    rw [List.mem_singleton] at hb
    subst hb
    exact ⟨le_refl _, fun _ => le_of_lt hmean⟩
  · intro hall
    obtain ⟨sorted, hperm, hord, heq⟩ := hall refLib refLib_sortOK [tripleNameCluster, unevenNameCluster]
    rw [hded refLib refLib_sortOK] at heq
    have hlen := hperm.length_eq
    match sorted, hlen with
    | [x, y], _ =>
      have hx : x ∈ [tripleNameCluster, unevenNameCluster] := hperm.subset (List.mem_cons_self _ _)
      have hy : y ∈ [tripleNameCluster, unevenNameCluster] :=
        hperm.subset (List.mem_cons_of_mem _ (List.mem_cons_self _ _))
      simp only [List.mem_cons, List.mem_singleton, List.not_mem_nil, or_false] at hx hy
      rcases hx with rfl | rfl <;> rcases hy with rfl | rfl
      · rw [show firstFit [tripleNameCluster, tripleNameCluster] [] = [tripleNameCluster] by decide!] at heq
        exact absurd heq (by decide!)
      · rw [hfit] at heq
        exact absurd heq (by decide!)
      · exact hnot hord
      · have hnd : [unevenNameCluster, unevenNameCluster].Nodup :=
          hperm.nodup_iff.mpr (by decide!)
        simp at hnd

/-- C23: under the contract of `sort.Slice`, the slice `deduplicateClusters`
walks is a rearrangement of its input in priority order, Strategy ascending and,
within one Strategy, descending in the `float64` value that
`calculateAverageConfidence` computes (running sum in slice order, each step
rounded); the result equals greedy first-fit selection over that slice, is a
sub-list of it, and every input cluster missing from the result shares a file
ID with a kept cluster that stands before it in the slice. -/
theorem reconciler_is_greedy_first_fit (L : Lib) (hL : L.SortOK) (cs : List DuplicateCluster) :
    (L.sortSlice priorityLess cs).Perm cs ∧
      (L.sortSlice priorityLess cs).Pairwise (fun a b => a.Strategy ≤ b.Strategy ∧
        (a.Strategy = b.Strategy →
          calculateAverageConfidence b.Candidates ≤ calculateAverageConfidence a.Candidates)) ∧
      deduplicateClusters L cs = firstFit (L.sortSlice priorityLess cs) [] ∧
      (deduplicateClusters L cs).Sublist (L.sortSlice priorityLess cs) ∧
      ∀ c ∈ cs, c ∉ deduplicateClusters L cs →
        ∃ l1 l2 k, L.sortSlice priorityLess cs = l1 ++ c :: l2 ∧ k ∈ l1 ∧
          k ∈ deduplicateClusters L cs ∧ SharesFile c k := by
  obtain ⟨hperm, hsorted⟩ := hL priorityLess cs
  refine ⟨hperm, ?_, ?_, selectClusters_sublist _ _, ?_⟩
  · refine (hsorted priorityLess_strictWeakOrder).imp ?_
    intro a b hba
    have hnot : ¬ (b.Strategy < a.Strategy ∨ (b.Strategy = a.Strategy ∧
        calculateAverageConfidence a.Candidates < calculateAverageConfidence b.Candidates)) := by
      rw [← priorityLess_iff, hba]
      exact Bool.false_ne_true
    rw [not_or] at hnot
    refine ⟨Nat.le_of_not_lt hnot.1, fun heq => ?_⟩
    by_contra hlt
    exact hnot.2 ⟨heq.symm, lt_of_not_le hlt⟩
  · unfold deduplicateClusters
    apply selectClusters_eq_firstFit
    intro id
    simp
  · intro c hc hnot
    unfold deduplicateClusters at hnot ⊢
    rcases selectClusters_dropped _ [] c (hperm.symm.subset hc) hnot with
      ⟨x, _, hx⟩ | h
    · cases hx
    · exact h

theorem reconciler_is_greedy_first_fit_witness :
    (deduplicateClusters refLib threeClusters).map (fun c => c.ID) = [ascii "o", ascii "h"] ∧
      ((deduplicateClusters refLib threeClusters).Sublist
        (refLib.sortSlice priorityLess threeClusters)) :=
  ⟨by decide!, (reconciler_is_greedy_first_fit refLib refLib_sortOK threeClusters).2.2.2.1⟩

/-! ### The name confidence as the band of the mean pair similarity -/

theorem pairSimilarities_eq_map (l : List DuplicateCandidate) :
    pairSimilarities l = (unorderedPairs l).map nameSimilarity := by
  induction l with
  | nil => rfl
  | cons c rest ih =>
    rw [pairSimilarities, unorderedPairs, List.map_append, List.map_map, ih]
    rfl

theorem unorderedPairs_length {α : Type} (l : List α) :
    2 * (unorderedPairs l).length = l.length * (l.length - 1) := by
  induction l with
  | nil => rfl
  | cons x rest ih =>
    rw [unorderedPairs, List.length_append, List.length_map, Nat.mul_add, ih, List.length_cons,
      Nat.add_sub_cancel]
    cases rest.length with
    | zero => rfl
    | succ n =>
      rw [Nat.add_sub_cancel]
      ring

theorem unorderedPairs_sublist {α : Type} (l : List α) :
    ∀ p ∈ unorderedPairs l, List.Sublist [p.1, p.2] l := by
  induction l with
  | nil => intro p hp; cases hp
  | cons x rest ih =>
    intro p hp
    rw [unorderedPairs, List.mem_append] at hp
    rcases hp with hp | hp
    · obtain ⟨y, hy, rfl⟩ := List.mem_map.mp hp
      exact List.Sublist.cons₂ x (List.singleton_sublist.mpr hy)
    · exact List.Sublist.cons x (ih p hp)

theorem pairSimilarities_congr :
    ∀ (l1 l2 : List DuplicateCandidate),
      l1.map (fun x => x.File) = l2.map (fun x => x.File) →
      pairSimilarities l1 = pairSimilarities l2 := by
  intro l1
  induction l1 with
  | nil =>
    intro l2 h
    cases l2 with
    | nil => rfl
    | cons d l2 => cases h
  | cons c rest ih =>
    intro l2 h
    cases l2 with
    | nil => cases h
    | cons d rest2 =>
      rw [List.map_cons, List.map_cons, List.cons.injEq] at h
      obtain ⟨hcd, hrest⟩ := h
      rw [pairSimilarities, pairSimilarities, ih rest2 hrest]
      congr 1
      have hmap : ∀ (g : File → ℚ), rest.map (fun x => g x.File) = rest2.map (fun x => g x.File) := by
        intro g
        have := congrArg (List.map g) hrest
        rw [List.map_map, List.map_map] at this
        exact this
      rw [show c.File = d.File from hcd]
      exact hmap (fun f => calculateStringSimilarity (extractFilename d.File.PathTail)
        (extractFilename f.PathTail))

theorem calculateNameSimilarityConfidence_congr (l1 l2 : List DuplicateCandidate)
    (h : l1.map (fun x => x.File) = l2.map (fun x => x.File)) :
    calculateNameSimilarityConfidence l1 = calculateNameSimilarityConfidence l2 := by
  have hlen : l1.length = l2.length := by
    have := congrArg List.length h
    rwa [List.length_map, List.length_map] at this
  rw [calculateNameSimilarityConfidence_eq, calculateNameSimilarityConfidence_eq,
    pairSimilarities_congr l1 l2 h, hlen]

theorem pairSimilarities64_eq_map (l : List DuplicateCandidate) :
    pairSimilarities64 l = (unorderedPairs l).map nameSimilarity64 := by
  induction l with
  | nil => rfl
  | cons c rest ih =>
    rw [pairSimilarities64, unorderedPairs, List.map_append, List.map_map, ih]
    rfl

theorem pairSimilarities64_congr :
    ∀ (l1 l2 : List DuplicateCandidate),
      l1.map (fun x => x.File) = l2.map (fun x => x.File) →
      pairSimilarities64 l1 = pairSimilarities64 l2 := by
  intro l1
  induction l1 with
  | nil =>
    intro l2 h
    cases l2 with
    | nil => rfl
    | cons d l2 => cases h
  | cons c rest ih =>
    intro l2 h
    cases l2 with
    | nil => cases h
    | cons d rest2 =>
      rw [List.map_cons, List.map_cons, List.cons.injEq] at h
      obtain ⟨hcd, hrest⟩ := h
      rw [pairSimilarities64, pairSimilarities64, ih rest2 hrest]
      congr 1
      have hmap : ∀ (g : File → ℚ), rest.map (fun x => g x.File) = rest2.map (fun x => g x.File) := by
        intro g
        have := congrArg (List.map g) hrest
        rw [List.map_map, List.map_map] at this
        exact this
      rw [show c.File = d.File from hcd]
      exact hmap (fun f => calculateStringSimilarity64 (extractFilename d.File.PathTail)
        (extractFilename f.PathTail))

theorem calculateNameSimilarityConfidence64_eq (candidates : List DuplicateCandidate) :
    calculateNameSimilarityConfidence64 candidates =
      if candidates.length < 2 then 0
      else if (pairSimilarities64 candidates).length = 0 then 0
      else confidenceBand64 (roundFloat64
        ((pairSimilarities64 candidates).foldl
          (fun total similarity => roundFloat64 (total + similarity)) 0 /
            roundFloat64 ((pairSimilarities64 candidates).length : ℚ))) := by
  rfl

theorem calculateNameSimilarityConfidence64_congr (l1 l2 : List DuplicateCandidate)
    (h : l1.map (fun x => x.File) = l2.map (fun x => x.File)) :
    calculateNameSimilarityConfidence64 l1 = calculateNameSimilarityConfidence64 l2 := by
  have hlen : l1.length = l2.length := by
    have := congrArg List.length h
    rwa [List.length_map, List.length_map] at this
  rw [calculateNameSimilarityConfidence64_eq, calculateNameSimilarityConfidence64_eq,
    pairSimilarities64_congr l1 l2 h, hlen]

theorem mem_detectBySizeAndName64 {L : Lib} {db : MetadataSource} {userID : UUID}
    {r : List DuplicateCluster} {c : DuplicateCluster}
    (h : detectBySizeAndName64 L db userID = .ok r) (hc : c ∈ r) :
    ∃ sizeClusters sc, detectBySize L db userID = .ok sizeClusters ∧ sc ∈ sizeClusters ∧
      c ∈ refineSizeCluster64 L sc := by
  unfold detectBySizeAndName64 at h
  cases hq : detectBySize L db userID with
  | error e => rw [hq] at h; cases h
  | ok sizeClusters =>
    rw [hq] at h
    simp only [Except.ok.injEq] at h
    subst h
    rw [List.mem_flatMap] at hc
    obtain ⟨sc, hsc, hc⟩ := hc
    exact ⟨sizeClusters, sc, rfl, hsc, hc⟩

theorem mem_refineSizeCluster64 {L : Lib} {cluster c : DuplicateCluster}
    (hc : c ∈ refineSizeCluster64 L cluster) :
    ∃ entry ∈ (groupByNameSimilarity64 L cluster.Candidates).range L,
      2 ≤ entry.2.length ∧ c.Strategy = StrategySizeAndName ∧
      c.Candidates.map (fun x => x.File) = entry.2.map (fun x => x.File) ∧
      ∀ x ∈ c.Candidates, x.Confidence = calculateNameSimilarityConfidence64 entry.2 := by
  unfold refineSizeCluster64 at hc
  split_ifs at hc with hlen
  · simp at hc
  · rw [List.mem_filterMap] at hc
    obtain ⟨entry, hentry, hsome⟩ := hc
    simp only [] at hsome
    split_ifs at hsome with hg
    simp only [Option.some.injEq] at hsome
    subst hsome
    refine ⟨entry, hentry, by omega, rfl, ?_, ?_⟩
    · simp only [List.map_map]
      rfl
    · intro x hx
      simp only [List.mem_map] at hx
      obtain ⟨y, _, rfl⟩ := hx
      rfl

theorem calculateStringSimilarity64_idem (s1 s2 : GoString) :
    roundFloat64 (calculateStringSimilarity64 s1 s2) = calculateStringSimilarity64 s1 s2 := by
  unfold calculateStringSimilarity64
  simp only []
  split_ifs <;> first | exact roundFloat64_one | exact roundFloat64_idem _

theorem confidenceBand64_low (avg : ℚ) (h : ¬ avg > roundFloat64 (6 / 10)) :
    confidenceBand64 avg = roundFloat64 (avg * roundFloat64 (6 / 10)) ∧
      confidenceBand64 avg < 6 / 10 := by
  have h68 : roundFloat64 (6 / 10) < roundFloat64 (8 / 10) := by decide!
  have h89 : roundFloat64 (8 / 10) < roundFloat64 (95 / 100) := by decide!
  have h0 : (0 : ℚ) ≤ roundFloat64 (6 / 10) := roundFloat64_nonneg (by norm_num)
  have hsq : roundFloat64 (roundFloat64 (6 / 10) * roundFloat64 (6 / 10)) < 6 / 10 := by decide!
  have hle : avg ≤ roundFloat64 (6 / 10) := not_lt.mp h
  have h1 : ¬ avg > roundFloat64 (95 / 100) := fun hc => h (by linarith)
  have h2 : ¬ avg > roundFloat64 (8 / 10) := fun hc => h (by linarith)
  have hval : confidenceBand64 avg = roundFloat64 (avg * roundFloat64 (6 / 10)) := by
    unfold confidenceBand64
    rw [if_neg h1, if_neg h2, if_neg h]
  refine ⟨hval, ?_⟩
  rw [hval]
  exact lt_of_le_of_lt (roundFloat64_mono (mul_le_mul_of_nonneg_right hle h0)) hsq

/-- C28, counterexample: for the three names `abcde`, `abcdf`, `abcdg` every
pair has similarity 0.8, so the mean over the three pairs is 0.8, which is not
above 0.8, and its band is 0.5. The code adds the three `float64` values 0.8 and
divides by 3 in `float64` arithmetic: its mean is 0.8000000000000002, above the
`float64` 0.8, and it returns 0.7, which the Size+Name strategy assigns to the
three candidates. -/
theorem similar_names_confidence_in_higher_band :
    (unorderedPairs (similarNameFiles.map bareCandidate)).map nameSimilarity =
      [8 / 10, 8 / 10, 8 / 10] ∧
    meanPairSimilarity (similarNameFiles.map bareCandidate) = 8 / 10 ∧
    confidenceBand (meanPairSimilarity (similarNameFiles.map bareCandidate)) = 5 / 10 ∧
    (unorderedPairs (similarNameFiles.map bareCandidate)).map nameSimilarity64 =
      [roundFloat64 (8 / 10), roundFloat64 (8 / 10), roundFloat64 (8 / 10)] ∧
    meanPairSimilarity64 (similarNameFiles.map bareCandidate) =
      7205759403792795 / 9007199254740992 ∧
    roundFloat64 (8 / 10) = 7205759403792794 / 9007199254740992 ∧
    calculateNameSimilarityConfidence64 (similarNameFiles.map bareCandidate) =
      roundFloat64 (7 / 10) ∧
    roundFloat64 (7 / 10) ≠ roundFloat64 (5 / 10) ∧
    clusterConfidences (detectBySizeAndName64 refLib (tableSource similarNameFiles) 1) =
      .ok [(3, [roundFloat64 (7 / 10), roundFloat64 (7 / 10), roundFloat64 (7 / 10)])] ∧
    ¬ (∀ group : List DuplicateCandidate, 2 ≤ group.length →
        calculateNameSimilarityConfidence64 group =
          roundFloat64 (confidenceBand (meanPairSimilarity group))) := by
  have hcode : calculateNameSimilarityConfidence64 (similarNameFiles.map bareCandidate) =
      roundFloat64 (7 / 10) := by decide!
  have hband : confidenceBand (meanPairSimilarity (similarNameFiles.map bareCandidate)) = 5 / 10 := by
    decide!
  have hne : roundFloat64 (7 / 10) ≠ roundFloat64 (5 / 10) := by decide!
  refine ⟨by decide!, by decide!, hband, by decide!, by decide!, by decide!, hcode, hne,
    by decide!, ?_⟩
  intro hall
  have h := hall (similarNameFiles.map bareCandidate) (by decide)
  rw [hcode, hband] at h
  exact hne h

/-- C28: in `float64` arithmetic, for a group of at least two members
`calculateNameSimilarityConfidence` is the band of the mean of the similarities
of the two names over the n(n-1)/2 unordered pairs of members, where the mean is
the running sum in pair order, each addition rounded, divided by the number of
pairs and rounded; the band is 0.9 above 0.95, 0.7 above 0.8, 0.5 above 0.6 and
otherwise the rounded product of the mean and 0.6, which is below 0.6; for two
members the mean is the similarity of the two names itself; for fewer than two
members the result is 0; every candidate of a cluster returned by the Size+Name
strategy carries this value for the cluster's candidates. -/
theorem name_confidence_is_band_of_mean :
    (∀ group : List DuplicateCandidate, 2 ≤ group.length →
      calculateNameSimilarityConfidence64 group =
        confidenceBand64 (meanPairSimilarity64 group)) ∧
    (∀ group : List DuplicateCandidate, group.length < 2 →
      calculateNameSimilarityConfidence64 group = 0) ∧
    (∀ group : List DuplicateCandidate,
      2 * (unorderedPairs group).length = group.length * (group.length - 1) ∧
        ∀ p ∈ unorderedPairs group, List.Sublist [p.1, p.2] group) ∧
    (∀ avg : ℚ, confidenceBand64 avg =
      if avg > roundFloat64 0.95 then roundFloat64 0.9
      else if avg > roundFloat64 0.8 then roundFloat64 0.7
      else if avg > roundFloat64 0.6 then roundFloat64 0.5
      else roundFloat64 (avg * roundFloat64 0.6)) ∧
    (∀ avg : ℚ, ¬ avg > roundFloat64 0.6 →
      confidenceBand64 avg = roundFloat64 (avg * roundFloat64 0.6) ∧ confidenceBand64 avg < 0.6) ∧
    (∀ x y : DuplicateCandidate, meanPairSimilarity64 [x, y] = nameSimilarity64 (x, y)) ∧
    (∀ (L : Lib) (db : MetadataSource) (userID : UUID) (r : List DuplicateCluster),
      detectBySizeAndName64 L db userID = .ok r → ∀ c ∈ r, ∀ x ∈ c.Candidates,
        x.Confidence = calculateNameSimilarityConfidence64 c.Candidates) := by
  have e95 : (0.95 : ℚ) = 95 / 100 := by norm_num
  have e9 : (0.9 : ℚ) = 9 / 10 := by norm_num
  have e8 : (0.8 : ℚ) = 8 / 10 := by norm_num
  have e7 : (0.7 : ℚ) = 7 / 10 := by norm_num
  have e6 : (0.6 : ℚ) = 6 / 10 := by norm_num
  have e5 : (0.5 : ℚ) = 5 / 10 := by norm_num
  refine ⟨?_, ?_, ?_, ?_, ?_, ?_, ?_⟩
  · intro group hlen
    rw [calculateNameSimilarityConfidence64_eq, if_neg (by omega)]
    have hpairs := unorderedPairs_length group
    have hne : (pairSimilarities64 group).length ≠ 0 := by
      rw [pairSimilarities64_eq_map, List.length_map]
      intro h0
      rw [h0] at hpairs
      have h1 : 1 ≤ group.length - 1 := by omega
      have : 2 * 1 ≤ group.length * (group.length - 1) := Nat.mul_le_mul hlen h1
      omega
    rw [if_neg hne]
    unfold meanPairSimilarity64
    rw [pairSimilarities64_eq_map, List.length_map]
  · intro group hlen
    rw [calculateNameSimilarityConfidence64_eq, if_pos hlen]
  · intro group
    exact ⟨unorderedPairs_length group, unorderedPairs_sublist group⟩
  · intro avg
    rw [e95, e9, e8, e7, e6, e5]
    rfl
  · intro avg h
    rw [e6] at h ⊢
    exact confidenceBand64_low avg h
  · intro x y
    unfold meanPairSimilarity64
    simp only [unorderedPairs, List.map_cons, List.map_nil, List.nil_append, List.append_nil,
      List.foldl_cons, List.foldl_nil, List.length_cons, List.length_nil, zero_add,
      Nat.cast_one, roundFloat64_one, div_one]
    unfold nameSimilarity64
    rw [calculateStringSimilarity64_idem, calculateStringSimilarity64_idem]
  · intro L db userID r hr c hc x hx
    obtain ⟨sizeClusters, sc, _, _, hcr⟩ := mem_detectBySizeAndName64 hr hc
    obtain ⟨entry, _, _, _, hfiles, hconf⟩ := mem_refineSizeCluster64 hcr
    rw [hconf x hx]
    exact (calculateNameSimilarityConfidence64_congr _ _ hfiles).symm

theorem name_confidence_is_band_of_mean_witness :
    2 ≤ (similarNameFiles.map bareCandidate).length ∧
      calculateNameSimilarityConfidence64 (similarNameFiles.map bareCandidate) =
        confidenceBand64 (meanPairSimilarity64 (similarNameFiles.map bareCandidate)) :=
  ⟨by decide, name_confidence_is_band_of_mean.1 (similarNameFiles.map bareCandidate) (by decide)⟩

/-! ### Sub-groups partition the candidates -/

theorem NameGroups.split_at_key {groups : NameGroups} {k : GoString}
    (hnd : (groups.map Prod.fst).Nodup) (hk : k ∈ groups.map Prod.fst) :
    ∃ l1 v l2, groups = l1 ++ (k, v) :: l2 ∧ (∀ e ∈ l1, e.1 ≠ k) ∧ (∀ e ∈ l2, e.1 ≠ k) := by
  obtain ⟨e, he, rfl⟩ := List.mem_map.mp hk
  obtain ⟨l1, l2, rfl⟩ := List.append_of_mem he
  rw [List.map_append, List.map_cons, List.nodup_append, List.nodup_cons] at hnd
  obtain ⟨_, ⟨hn2, _⟩, hdis⟩ := hnd
  refine ⟨l1, e.2, l2, rfl, ?_, ?_⟩
  · intro e1 he1 heq
    exact hdis (List.mem_map_of_mem Prod.fst he1) (by rw [heq]; exact List.mem_cons_self _ _)
  · intro e2 he2 heq
    exact hn2 (by rw [← heq]; exact List.mem_map_of_mem Prod.fst he2)

theorem NameGroups.get_split (l1 l2 : NameGroups) (k : GoString) (v : List DuplicateCandidate)
    (h1 : ∀ e ∈ l1, e.1 ≠ k) : NameGroups.get (l1 ++ (k, v) :: l2) k = v := by
  unfold NameGroups.get
  induction l1 with
  | nil => simp
  | cons e l1 ih =>
    have he : e.1 ≠ k := h1 e (List.mem_cons_self _ _)
    rw [List.cons_append, List.find?_cons_of_neg _ (by simpa using he)]
    exact ih (fun e1 he1 => h1 e1 (List.mem_cons_of_mem _ he1))

theorem NameGroups.map_set_of_ne (l : NameGroups) (k : GoString) (w : List DuplicateCandidate)
    (h : ∀ e ∈ l, e.1 ≠ k) : l.map (fun e => if e.1 = k then (e.1, w) else e) = l := by
  induction l with
  | nil => rfl
  | cons e l ih =>
    rw [List.map_cons, if_neg (h e (List.mem_cons_self _ _)),
      ih (fun e1 he1 => h e1 (List.mem_cons_of_mem _ he1))]

theorem NameGroups.set_split (l1 l2 : NameGroups) (k : GoString) (v w : List DuplicateCandidate)
    (h1 : ∀ e ∈ l1, e.1 ≠ k) (h2 : ∀ e ∈ l2, e.1 ≠ k) :
    NameGroups.set (l1 ++ (k, v) :: l2) k w = l1 ++ (k, w) :: l2 := by
  unfold NameGroups.set
  have hany : (l1 ++ (k, v) :: l2).any (fun e => decide (e.1 = k)) = true := by
    rw [List.any_eq_true]
    exact ⟨(k, v), by simp, by simp⟩
  rw [if_pos hany, List.map_append, List.map_cons, NameGroups.map_set_of_ne l1 k w h1,
    NameGroups.map_set_of_ne l2 k w h2]
  simp

theorem NameGroups.get_absent (groups : NameGroups) (k : GoString)
    (h : k ∉ groups.map Prod.fst) : groups.get k = [] := by
  rcases NameGroups.get_spec groups k with h0 | ⟨e, he, hek, _⟩
  · exact h0
  · exact absurd (by rw [← hek]; exact List.mem_map_of_mem Prod.fst he) h

theorem NameGroups.set_absent (groups : NameGroups) (k : GoString) (w : List DuplicateCandidate)
    (h : k ∉ groups.map Prod.fst) : groups.set k w = groups ++ [(k, w)] := by
  unfold NameGroups.set
  have hany : ¬ groups.any (fun e => decide (e.1 = k)) = true := by
    rw [List.any_eq_true]
    rintro ⟨e, he, hek⟩
    simp only [decide_eq_true_eq] at hek
    exact h (by rw [← hek]; exact List.mem_map_of_mem Prod.fst he)
  rw [if_neg hany]

theorem NameGroups.set_get_perm (groups : NameGroups) (k : GoString) (c : DuplicateCandidate)
    (hnd : (groups.map Prod.fst).Nodup) :
    ((groups.set k (groups.get k ++ [c])).flatMap Prod.snd).Perm
      (groups.flatMap Prod.snd ++ [c]) := by
  by_cases hk : k ∈ groups.map Prod.fst
  · obtain ⟨l1, v, l2, rfl, h1, h2⟩ := NameGroups.split_at_key hnd hk
    rw [NameGroups.get_split l1 l2 k v h1, NameGroups.set_split l1 l2 k v _ h1 h2]
    simp only [List.flatMap_append, List.flatMap_cons, List.append_assoc]
    refine List.Perm.append_left _ (List.Perm.append_left _ ?_)
    exact List.perm_append_comm
  · rw [NameGroups.get_absent groups k hk, NameGroups.set_absent groups k _ hk]
    simp [List.flatMap_append]

theorem NameGroups.set_get_sublist (groups : NameGroups) (k : GoString) (c : DuplicateCandidate)
    (processed : List DuplicateCandidate) (h : ∀ e ∈ groups, e.2.Sublist processed) :
    ∀ e ∈ groups.set k (groups.get k ++ [c]), e.2.Sublist (processed ++ [c]) := by
  intro e he
  rcases NameGroups.mem_set_cases he with he | rfl
  · exact (h e he).trans (List.sublist_append_left _ _)
  · rcases NameGroups.get_spec groups k with h0 | ⟨e0, he0, _, hget⟩
    · rw [h0]
      exact List.sublist_append_right _ _
    · rw [hget]
      exact List.Sublist.append (h e0 he0) (List.Sublist.refl _)

theorem foldl_groupStep_partition (L : Lib) :
    ∀ (candidates processed : List DuplicateCandidate) (groups : NameGroups),
      (groups.map Prod.fst).Nodup →
      (groups.flatMap Prod.snd).Perm processed →
      (∀ e ∈ groups, e.2.Sublist processed) →
      ((candidates.foldl (groupStep L) groups).flatMap Prod.snd).Perm (processed ++ candidates) ∧
        ∀ e ∈ candidates.foldl (groupStep L) groups, e.2.Sublist (processed ++ candidates) := by
  intro candidates
  induction candidates with
  | nil =>
    intro processed groups _ hp hs
    rw [List.foldl_nil, List.append_nil]
    exact ⟨hp, hs⟩
  | cons c rest ih =>
    intro processed groups hnd hp hs
    rw [List.foldl_cons]
    have hstep := ih (processed ++ [c]) (groupStep L groups c) (groupStep_keys_nodup L groups c hnd)
      (by
        rw [groupStep_eq]
        exact (NameGroups.set_get_perm groups _ c hnd).trans (List.Perm.append_right _ hp))
      (by
        rw [groupStep_eq]
        exact NameGroups.set_get_sublist groups _ c processed hs)
    rw [List.append_assoc, List.singleton_append] at hstep
    exact hstep

theorem groupByNameSimilarity_partition (L : Lib) (candidates : List DuplicateCandidate) :
    ((groupByNameSimilarity L candidates).flatMap Prod.snd).Perm candidates ∧
      (∀ e ∈ groupByNameSimilarity L candidates, e.2.Sublist candidates) ∧
      ((groupByNameSimilarity L candidates).map Prod.fst).Nodup := by
  rw [groupByNameSimilarity_eq_foldl]
  have h := foldl_groupStep_partition L candidates [] [] List.nodup_nil (by simp)
    (fun _ he => absurd he (List.not_mem_nil _))
  rw [List.nil_append] at h
  exact ⟨h.1, h.2, foldl_groupStep_keys_nodup L candidates [] List.nodup_nil⟩

/-! ### Grouping as greedy first-fit -/

theorem similarity_nil_right (name : GoString)
    (h : calculateStringSimilarity name [] ≥ 8 / 10) : name = [] := by
  by_contra hne
  have hlen : name.length ≠ 0 := fun h0 => hne (List.length_eq_zero.mp h0)
  have hlev : levenshteinDistance name [] = name.length := by
    unfold levenshteinDistance
    rw [if_neg hlen]
    rfl
  have hmax : max name.length ([] : GoString).length = name.length := by simp
  rw [similarity_eq, if_neg hne, hmax, if_neg hlen, hlev] at h
  have hpos : ((name.length : Nat) : ℚ) ≠ 0 := by exact_mod_cast hlen
  rw [div_self hpos] at h
  norm_num at h

theorem groupByNameSimilarity_snoc (L : Lib) (pre : List DuplicateCandidate)
    (c : DuplicateCandidate) :
    groupByNameSimilarity L (pre ++ [c]) = groupStep L (groupByNameSimilarity L pre) c := by
  rw [groupByNameSimilarity_eq_foldl, groupByNameSimilarity_eq_foldl, List.foldl_append]
  rfl

theorem groupStep_new_group (L : Lib) (hL : L.MapOrderOK) (groups : NameGroups)
    (hnd : (groups.map Prod.fst).Nodup) (c : DuplicateCandidate) :
    ((∀ k ∈ groups.map Prod.fst,
        ¬ calculateStringSimilarity (normalizedName L c) k ≥ 8 / 10) →
      groupStep L groups c = groups ++ [(normalizedName L c, [c])]) ∧
    ((∃ k ∈ groups.map Prod.fst, calculateStringSimilarity (normalizedName L c) k ≥ 8 / 10) →
      (groupStep L groups c).map Prod.fst = groups.map Prod.fst) := by
  constructor
  · intro hnone
    rcases findSimilarGroup_cases L hL (normalizedName L c) groups hnd with
      ⟨k, hk, hs, _⟩ | ⟨_, hf⟩
    · exact absurd hs (hnone k hk)
    · have habs : normalizedName L c ∉ groups.map Prod.fst := by
        intro hmem
        apply hnone _ hmem
        rw [similarity_self]
        norm_num
      rw [groupStep_eq, hf, if_pos rfl, NameGroups.get_absent groups _ habs,
        NameGroups.set_absent groups _ _ habs]
      rfl
  · rintro ⟨k0, hk0, hs0⟩
    rcases findSimilarGroup_cases L hL (normalizedName L c) groups hnd with
      ⟨k, hk, hs, hf⟩ | ⟨hn, _⟩
    · have hkey : (if findSimilarGroup L (normalizedName L c) groups = [] then normalizedName L c
          else findSimilarGroup L (normalizedName L c) groups) ∈ groups.map Prod.fst := by
        rw [hf]
        split_ifs with hempty
        · rw [hempty] at hs
          rw [similarity_nil_right _ hs, ← hempty]
          exact hk
        · exact hk
      rw [groupStep_eq, NameGroups.keys_set, if_pos hkey]
    · exact absurd hs0 (hn k0 hk0)

/-- C27: in the result of `groupByNameSimilarity` the key of every sub-group is
the normalized filename of its first member, the members stand in input order,
and the normalized filename of every member is at least 0.8 similar to the key.
When `range` visits every key of the map, the candidate processed after the
candidates `pre` starts a new sub-group, keyed by its normalized filename,
exactly when no key of the map at that moment is at least 0.8 similar to its
normalized filename; otherwise the keys stay as they are. -/
theorem grouping_is_greedy_first_fit (L : Lib) (candidates : List DuplicateCandidate) :
    (∀ e ∈ groupByNameSimilarity L candidates,
      (∃ first rest, e.2 = first :: rest ∧ e.1 = normalizedName L first) ∧
      e.2.Sublist candidates ∧
      ∀ x ∈ e.2, calculateStringSimilarity (normalizedName L x) e.1 ≥ 8 / 10) ∧
    (L.MapOrderOK → ∀ pre c post, candidates = pre ++ c :: post →
      groupByNameSimilarity L candidates =
        post.foldl (groupStep L) (groupStep L (groupByNameSimilarity L pre) c) ∧
      ((groupStep L (groupByNameSimilarity L pre) c).length =
          (groupByNameSimilarity L pre).length + 1 ↔
        ∀ k ∈ (groupByNameSimilarity L pre).map Prod.fst,
          ¬ calculateStringSimilarity (normalizedName L c) k ≥ 8 / 10) ∧
      ((∀ k ∈ (groupByNameSimilarity L pre).map Prod.fst,
          ¬ calculateStringSimilarity (normalizedName L c) k ≥ 8 / 10) →
        groupStep L (groupByNameSimilarity L pre) c =
          groupByNameSimilarity L pre ++ [(normalizedName L c, [c])]) ∧
      ((∃ k ∈ (groupByNameSimilarity L pre).map Prod.fst,
          calculateStringSimilarity (normalizedName L c) k ≥ 8 / 10) →
        (groupStep L (groupByNameSimilarity L pre) c).map Prod.fst =
          (groupByNameSimilarity L pre).map Prod.fst)) := by
  constructor
  · intro e he
    obtain ⟨hsim, first, rest, hfirst, hkey⟩ := groupByNameSimilarity_anchored L candidates e he
    exact ⟨⟨first, rest, hfirst, hkey.symm⟩,
      (groupByNameSimilarity_partition L candidates).2.1 e he, hsim⟩
  · intro hL pre c post hcands
    have hnd := (groupByNameSimilarity_partition L pre).2.2
    obtain ⟨hnew, hold⟩ := groupStep_new_group L hL (groupByNameSimilarity L pre) hnd c
    refine ⟨?_, ?_, hnew, hold⟩
    · rw [hcands, groupByNameSimilarity_eq_foldl, groupByNameSimilarity_eq_foldl,
        List.foldl_append, List.foldl_cons]
    · constructor
      · intro hlen k hk hs
        have hkeys := hold ⟨k, hk, hs⟩
        have := congrArg List.length hkeys
        rw [List.length_map, List.length_map] at this
        omega
      · intro hnone
        rw [hnew hnone, List.length_append]
        rfl

theorem grouping_is_greedy_first_fit_witness :
    (groupStep refLib (groupByNameSimilarity refLib [bareCandidate (fileRow 1 [] 5 "a/x.txt" 1)])
        (bareCandidate (fileRow 2 [] 5 "b/report.txt" 2))).length =
        (groupByNameSimilarity refLib [bareCandidate (fileRow 1 [] 5 "a/x.txt" 1)]).length + 1 ↔
      ∀ k ∈ (groupByNameSimilarity refLib [bareCandidate (fileRow 1 [] 5 "a/x.txt" 1)]).map
          Prod.fst,
        ¬ calculateStringSimilarity
          (normalizedName refLib (bareCandidate (fileRow 2 [] 5 "b/report.txt" 2))) k ≥ 8 / 10 :=
  ((grouping_is_greedy_first_fit refLib
    [bareCandidate (fileRow 1 [] 5 "a/x.txt" 1), bareCandidate (fileRow 2 [] 5 "b/report.txt" 2)]).2
    refLib_mapOrderOK [bareCandidate (fileRow 1 [] 5 "a/x.txt" 1)]
    (bareCandidate (fileRow 2 [] 5 "b/report.txt" 2)) [] rfl).2.1

/-! ### Size+Name clusters share no file -/

theorem primaryKey_injective {table : List File} (hpk : (table.map (fun f => f.ID)).Nodup)
    {f g : File} (hf : f ∈ table) (hg : g ∈ table) (h : f.ID = g.ID) : f = g :=
  List.inj_on_of_nodup_map hpk hf hg h

theorem sizeGroupsOf_sizes_nodup (table : List File) (userID : UUID) :
    ((sizeGroupsOf table userID).map (fun row => row.Size)).Nodup := by
  unfold sizeGroupsOf
  refine ((List.perm_insertionSort _ _).map _).nodup_iff.mpr ?_
  rw [List.filter_map, List.map_map]
  have : ∀ l : List Int,
      List.map ((fun row : SizeGroupRow => row.Size) ∘ fun k =>
        ({ Size := k,
           Count := (((table.filter (fun f => decide (f.UserID = userID ∧ f.Size > 0))).filter
             (fun f => decide (f.Size = k))).length : Int),
           TotalSize := (((table.filter (fun f => decide (f.UserID = userID ∧ f.Size > 0))).filter
             (fun f => decide (f.Size = k))).map (fun f => f.Size)).sum } : SizeGroupRow)) l = l := by
    intro l
    induction l with
    | nil => rfl
    | cons a l ih => rw [List.map_cons, ih]; rfl
  rw [this]
  exact List.Nodup.sublist (List.filter_sublist _) (List.nodup_dedup _)

theorem NameGroups.find_of_mem :
    ∀ (groups : NameGroups), (groups.map Prod.fst).Nodup → ∀ e ∈ groups,
      groups.find? (fun x => decide (x.1 = e.1)) = some e := by
  intro groups
  induction groups with
  | nil => intro _ e he; cases he
  | cons a l ih =>
    intro hnd e he
    rw [List.map_cons, List.nodup_cons] at hnd
    by_cases hae : a = e
    · subst hae
      rw [List.find?_cons_of_pos _ (by simp)]
    · have hel : e ∈ l := by
        rcases List.mem_cons.mp he with h | h
        · exact absurd h.symm hae
        · exact h
      have hne : ¬ a.1 = e.1 := by
        intro heq
        exact hnd.1 (by rw [heq]; exact List.mem_map_of_mem Prod.fst hel)
      rw [List.find?_cons_of_neg _ (by simpa using hne)]
      exact ih hnd.2 e hel

theorem NameGroups.range_perm (L : Lib) (hL : L.MapOrderOK) (groups : NameGroups)
    (hnd : (groups.map Prod.fst).Nodup) : (groups.range L).Perm groups := by
  unfold NameGroups.range
  refine (List.Perm.filterMap _ (hL _ hnd)).trans ?_
  rw [List.filterMap_map]
  have hsome : ∀ e ∈ groups,
      ((fun k => (groups.find? (fun e => decide (e.1 = k))).map (fun e => (k, e.2))) ∘ Prod.fst) e =
        some e := by
    intro e he
    simp only [Function.comp]
    rw [NameGroups.find_of_mem groups hnd e he]
    rfl
  rw [List.filterMap_congr hsome, List.filterMap_some]

theorem groupByNameSimilarity_ids_pairwise (L : Lib) (candidates : List DuplicateCandidate)
    (hids : (candidates.map (fun x => x.File.ID)).Nodup) :
    (groupByNameSimilarity L candidates).Pairwise
      (fun e1 e2 => ∀ x ∈ e1.2, ∀ y ∈ e2.2, x.File.ID ≠ y.File.ID) := by
  obtain ⟨hperm, _, _⟩ := groupByNameSimilarity_partition L candidates
  have hnd : ((groupByNameSimilarity L candidates).flatMap
      (fun e => e.2.map (fun x => x.File.ID))).Nodup := by
    have h1 := (hperm.map (fun x => x.File.ID)).nodup_iff.mpr hids
    rw [List.map_flatMap] at h1
    exact h1
  rw [List.nodup_flatMap] at hnd
  refine hnd.2.imp ?_
  intro e1 e2 hdis x hx y hy hxy
  exact hdis (List.mem_map_of_mem (fun x => x.File.ID) hx)
    (by rw [hxy]; exact List.mem_map_of_mem (fun x => x.File.ID) hy)

theorem refineSizeCluster_pairwise (L : Lib) (hL : L.MapOrderOK) (cluster : DuplicateCluster)
    (hids : (cluster.Candidates.map (fun x => x.File.ID)).Nodup) :
    (refineSizeCluster L cluster).Pairwise (fun a b => ¬ SharesFile a b) := by
  unfold refineSizeCluster
  split_ifs with hlen
  · exact List.Pairwise.nil
  · rw [List.pairwise_filterMap]
    have hgroups := groupByNameSimilarity_ids_pairwise L cluster.Candidates hids
    have hnd := (groupByNameSimilarity_partition L cluster.Candidates).2.2
    have hrange := ((NameGroups.range_perm L hL _ hnd).pairwise_iff
      (R := fun e1 e2 : GoString × List DuplicateCandidate =>
        ∀ x ∈ e1.2, ∀ y ∈ e2.2, x.File.ID ≠ y.File.ID)
      (fun hab x hx y hy hxy => hab y hy x hx hxy.symm)).mpr hgroups
    refine hrange.imp ?_
    intro e1 e2 hdis c1 hc1 c2 hc2
    simp only [Option.mem_def] at hc1 hc2
    split_ifs at hc1 with h1
    split_ifs at hc2 with h2
    simp only [Option.some.injEq] at hc1 hc2
    subst hc1
    subst hc2
    rintro ⟨x, hx, y, hy, hxy⟩
    simp only [List.mem_map] at hx hy
    obtain ⟨x0, hx0, rfl⟩ := hx
    obtain ⟨y0, hy0, rfl⟩ := hy
    exact hdis x0 hx0 y0 hy0 hxy

theorem mem_refineSizeCluster_files {L : Lib} {cluster c : DuplicateCluster}
    (hc : c ∈ refineSizeCluster L cluster) :
    ∀ x ∈ c.Candidates, ∃ y ∈ cluster.Candidates, x.File = y.File := by
  obtain ⟨entry, hentry, _, _, _, _, _, hfiles, _⟩ := mem_refineSizeCluster hc
  obtain ⟨e, he, he2⟩ := NameGroups.mem_range hentry
  intro x hx
  have hxf : x.File ∈ entry.2.map (fun x => x.File) := by
    rw [← hfiles]
    exact List.mem_map_of_mem (fun x => x.File) hx
  obtain ⟨y, hy, hyx⟩ := List.mem_map.mp hxf
  rw [he2] at hy
  exact ⟨y, groupByNameSimilarity_mem L cluster.Candidates e he y hy, hyx.symm⟩

theorem detectBySizeAndName_pairwise (L : Lib) (hL : L.MapOrderOK) (table : List File)
    (hpk : (table.map (fun f => f.ID)).Nodup) (userID : UUID) (r : List DuplicateCluster)
    (hr : detectBySizeAndName L (tableSource table) userID = .ok r) :
    r.Pairwise (fun a b => ¬ SharesFile a b) := by
  unfold detectBySizeAndName at hr
  rw [detectBySize_tableSource] at hr
  simp only [Except.ok.injEq] at hr
  subst hr
  rw [List.pairwise_flatMap]
  constructor
  · intro sc hsc
    obtain ⟨row, _, rfl⟩ := List.mem_map.mp hsc
    apply refineSizeCluster_pairwise L hL
    have hfiles : (sizeCluster L row (filesBySizeOf table userID row.Size)).Candidates.map
        (fun x => x.File.ID) = (filesBySizeOf table userID row.Size).map (fun f => f.ID) := by
      simp only [sizeCluster, List.map_map]
      rfl
    rw [hfiles]
    refine ((filesBySizeOf_perm table userID row.Size).map _).nodup_iff.mpr ?_
    exact List.Nodup.sublist (List.Sublist.map _ (List.filter_sublist _)) hpk
  · rw [List.pairwise_map]
    have hsizes := sizeGroupsOf_sizes_nodup table userID
    rw [List.Nodup, List.pairwise_map] at hsizes
    refine hsizes.imp ?_
    intro row1 row2 hne c1 hc1 c2 hc2
    rintro ⟨x, hx, y, hy, hxy⟩
    obtain ⟨x0, hx0, hxf⟩ := mem_refineSizeCluster_files hc1 x hx
    obtain ⟨y0, hy0, hyf⟩ := mem_refineSizeCluster_files hc2 y hy
    simp only [sizeCluster, List.mem_map] at hx0 hy0
    obtain ⟨f1, hf1, rfl⟩ := hx0
    obtain ⟨f2, hf2, rfl⟩ := hy0
    simp only [] at hxf hyf
    have hm1 := List.mem_filter.mp ((filesBySizeOf_perm table userID row1.Size).mem_iff.mp hf1)
    have hm2 := List.mem_filter.mp ((filesBySizeOf_perm table userID row2.Size).mem_iff.mp hf2)
    have hs1 := hm1.2
    have hs2 := hm2.2
    simp only [decide_eq_true_eq] at hs1 hs2
    have heq : f1 = f2 := by
      apply primaryKey_injective hpk hm1.1 hm2.1
      rw [← hxf, ← hyf]
      exact hxy
    apply hne
    rw [← hs1.2, ← hs2.2, heq]

theorem sizeName_threeNamePairs :
    clusterFiles (detectBySizeAndName refLib (tableSource threeNamePairs) 1) =
      .ok [(2, [1, 3]), (2, [2, 4]), (2, [5, 6])] := by
  decide!

/-- C29: the sub-groups `groupByNameSimilarity` returns partition the candidate
sequence: their members, taken together, are the input candidates with the
input's multiplicities, the sizes add up to the input length, every sub-group
lists its members in input order, and distinct candidates each lie in exactly
one sub-group. Over a table whose rows have distinct IDs, and a `range` that
visits every key once, no file ID occurs in two clusters of the Size+Name
result. -/
theorem subgroups_partition_candidates (L : Lib) (candidates : List DuplicateCandidate) :
    ((groupByNameSimilarity L candidates).flatMap Prod.snd).Perm candidates ∧
    ((groupByNameSimilarity L candidates).map (fun e => e.2.length)).sum = candidates.length ∧
    (∀ e ∈ groupByNameSimilarity L candidates, e.2.Sublist candidates) ∧
    (candidates.Nodup → ∀ c ∈ candidates,
      ∃! e, e ∈ groupByNameSimilarity L candidates ∧ c ∈ e.2) ∧
    (L.MapOrderOK → ∀ (table : List File) (userID : UUID) (r : List DuplicateCluster),
      (table.map (fun f => f.ID)).Nodup →
      detectBySizeAndName L (tableSource table) userID = .ok r → Exclusive r) := by
  obtain ⟨hperm, hsub, _⟩ := groupByNameSimilarity_partition L candidates
  refine ⟨hperm, ?_, hsub, ?_, ?_⟩
  · have hlen := hperm.length_eq
    rw [List.length_flatMap] at hlen
    exact hlen
  · intro hnd c hc
    have hflat : ((groupByNameSimilarity L candidates).flatMap Prod.snd).Nodup :=
      hperm.nodup_iff.mpr hnd
    rw [List.nodup_flatMap] at hflat
    have hmem := hperm.mem_iff.mpr hc
    rw [List.mem_flatMap] at hmem
    obtain ⟨e, he, hce⟩ := hmem
    refine ⟨e, ⟨he, hce⟩, ?_⟩
    rintro e2 ⟨he2, hce2⟩
    by_contra hne
    have hdis := List.Pairwise.forall
      (fun (a b : GoString × List DuplicateCandidate)
        (h : Function.onFun List.Disjoint Prod.snd a b) => List.Disjoint.symm h)
      hflat.2 he2 he hne
    exact hdis hce2 hce
  · intro hL table userID r hpk hr
    exact exclusive_of_pairwise (detectBySizeAndName_pairwise L hL table hpk userID r hr)

theorem subgroups_partition_candidates_witness :
    refLib.MapOrderOK ∧ (threeNamePairs.map (fun f => f.ID)).Nodup ∧
      ∃ r, detectBySizeAndName refLib (tableSource threeNamePairs) 1 = .ok r ∧
        r.map (fun c => (c.Strategy, c.Candidates.map (fun x => x.File.ID))) =
          [(2, [1, 3]), (2, [2, 4]), (2, [5, 6])] ∧ Exclusive r := by
  obtain ⟨r, hr, hv⟩ := exists_ok_of_map sizeName_threeNamePairs
  exact ⟨refLib_mapOrderOK, by decide, r, hr, hv,
    (subgroups_partition_candidates refLib []).2.2.2.2 refLib_mapOrderOK threeNamePairs 1 r
      (by decide) hr⟩

/-! ### The normalisation of a file name -/

theorem dropWhile_cases {α : Type} (q : α → Bool) :
    ∀ l : List α, l.dropWhile q = [] ∨ ∃ a rest, l.dropWhile q = a :: rest ∧ q a = false := by
  intro l
  induction l with
  | nil => left; rfl
  | cons x l ih =>
    by_cases hx : q x = true
    · rw [List.dropWhile_cons_of_pos hx]
      exact ih
    · right
      rw [List.dropWhile_cons_of_neg hx]
      exact ⟨x, l, rfl, by simpa using hx⟩

/-- Every string is free of `sep`, or splits at its last `sep`. -/
theorem split_at_last (sep : UInt8) (s : GoString) :
    (sep ∉ s ∧ s.reverse.takeWhile (fun c => c ≠ sep) = s.reverse ∧
        s.reverse.dropWhile (fun c => c ≠ sep) = []) ∨
      ∃ pre suf, s = pre ++ sep :: suf ∧ sep ∉ suf ∧
        s.reverse.takeWhile (fun c => c ≠ sep) = suf.reverse ∧
        s.reverse.dropWhile (fun c => c ≠ sep) = sep :: pre.reverse := by
  have hsplit := List.takeWhile_append_dropWhile (fun c => decide (c ≠ sep)) s.reverse
  have htw : ∀ x ∈ s.reverse.takeWhile (fun c => decide (c ≠ sep)), x ≠ sep := by
    intro x hx
    have := List.mem_takeWhile_imp hx
    simpa using this
  rcases dropWhile_cases (fun c => decide (c ≠ sep)) s.reverse with hd | ⟨a, rest, hd, ha⟩
  · left
    rw [hd, List.append_nil] at hsplit
    refine ⟨?_, hsplit, hd⟩
    intro hmem
    have : sep ∈ s.reverse.takeWhile (fun c => decide (c ≠ sep)) := by
      rw [hsplit]
      exact List.mem_reverse.mpr hmem
    exact htw sep this rfl
  · right
    have hasep : a = sep := by simpa using ha
    subst hasep
    refine ⟨rest.reverse, (s.reverse.takeWhile (fun c => decide (c ≠ a))).reverse, ?_, ?_, ?_, ?_⟩
    · have := congrArg List.reverse hsplit
      rw [List.reverse_reverse, hd, List.reverse_append, List.reverse_cons,
        List.append_assoc] at this
      exact this.symm
    · intro hmem
      exact htw a (List.mem_reverse.mp hmem) rfl
    · rw [List.reverse_reverse]
    · rw [hd, List.reverse_reverse]

theorem splitByte_ne_nil (sep : UInt8) : ∀ s : GoString, splitByte sep s ≠ [] := by
  intro s
  induction s with
  | nil => simp [splitByte]
  | cons c cs ih =>
    rw [splitByte]
    split_ifs
    · simp
    · cases h : splitByte sep cs with
      | nil => simp
      | cons p ps => simp

theorem splitByte_of_not_mem (sep : UInt8) :
    ∀ s : GoString, sep ∉ s → splitByte sep s = [s] := by
  intro s
  induction s with
  | nil => intro _; rfl
  | cons c cs ih =>
    intro h
    rw [List.mem_cons, not_or] at h
    rw [splitByte, if_neg (fun hc => h.1 hc.symm), ih h.2]

theorem getLastD_cons_of_ne_nil {α : Type} (a d : α) :
    ∀ l : List α, l ≠ [] → (a :: l).getLastD d = l.getLastD d := by
  intro l hl
  cases l with
  | nil => exact absurd rfl hl
  | cons b l => simp [List.getLastD]

theorem splitByte_length_two (sep : UInt8) (suf : GoString) :
    ∀ pre : GoString, ∃ a b rest, splitByte sep (pre ++ sep :: suf) = a :: b :: rest := by
  intro pre
  induction pre with
  | nil =>
    rw [List.nil_append, splitByte, if_pos rfl]
    cases h : splitByte sep suf with
    | nil => exact absurd h (splitByte_ne_nil sep suf)
    | cons b rest => exact ⟨[], b, rest, rfl⟩
  | cons c pre ih =>
    obtain ⟨a, b, rest, h⟩ := ih
    rw [List.cons_append, splitByte, h]
    split_ifs
    · exact ⟨[], a, b :: rest, rfl⟩
    · exact ⟨c :: a, b, rest, rfl⟩

theorem splitByte_last (sep : UInt8) (suf : GoString) :
    ∀ pre : GoString,
      (splitByte sep (pre ++ sep :: suf)).getLastD [] = (splitByte sep suf).getLastD [] := by
  intro pre
  induction pre with
  | nil =>
    rw [List.nil_append, splitByte, if_pos rfl]
    exact getLastD_cons_of_ne_nil _ _ _ (splitByte_ne_nil sep suf)
  | cons c pre ih =>
    obtain ⟨a, b, rest, h⟩ := splitByte_length_two sep suf pre
    rw [List.cons_append, splitByte]
    rw [h] at ih ⊢
    split_ifs
    · rw [getLastD_cons_of_ne_nil _ _ _ (by simp)]
      exact ih
    · rw [← ih]
      simp [List.getLastD]

theorem extractFilename_eq_afterLastSlash (p : GoString) :
    extractFilename p = afterLastSlash p := by
  have hext : extractFilename p = (splitByte 47 p).getLastD [] := by
    unfold extractFilename
    have : (splitByte 47 p).length ≠ 0 := fun h =>
      splitByte_ne_nil 47 p (List.length_eq_zero.mp h)
    simp only [this, if_false]
  rw [hext]
  unfold afterLastSlash
  rcases split_at_last 47 p with ⟨hno, htw, _⟩ | ⟨pre, suf, hp, hno, htw, _⟩
  · have htw2 : p.reverse.takeWhile (fun c => decide (c ≠ 47)) = p.reverse := htw
    rw [htw2, List.reverse_reverse, splitByte_of_not_mem 47 p hno]
    rfl
  · have htw2 : p.reverse.takeWhile (fun c => decide (c ≠ 47)) = suf.reverse := htw
    rw [htw2, List.reverse_reverse]
    rw [hp, splitByte_last, splitByte_of_not_mem 47 suf hno]
    rfl

theorem findIdx_none (sep : UInt8) :
    ∀ (l : List UInt8) (start : Nat), sep ∉ l →
      List.findIdx? (fun x => x == sep) l start = none := by
  intro l
  induction l with
  | nil => intro start _; rfl
  | cons x l ih =>
    intro start h
    rw [List.mem_cons, not_or] at h
    rw [List.findIdx?_cons]
    have hx : (x == sep) = false := by
      rw [beq_eq_false_iff_ne]
      exact fun hc => h.1 hc.symm
    rw [hx]
    exact ih (start + 1) h.2

theorem findIdx_first (sep : UInt8) (rest : List UInt8) :
    ∀ (l : List UInt8) (start : Nat), sep ∉ l →
      List.findIdx? (fun x => x == sep) (l ++ sep :: rest) start = some (start + l.length) := by
  intro l
  induction l with
  | nil =>
    intro start _
    rw [List.nil_append, List.findIdx?_cons]
    simp
  | cons x l ih =>
    intro start h
    rw [List.mem_cons, not_or] at h
    rw [List.cons_append, List.findIdx?_cons]
    have hx : (x == sep) = false := by
      rw [beq_eq_false_iff_ne]
      exact fun hc => h.1 hc.symm
    rw [hx]
    simp only [Bool.false_eq_true, if_false]
    rw [ih (start + 1) h.2, List.length_cons]
    congr 1
    omega

theorem cut_extension_eq (name : GoString) :
    (if lastIndexByte 46 name > 0 then name.take (lastIndexByte 46 name).toNat else name) =
      stripExtension name := by
  unfold stripExtension beforeLastDot lastIndexByte List.indexOf?
  rcases split_at_last 46 name with ⟨hno, _, hdw⟩ | ⟨pre, suf, hp, hno, _, hdw⟩
  · rw [findIdx_none 46 name.reverse 0 (fun h => hno (List.mem_reverse.mp h))]
    rw [if_neg (by norm_num), if_neg (fun h => hno h.1)]
  · have hdw2 : name.reverse.dropWhile (fun c => decide (c ≠ 46)) = 46 :: pre.reverse := hdw
    rw [hdw2]
    have hrev : name.reverse = suf.reverse ++ 46 :: pre.reverse := by
      rw [hp, List.reverse_append, List.reverse_cons, List.append_assoc]
      rfl
    rw [hrev, findIdx_first 46 pre.reverse suf.reverse 0 (fun h => hno (List.mem_reverse.mp h))]
    have hlen : name.length = pre.length + (suf.length + 1) := by
      rw [hp, List.length_append, List.length_cons]
    have hidx : ((name.length : Int) - 1 - ((0 + suf.reverse.length : Nat) : Int)) =
        (pre.length : Int) := by
      rw [hlen, List.length_reverse]
      push_cast
      ring
    simp only [hidx, List.drop_one, List.tail_cons, List.reverse_reverse, Int.toNat_ofNat]
    have hmem : (46 : UInt8) ∈ name := by rw [hp]; simp
    have htake : name.take pre.length = pre := by
      rw [hp, List.take_left]
    rw [htake]
    by_cases hpre : pre = []
    · subst hpre
      simp
    · have hpos : (0 : Int) < (pre.length : Int) := by
        exact_mod_cast List.length_pos.mpr hpre
      rw [if_pos hpos, if_pos ⟨hmem, hpre⟩]

theorem replace_both (name : GoString) :
    replaceByte 45 32 (replaceByte 95 32 name) =
      name.map (fun c => if c = 95 ∨ c = 45 then 32 else c) := by
  unfold replaceByte
  rw [List.map_map]
  apply List.map_congr_left
  intro c _
  simp only [Function.comp]
  by_cases h1 : c = 95
  · subst h1; decide
  · by_cases h2 : c = 45
    · subst h2; decide
    · simp [h1, h2]

/-- C25: for every path tail, `normalizeFilename (extractFilename p)` is the
reference normalisation: the part after the last `/`, lowercased, cut before its
last `.` unless that `.` is the first character, with `_` and `-` replaced by
spaces, trimmed; `extractFilename` alone is the part after the last `/`. With
ASCII lowercasing and trimming, "photos/Vacation_Photo.JPG" gives
"vacation photo" and ".bashrc" keeps its text. -/
theorem normalize_is_reference (L : Lib) (p : GoString) :
    normalizeFilename L (extractFilename p) = referenceNormalize L p ∧
      extractFilename p = afterLastSlash p ∧
      normalizeFilename refLib (extractFilename (ascii "photos/Vacation_Photo.JPG")) =
        ascii "vacation photo" ∧
      normalizeFilename refLib (extractFilename (ascii "home/.bashrc")) = ascii ".bashrc" := by
  refine ⟨?_, extractFilename_eq_afterLastSlash p, by decide, by decide⟩
  rw [normalizeFilename_eq, extractFilename_eq_afterLastSlash]
  unfold referenceNormalize normalizeCore
  simp only []
  rw [cut_extension_eq, replace_both]

/-! ### The edit distance is the classic Levenshtein distance -/

theorem editScript_insert_all : ∀ ys : List UInt8, EditScript [] ys ys.length := by
  intro ys
  induction ys with
  | nil => exact EditScript.done
  | cons y ys ih => exact EditScript.insert y ih

theorem editScript_delete_all : ∀ xs : List UInt8, EditScript xs [] xs.length := by
  intro xs
  induction xs with
  | nil => exact EditScript.done
  | cons x xs ih => exact EditScript.delete x ih

theorem min3_cases (a b c : Nat) : min3 a b c = a ∨ min3 a b c = b ∨ min3 a b c = c := by
  unfold min3
  split_ifs
  · exact Or.inl rfl
  · exact Or.inr (Or.inl rfl)
  · exact Or.inr (Or.inr rfl)

theorem editScript_editDist : ∀ xs ys : List UInt8, EditScript xs ys (editDist xs ys) := by
  intro xs
  induction xs with
  | nil => intro ys; rw [editDist_nil_left]; exact editScript_insert_all ys
  | cons x xs ihx =>
    intro ys
    induction ys with
    | nil => rw [editDist_nil_right]; exact editScript_delete_all (x :: xs)
    | cons y ys ihy =>
      rw [editDist_cons_cons]
      rcases min3_cases (editDist xs (y :: ys) + 1) (editDist (x :: xs) ys + 1)
        (editDist xs ys + (if x ≠ y then 1 else 0)) with h | h | h
      · rw [h]; exact EditScript.delete x (ihx (y :: ys))
      · rw [h]; exact EditScript.insert y ihy
      · rw [h]
        by_cases hxy : x = y
        · subst hxy
          simp only [ne_eq, not_true_eq_false, if_false, Nat.add_zero]
          exact EditScript.keep x (ihx ys)
        · rw [if_pos hxy]
          exact EditScript.substitute x y (ihx ys)

theorem editDist_le_of_script {xs ys : List UInt8} {n : Nat} (h : EditScript xs ys n) :
    editDist xs ys ≤ n := by
  induction h with
  | done => rw [editDist_nil_left]; exact Nat.le_refl _
  | keep x d ih =>
    rw [editDist_cons_cons, min3_eq_min]
    simp only [ne_eq, not_true_eq_false, if_false, Nat.add_zero]
    omega
  | substitute x y d ih =>
    rw [editDist_cons_cons, min3_eq_min]
    split_ifs <;> omega
  | @delete x xs ys n d ih =>
    cases ys with
    | nil =>
      rw [editDist_nil_right] at ih ⊢
      rw [List.length_cons]
      omega
    | cons y ys =>
      rw [editDist_cons_cons, min3_eq_min]
      omega
  | @insert y xs ys n d ih =>
    cases xs with
    | nil =>
      rw [editDist_nil_left] at ih ⊢
      rw [List.length_cons]
      omega
    | cons x xs =>
      rw [editDist_cons_cons, min3_eq_min]
      omega

theorem editScript_snoc_keep (a : UInt8) {xs ys : List UInt8} {n : Nat}
    (h : EditScript xs ys n) : EditScript (xs ++ [a]) (ys ++ [a]) n := by
  induction h with
  | done => exact EditScript.keep a EditScript.done
  | keep x _ ih => exact EditScript.keep x ih
  | substitute x y _ ih => exact EditScript.substitute x y ih
  | delete x _ ih => exact EditScript.delete x ih
  | insert y _ ih => exact EditScript.insert y ih

theorem editScript_snoc_substitute (a b : UInt8) {xs ys : List UInt8} {n : Nat}
    (h : EditScript xs ys n) : EditScript (xs ++ [a]) (ys ++ [b]) (n + 1) := by
  induction h with
  | done => exact EditScript.substitute a b EditScript.done
  | keep x _ ih => exact EditScript.keep x ih
  | substitute x y _ ih => exact EditScript.substitute x y ih
  | delete x _ ih => exact EditScript.delete x ih
  | insert y _ ih => exact EditScript.insert y ih

theorem editScript_snoc_delete (a : UInt8) {xs ys : List UInt8} {n : Nat}
    (h : EditScript xs ys n) : EditScript (xs ++ [a]) ys (n + 1) := by
  induction h with
  | done => exact EditScript.delete a EditScript.done
  | keep x _ ih => exact EditScript.keep x ih
  | substitute x y _ ih => exact EditScript.substitute x y ih
  | delete x _ ih => exact EditScript.delete x ih
  | insert y _ ih => exact EditScript.insert y ih

theorem editScript_snoc_insert (b : UInt8) {xs ys : List UInt8} {n : Nat}
    (h : EditScript xs ys n) : EditScript xs (ys ++ [b]) (n + 1) := by
  induction h with
  | done => exact EditScript.insert b EditScript.done
  | keep x _ ih => exact EditScript.keep x ih
  | substitute x y _ ih => exact EditScript.substitute x y ih
  | delete x _ ih => exact EditScript.delete x ih
  | insert y _ ih => exact EditScript.insert y ih

theorem editScript_reverse {xs ys : List UInt8} {n : Nat} (h : EditScript xs ys n) :
    EditScript xs.reverse ys.reverse n := by
  induction h with
  | done => exact EditScript.done
  | keep x _ ih =>
    rw [List.reverse_cons, List.reverse_cons]
    exact editScript_snoc_keep x ih
  | substitute x y _ ih =>
    rw [List.reverse_cons, List.reverse_cons]
    exact editScript_snoc_substitute x y ih
  | delete x _ ih =>
    rw [List.reverse_cons]
    exact editScript_snoc_delete x ih
  | insert y _ ih =>
    rw [List.reverse_cons]
    exact editScript_snoc_insert y ih

theorem editDist_reverse (xs ys : List UInt8) :
    editDist xs.reverse ys.reverse = editDist xs ys := by
  apply Nat.le_antisymm
  · exact editDist_le_of_script (editScript_reverse (editScript_editDist xs ys))
  · have h := editDist_le_of_script (editScript_reverse (editScript_editDist xs.reverse ys.reverse))
    rw [List.reverse_reverse, List.reverse_reverse] at h
    exact h

theorem editScript_drop_target_head :
    ∀ {xs t : List UInt8} {n : Nat}, EditScript xs t n →
      ∀ (y : UInt8) (ys : List UInt8), t = y :: ys → ∃ m, m ≤ n + 1 ∧ EditScript xs ys m := by
  intro xs t n h
  induction h with
  | done => intro y ys ht; cases ht
  | @keep x xs0 ys0 n0 d _ =>
    intro y ys ht
    rw [List.cons.injEq] at ht
    obtain ⟨_, rfl⟩ := ht
    exact ⟨n0 + 1, Nat.le_refl _, EditScript.delete x d⟩
  | @substitute x y0 xs0 ys0 n0 d _ =>
    intro y ys ht
    rw [List.cons.injEq] at ht
    obtain ⟨_, rfl⟩ := ht
    exact ⟨n0 + 1, Nat.le_succ _, EditScript.delete x d⟩
  | @delete x xs0 t0 n0 d ih =>
    intro y ys ht
    obtain ⟨m, hm, hs⟩ := ih y ys ht
    exact ⟨m + 1, Nat.succ_le_succ hm, EditScript.delete x hs⟩
  | @insert y0 xs0 ys0 n0 d _ =>
    intro y ys ht
    rw [List.cons.injEq] at ht
    obtain ⟨_, rfl⟩ := ht
    exact ⟨n0, by omega, d⟩

theorem editDist_le_cons_right (xs ys : List UInt8) (y : UInt8) :
    editDist xs ys ≤ editDist xs (y :: ys) + 1 := by
  obtain ⟨m, hm, hs⟩ := editScript_drop_target_head (editScript_editDist xs (y :: ys)) y ys rfl
  exact Nat.le_trans (editDist_le_of_script hs) hm

theorem editDist_le_cons_left (xs ys : List UInt8) (x : UInt8) :
    editDist xs ys ≤ editDist (x :: xs) ys + 1 := by
  rw [editDist_comm xs ys, editDist_comm (x :: xs) ys]
  exact editDist_le_cons_right ys xs x

theorem classicLevenshtein_eq_editDist :
    ∀ xs ys : List UInt8, classicLevenshtein xs ys = editDist xs ys := by
  intro xs
  induction xs with
  | nil => intro ys; rw [classicLevenshtein, editDist_nil_left]
  | cons x xs ihx =>
    intro ys
    induction ys with
    | nil => rw [classicLevenshtein, editDist_nil_right]
    | cons y ys ihy =>
      rw [classicLevenshtein, editDist_cons_cons, min3_eq_min, ihx, ihx, ihy]
      have h1 := editDist_le_cons_right xs ys y
      have h2 := editDist_le_cons_left xs ys x
      by_cases hxy : x = y
      · rw [if_pos hxy]
        simp only [hxy, ne_eq, not_true_eq_false, if_false, Nat.add_zero]
        subst hxy
        omega
      · rw [if_neg hxy, if_pos hxy]
        omega

theorem editChain_snoc {n : Nat} {a b c : List UInt8} (h : EditChain n a b) (hs : EditStep b c) :
    EditChain (n + 1) a c := by
  induction h with
  | refl a => exact EditChain.step hs (EditChain.refl _)
  | step h1 _ ih => exact EditChain.step h1 (ih hs)

theorem editChain_skip (x : UInt8) {n : Nat} {a b : List UInt8} (h : EditChain n a b) :
    EditChain n (x :: a) (x :: b) := by
  induction h with
  | refl a => exact EditChain.refl _
  | step h1 _ ih => exact EditChain.step (EditStep.skip x h1) ih

theorem editChain_of_script {xs ys : List UInt8} {n : Nat} (h : EditScript xs ys n) :
    EditChain n xs ys := by
  induction h with
  | done => exact EditChain.refl []
  | keep x _ ih => exact editChain_skip x ih
  | @substitute x y xs0 ys0 n0 _ ih =>
    exact EditChain.step (EditStep.substitute x y xs0) (editChain_skip y ih)
  | @delete x xs0 ys0 n0 _ ih => exact EditChain.step (EditStep.delete x xs0) ih
  | @insert y xs0 ys0 n0 _ ih => exact editChain_snoc ih (EditStep.insert y ys0)

theorem editDist_self : ∀ a : List UInt8, editDist a a = 0 := by
  intro a
  induction a with
  | nil => rw [editDist_nil_left]; rfl
  | cons x a ih =>
    have h := min3_le_third (editDist a (x :: a) + 1) (editDist (x :: a) a + 1)
      (editDist a a + (if x ≠ x then 1 else 0))
    rw [← editDist_cons_cons] at h
    simp only [ne_eq, not_true_eq_false, if_false, Nat.add_zero, ih] at h
    omega

theorem editDist_cons_left_le (x : UInt8) (l c : List UInt8) :
    editDist (x :: l) c ≤ editDist l c + 1 :=
  editDist_le_of_script (EditScript.delete x (editScript_editDist l c))

theorem editDist_substitute_head (x y : UInt8) (l : List UInt8) :
    ∀ c : List UInt8, editDist (x :: l) c ≤ editDist (y :: l) c + 1 := by
  intro c
  induction c with
  | nil => rw [editDist_nil_right, editDist_nil_right, List.length_cons, List.length_cons]; omega
  | cons z c ih =>
    rw [editDist_cons_cons, editDist_cons_cons, min3_eq_min, min3_eq_min]
    split_ifs <;> omega

theorem editDist_step {a b : List UInt8} (h : EditStep a b) :
    ∀ c : List UInt8, editDist a c ≤ editDist b c + 1 := by
  induction h with
  | insert y l => intro c; exact editDist_le_cons_left l c y
  | delete x l => intro c; exact editDist_cons_left_le x l c
  | substitute x y l => exact editDist_substitute_head x y l
  | @skip x l l2 _ ih =>
    intro c
    induction c with
    | nil =>
      have h0 := ih []
      rw [editDist_nil_right, editDist_nil_right] at h0
      rw [editDist_nil_right, editDist_nil_right, List.length_cons, List.length_cons]
      omega
    | cons z c ihc =>
      have h1 := ih (z :: c)
      have h2 := ih c
      rw [editDist_cons_cons, editDist_cons_cons, min3_eq_min, min3_eq_min]
      omega

theorem editDist_le_of_chain {n : Nat} {a b : List UInt8} (h : EditChain n a b) :
    editDist a b ≤ n := by
  induction h with
  | refl a => rw [editDist_self]
  | @step n0 a0 b0 c0 hs _ ih =>
    have := editDist_step hs c0
    omega

/-- C24: `levenshteinDistance s1 s2` is the classic Levenshtein distance of
the two byte sequences: it equals the usual recursive definition; some sequence
of that many single-element insertions, deletions and substitutions turns `s1`
into `s2`, and no sequence of fewer does, whether the edits are counted along
one pass from left to right or applied one after the other at any positions;
the helper `min` returns the least of its three arguments. -/
theorem levenshtein_is_classic (s1 s2 : GoString) :
    levenshteinDistance s1 s2 = classicLevenshtein s1 s2 ∧
      EditChain (levenshteinDistance s1 s2) s1 s2 ∧
      (∀ n, EditChain n s1 s2 → levenshteinDistance s1 s2 ≤ n) ∧
      EditScript s1 s2 (levenshteinDistance s1 s2) ∧
      (∀ n, EditScript s1 s2 n → levenshteinDistance s1 s2 ≤ n) ∧
      (∀ a b c : Nat, min3 a b c = min a (min b c) ∧
        min3 a b c ≤ a ∧ min3 a b c ≤ b ∧ min3 a b c ≤ c ∧
        (min3 a b c = a ∨ min3 a b c = b ∨ min3 a b c = c)) := by
  have heq : levenshteinDistance s1 s2 = editDist s1 s2 := by
    rw [levenshteinDistance_eq_editDist, editDist_reverse]
  refine ⟨?_, ?_, ?_, ?_, ?_, ?_⟩
  · rw [heq, classicLevenshtein_eq_editDist]
  · rw [heq]; exact editChain_of_script (editScript_editDist s1 s2)
  · intro n hn
    rw [heq]
    exact editDist_le_of_chain hn
  · rw [heq]; exact editScript_editDist s1 s2
  · intro n hn
    rw [heq]
    exact editDist_le_of_script hn
  · intro a b c
    have h := min3_eq_min a b c
    refine ⟨h, ?_, ?_, ?_, min3_cases a b c⟩ <;> omega

theorem levenshtein_is_classic_witness :
    levenshteinDistance [97, 98] [98] ≤ 1 :=
  (levenshtein_is_classic [97, 98] [98]).2.2.1 1
    (EditChain.step (EditStep.delete 97 [98]) (EditChain.refl [98]))

/-! ### The Advanced result against the Hash result -/

theorem comparison_fold_savings (clusters : List DuplicateCluster) :
    ∀ acc : Int × Int × ℚ,
      wrapInt64 (clusters.foldl (fun (acc : Int × Int × ℚ) cluster =>
        let duplicateCount := wrapInt64 (cluster.Count - 1)
        let clusterConfidence := cluster.Candidates.foldl (fun total candidate =>
          roundFloat64 (total + roundFloat64 candidate.Confidence)) 0
        (wrapInt64 (acc.1 + duplicateCount),
          wrapInt64 (acc.2.1 + wrapInt64 (duplicateCount * cluster.Size)),
          if cluster.Candidates.length > 0 then
            roundFloat64 (acc.2.2 +
              roundFloat64 (clusterConfidence / roundFloat64 cluster.Candidates.length))
          else acc.2.2)) acc).2.1 = wrapInt64 (acc.2.1 + potentialSavings clusters) ∧
      (wrapInt64 acc.2.1 = acc.2.1 →
        wrapInt64 (clusters.foldl (fun (acc : Int × Int × ℚ) cluster =>
          let duplicateCount := wrapInt64 (cluster.Count - 1)
          let clusterConfidence := cluster.Candidates.foldl (fun total candidate =>
            roundFloat64 (total + roundFloat64 candidate.Confidence)) 0
          (wrapInt64 (acc.1 + duplicateCount),
            wrapInt64 (acc.2.1 + wrapInt64 (duplicateCount * cluster.Size)),
            if cluster.Candidates.length > 0 then
              roundFloat64 (acc.2.2 +
                roundFloat64 (clusterConfidence / roundFloat64 cluster.Candidates.length))
            else acc.2.2)) acc).2.1 =
        (clusters.foldl (fun (acc : Int × Int × ℚ) cluster =>
          let duplicateCount := wrapInt64 (cluster.Count - 1)
          let clusterConfidence := cluster.Candidates.foldl (fun total candidate =>
            roundFloat64 (total + roundFloat64 candidate.Confidence)) 0
          (wrapInt64 (acc.1 + duplicateCount),
            wrapInt64 (acc.2.1 + wrapInt64 (duplicateCount * cluster.Size)),
            if cluster.Candidates.length > 0 then
              roundFloat64 (acc.2.2 +
                roundFloat64 (clusterConfidence / roundFloat64 cluster.Candidates.length))
            else acc.2.2)) acc).2.1) := by
  induction clusters with
  | nil => intro acc; simp [potentialSavings]
  | cons c rest ih =>
    intro acc
    rw [List.foldl_cons]
    obtain ⟨h1, h2⟩ := ih (wrapInt64 (acc.1 + wrapInt64 (c.Count - 1)),
      wrapInt64 (acc.2.1 + wrapInt64 (wrapInt64 (c.Count - 1) * c.Size)),
      if c.Candidates.length > 0 then
        roundFloat64 (acc.2.2 + roundFloat64 (c.Candidates.foldl (fun total candidate =>
          roundFloat64 (total + roundFloat64 candidate.Confidence)) 0 /
            roundFloat64 c.Candidates.length))
      else acc.2.2)
    refine ⟨h1.trans ?_, fun _ => h2 (wrapInt64_idem _)⟩
    simp only [potentialSavings, List.map_cons, List.sum_cons]
    obtain ⟨k1, hk1⟩ := wrapInt64_eq_add (c.Count - 1)
    obtain ⟨k2, hk2⟩ := wrapInt64_eq_add (wrapInt64 (c.Count - 1) * c.Size)
    obtain ⟨k3, hk3⟩ := wrapInt64_eq_add (acc.2.1 + wrapInt64 (wrapInt64 (c.Count - 1) * c.Size))
    rw [hk3, hk2, hk1, show acc.2.1 + ((c.Count - 1 + 2 ^ 64 * k1) * c.Size + 2 ^ 64 * k2) +
        2 ^ 64 * k3 + (rest.map (fun c => (c.Count - 1) * c.Size)).sum =
      acc.2.1 + ((c.Count - 1) * c.Size + (rest.map (fun c => (c.Count - 1) * c.Size)).sum) +
        2 ^ 64 * (k1 * c.Size + k2 + k3) by ring,
      wrapInt64_add_mul]

theorem entrySavings_ok (clusters : List DuplicateCluster) :
    entrySavings (comparisonEntry (.ok clusters)) = wrapInt64 (potentialSavings clusters) := by
  obtain ⟨h1, h2⟩ := comparison_fold_savings clusters (0, 0, 0)
  have h := (h2 rfl).symm.trans h1
  simp only [zero_add] at h
  unfold entrySavings comparisonEntry
  simp only [assertGinH]
  have hl : ∀ (a b c d : GinValue),
      List.lookup (ascii "potential_savings")
        [(ascii "total_clusters", a), (ascii "total_duplicates", b),
          (ascii "potential_savings", c), (ascii "avg_confidence", d)] = some c := by
    intro a b c d
    rfl
  rw [hl]
  simp only [assertInt64]
  exact h

theorem comparisonEntry_isGinH (r : Except GoError (List DuplicateCluster)) :
    ∃ fields, comparisonEntry r = .ginH fields := by
  cases r with
  | error e => exact ⟨_, rfl⟩
  | ok clusters => exact ⟨_, rfl⟩

theorem compareStrategies_lookup (L : Lib) (db : MetadataSource) (uid : UUID) :
    (compareStrategies L db uid).lookup (ascii "hash") =
        some (comparisonEntry (DetectDuplicates L db uid StrategyHash)) ∧
      (compareStrategies L db uid).lookup (ascii "advanced") =
        some (comparisonEntry (DetectDuplicates L db uid StrategyAdvanced)) :=
  ⟨rfl, rfl⟩

theorem recommendation_of_comparison (L : Lib) (db : MetadataSource) (uid : UUID) :
    getStrategyRecommendation (compareStrategies L db uid) =
      if entrySavings (comparisonEntry (DetectDuplicates L db uid StrategyHash)) > 0 then
        recommendHashAccurate
      else if entrySavings (comparisonEntry (DetectDuplicates L db uid StrategyAdvanced)) >
          wrapInt64 (entrySavings (comparisonEntry (DetectDuplicates L db uid StrategyHash)) * 2)
          then
        recommendAdvanced
      else recommendHashDefault := by
  obtain ⟨h1, h2⟩ := compareStrategies_lookup L db uid
  obtain ⟨f1, hf1⟩ := comparisonEntry_isGinH (DetectDuplicates L db uid StrategyHash)
  obtain ⟨f2, hf2⟩ := comparisonEntry_isGinH (DetectDuplicates L db uid StrategyAdvanced)
  rw [getStrategyRecommendation_eq, h1, h2]
  unfold entrySavings
  rw [hf1, hf2]
  simp only [assertGinH, Bool.and_self, if_true]

theorem sum_filter_split {α : Type} (f : α → Int) (p : α → Bool) :
    ∀ l : List α, (l.map f).sum =
      ((l.filter p).map f).sum + ((l.filter (fun x => !p x)).map f).sum := by
  intro l
  induction l with
  | nil => rfl
  | cons a l ih =>
    by_cases h : p a = true
    · rw [List.filter_cons_of_pos h, List.filter_cons_of_neg (by simp [h])]
      simp only [List.map_cons, List.sum_cons]
      rw [ih]; ring
    · rw [List.filter_cons_of_neg h, List.filter_cons_of_pos (by simpa using h)]
      simp only [List.map_cons, List.sum_cons]
      rw [ih]; ring

theorem sum_nonneg_of_forall {α : Type} (f : α → Int) :
    ∀ l : List α, (∀ x ∈ l, 0 ≤ f x) → 0 ≤ (l.map f).sum := by
  intro l
  induction l with
  | nil => intro _; simp
  | cons a l ih =>
    intro h
    rw [List.map_cons, List.sum_cons]
    have h1 := h a (List.mem_cons_self _ _)
    have h2 := ih (fun x hx => h x (List.mem_cons_of_mem _ hx))
    omega

theorem deduplicate_hash_filter (L : Lib) (hL : L.SortOK) (cs : List DuplicateCluster)
    (hpw : cs.Pairwise
      (fun a b => a.Strategy = StrategyHash → b.Strategy = StrategyHash → ¬ SharesFile a b)) :
    ((deduplicateClusters L cs).filter (fun c => decide (c.Strategy = StrategyHash))).Perm
      (cs.filter (fun c => decide (c.Strategy = StrategyHash))) := by
  obtain ⟨hperm, hsorted⟩ := hL priorityLess cs
  have hsorted := hsorted priorityLess_strictWeakOrder
  have hfirst : (L.sortSlice priorityLess cs).Pairwise
      (fun a b => b.Strategy = StrategyHash → a.Strategy = StrategyHash) := by
    refine hsorted.imp ?_
    intro a b hba hb
    by_contra ha
    have : priorityLess b a = true := by
      rw [priorityLess_iff]
      left
      rw [hb]
      exact Nat.pos_of_ne_zero ha
    rw [hba] at this
    exact Bool.noConfusion this
  have hpw2 : (L.sortSlice priorityLess cs).Pairwise
      (fun a b => a.Strategy = StrategyHash → b.Strategy = StrategyHash → ¬ SharesFile a b) :=
    (hperm.pairwise_iff
      (R := fun a b => a.Strategy = StrategyHash → b.Strategy = StrategyHash → ¬ SharesFile a b)
      (fun hab hb ha hs => hab ha hb (sharesFile_symm hs))).mpr hpw
  have hkeep := selectClusters_keeps_hash (L.sortSlice priorityLess cs) [] hfirst hpw2
    (fun _ _ _ _ _ => List.not_mem_nil _)
  unfold deduplicateClusters
  rw [hkeep]
  exact hperm.filter _

theorem hashGroup_has_member {table : List File} {userID : UUID} {row : HashGroupRow}
    (h : row ∈ hashGroupsOf table userID) :
    ∃ f ∈ table, f.UserID = userID ∧ f.SHA256 = row.SHA256 ∧ f.Size = row.Size ∧
      row.SHA256 ≠ [] := by
  have hkey : (row.SHA256, row.Size) ∈
      (hashGroupsOf table userID).map (fun row => (row.SHA256, row.Size)) :=
    List.mem_map_of_mem (fun row : HashGroupRow => (row.SHA256, row.Size)) h
  obtain ⟨hsha, hlen⟩ := (mem_hashGroupsOf_keys table userID row.SHA256 row.Size).mp hkey
  have hne : filesWithHashAndSize table userID row.SHA256 row.Size ≠ [] := by
    intro h0
    rw [h0] at hlen
    simp at hlen
  obtain ⟨f, hf⟩ := List.exists_mem_of_ne_nil _ hne
  unfold filesWithHashAndSize at hf
  obtain ⟨hft, hfp⟩ := List.mem_filter.mp hf
  simp only [decide_eq_true_eq] at hfp
  exact ⟨f, hft, hfp.1, hfp.2.1, hfp.2.2, hsha⟩

theorem hashClusters_pairwise (L : Lib) (table : List File) (userID : UUID)
    (hpk : (table.map (fun f => f.ID)).Nodup) (hone : OneSizePerHash table userID) :
    ((hashGroupsOf table userID).map
      (fun row => hashCluster L row (filesByHashOf table userID row.SHA256))).Pairwise
      (fun a b => ¬ SharesFile a b) := by
  rw [List.pairwise_map]
  have hkeys := hashGroupsOf_keys_nodup table userID
  rw [List.Nodup, List.pairwise_map] at hkeys
  refine List.Pairwise.imp_of_mem ?_ hkeys
  intro r1 r2 hr1 hr2 hne
  rintro ⟨x, hx, y, hy, hxy⟩
  simp only [hashCluster, List.mem_map] at hx hy
  obtain ⟨f1, hf1, rfl⟩ := hx
  obtain ⟨f2, hf2, rfl⟩ := hy
  simp only [] at hxy
  have hm1 := List.mem_filter.mp ((filesByHashOf_perm table userID r1.SHA256).mem_iff.mp hf1)
  have hm2 := List.mem_filter.mp ((filesByHashOf_perm table userID r2.SHA256).mem_iff.mp hf2)
  have hs1 := hm1.2
  have hs2 := hm2.2
  simp only [decide_eq_true_eq] at hs1 hs2
  have heq : f1 = f2 := primaryKey_injective hpk hm1.1 hm2.1 hxy
  have hsha : r1.SHA256 = r2.SHA256 := by rw [← hs1.2, ← hs2.2, heq]
  obtain ⟨g1, hg1, hu1, hh1, hz1, hn1⟩ := hashGroup_has_member hr1
  obtain ⟨g2, hg2, hu2, hh2, hz2, _⟩ := hashGroup_has_member hr2
  have hsize : g1.Size = g2.Size :=
    hone g1 hg1 g2 hg2 hu1 hu2 (by rw [hh1]; exact hn1) (by rw [hh1, hh2, hsha])
  apply hne
  rw [Prod.mk.injEq]
  exact ⟨hsha, by rw [← hz1, ← hz2, hsize]⟩

theorem sizeGroupsOf_size_pos {table : List File} {userID : UUID} {row : SizeGroupRow}
    (h : row ∈ sizeGroupsOf table userID) : row.Size > 0 := by
  unfold sizeGroupsOf at h
  rw [(List.perm_insertionSort _ _).mem_iff, List.mem_filter, List.mem_map] at h
  obtain ⟨⟨k, hk, rfl⟩, _⟩ := h
  rw [List.mem_dedup, List.mem_map] at hk
  obtain ⟨f0, hf0, hf0k⟩ := hk
  have := (List.mem_filter.mp hf0).2
  simp only [decide_eq_true_eq] at this
  simp only []
  rw [← hf0k]
  exact this.2

theorem sizeName_cluster_savings {L : Lib} {table : List File} {userID : UUID}
    {ns : List DuplicateCluster} (h : detectBySizeAndName L (tableSource table) userID = .ok ns) :
    ∀ c ∈ ns, c.Strategy = StrategySizeAndName ∧ 0 ≤ (c.Count - 1) * c.Size := by
  intro c hc
  obtain ⟨sizeClusters, sc, hsc, hscm, hcr⟩ := mem_detectBySizeAndName h hc
  obtain ⟨entry, _, hlen, hstrat, hsize, hcount, _, _, _⟩ := mem_refineSizeCluster hcr
  refine ⟨hstrat, ?_⟩
  rw [detectBySize_tableSource] at hsc
  simp only [Except.ok.injEq] at hsc
  subst hsc
  obtain ⟨row, hrow, rfl⟩ := List.mem_map.mp hscm
  have hpos := sizeGroupsOf_size_pos hrow
  have hsz : c.Size = row.Size := hsize
  rw [hcount, hsz]
  have h2 : (2 : Int) ≤ (entry.2.length : Int) := by exact_mod_cast hlen
  apply mul_nonneg <;> omega

theorem detectBySizeAndName_tableSource (L : Lib) (table : List File) (userID : UUID) :
    detectBySizeAndName L (tableSource table) userID =
      .ok (((sizeGroupsOf table userID).map
        (fun row => sizeCluster L row (filesBySizeOf table userID row.Size))).flatMap
          (refineSizeCluster L)) := by
  unfold detectBySizeAndName
  rw [detectBySize_tableSource]

theorem detectAdvanced_tableSource (L : Lib) (table : List File) (userID : UUID) :
    detectAdvanced L (tableSource table) userID =
      .ok (rankBySavings L (deduplicateClusters L
        ((hashGroupsOf table userID).map
            (fun row => hashCluster L row (filesByHashOf table userID row.SHA256)) ++
          ((sizeGroupsOf table userID).map
            (fun row => sizeCluster L row (filesBySizeOf table userID row.Size))).flatMap
              (refineSizeCluster L)))) := by
  unfold detectAdvanced
  rw [detectByHash_tableSource, detectBySizeAndName_tableSource]

theorem advanced_against_hash (L : Lib) (hL : L.SortOK) (table : List File) (userID : UUID)
    (hpk : (table.map (fun f => f.ID)).Nodup) (hone : OneSizePerHash table userID)
    (hs adv : List DuplicateCluster)
    (hhash : detectByHash L (tableSource table) userID = .ok hs)
    (hadv : detectAdvanced L (tableSource table) userID = .ok adv) :
    (adv.filter (fun c => decide (c.Strategy = StrategyHash))).Perm hs ∧
      potentialSavings hs ≤ potentialSavings adv := by
  have hns := detectBySizeAndName_tableSource L table userID
  have hnsProp := sizeName_cluster_savings hns
  rw [detectByHash_tableSource] at hhash
  rw [detectAdvanced_tableSource] at hadv
  simp only [Except.ok.injEq] at hhash hadv
  have hpwHash := hashClusters_pairwise L table userID hpk hone
  rw [hhash] at hpwHash hadv
  have hsStrat : ∀ c ∈ hs, c.Strategy = StrategyHash := by
    intro c hc
    rw [← hhash] at hc
    obtain ⟨row, _, rfl⟩ := List.mem_map.mp hc
    rfl
  generalize hnsdef : ((sizeGroupsOf table userID).map
      (fun row => sizeCluster L row (filesBySizeOf table userID row.Size))).flatMap
        (refineSizeCluster L) = ns at hadv hnsProp
  have hnsNot : ∀ c ∈ ns, ¬ c.Strategy = StrategyHash := by
    intro c hc hcs
    have := (hnsProp c hc).1
    rw [hcs] at this
    exact absurd this (by decide)
  have hpwAll : (hs ++ ns).Pairwise
      (fun a b => a.Strategy = StrategyHash → b.Strategy = StrategyHash → ¬ SharesFile a b) := by
    rw [List.pairwise_append]
    refine ⟨hpwHash.imp (fun h _ _ => h), ?_, ?_⟩
    · exact List.pairwise_of_forall_mem_list (fun a ha b _ has _ => absurd has (hnsNot a ha))
    · intro a _ b hb _ hbs
      exact absurd hbs (hnsNot b hb)
  have hfilter := deduplicate_hash_filter L hL (hs ++ ns) hpwAll
  have hall : (hs ++ ns).filter (fun c => decide (c.Strategy = StrategyHash)) = hs := by
    rw [List.filter_append, List.filter_eq_self.mpr (fun c hc => by simpa using hsStrat c hc),
      List.filter_eq_nil_iff.mpr (fun c hc => by simpa using hnsNot c hc), List.append_nil]
  rw [hall] at hfilter
  have hrank : adv.Perm (deduplicateClusters L (hs ++ ns)) := by
    rw [← hadv]
    exact (hL savingsLess _).1
  have hsubset : ∀ c ∈ deduplicateClusters L (hs ++ ns), c ∈ hs ++ ns := by
    intro c hc
    exact (hL priorityLess (hs ++ ns)).1.subset ((selectClusters_sublist _ _).subset hc)
  constructor
  · exact (hrank.filter _).trans hfilter
  · have hsum : potentialSavings adv = potentialSavings (deduplicateClusters L (hs ++ ns)) := by
      unfold potentialSavings
      exact (hrank.map _).sum_eq
    rw [hsum]
    unfold potentialSavings
    rw [sum_filter_split (fun c => (c.Count - 1) * c.Size)
      (fun c => decide (c.Strategy = StrategyHash)) (deduplicateClusters L (hs ++ ns))]
    rw [(hfilter.map (fun c => (c.Count - 1) * c.Size)).sum_eq]
    have hrest : 0 ≤ (((deduplicateClusters L (hs ++ ns)).filter
        (fun c => !decide (c.Strategy = StrategyHash))).map
          (fun c => (c.Count - 1) * c.Size)).sum := by
      apply sum_nonneg_of_forall
      intro c hc
      obtain ⟨hcD, hcn⟩ := List.mem_filter.mp hc
      have hcn2 : ¬ c.Strategy = StrategyHash := by simpa using hcn
      rcases List.mem_append.mp (hsubset c hcD) with h1 | h1
      · exact absurd (hsStrat c h1) hcn2
      · exact (hnsProp c h1).2
    omega

theorem hash_savings_nonneg (L : Lib) (table : List File) (userID : UUID)
    (hsize : ∀ f ∈ table, 0 ≤ f.Size) (hs : List DuplicateCluster)
    (hhash : detectByHash L (tableSource table) userID = .ok hs) :
    0 ≤ potentialSavings hs := by
  rw [detectByHash_tableSource] at hhash
  simp only [Except.ok.injEq] at hhash
  subst hhash
  unfold potentialSavings
  apply sum_nonneg_of_forall
  intro c hc
  obtain ⟨row, hrow, rfl⟩ := List.mem_map.mp hc
  obtain ⟨f, hf, _, _, hfs, _⟩ := hashGroup_has_member hrow
  have hcount := (mem_hashGroupsOf_total hrow).2
  have h0 : 0 ≤ row.Size := by rw [← hfs]; exact hsize f hf
  simp only [hashCluster]
  apply mul_nonneg <;> omega

/-- C30 (counterexample): the rows of `hugePairs` have distinct IDs,
non-negative sizes and one size per hash, and the Hash strategy finds four
pairs with potential savings of 14000000000000000006 bytes; the `int64`
accumulators of the comparison wrap to -4446744073709551610 for Hash and for
Advanced, and the recommendation is the Advanced strategy. -/
theorem advanced_recommended_despite_hash_savings :
    (hugePairs.map (fun f => f.ID)).Nodup ∧ (∀ f ∈ hugePairs, 0 ≤ f.Size) ∧
      OneSizePerHash hugePairs 1 ∧
      (DetectDuplicates refLib (tableSource hugePairs) 1 StrategyHash).map
        (fun r => (potentialSavings r, entrySavings (comparisonEntry (.ok r)))) =
          .ok (14000000000000000006, -4446744073709551610) ∧
      (DetectDuplicates refLib (tableSource hugePairs) 1 StrategyAdvanced).map
        (fun r => (potentialSavings r, entrySavings (comparisonEntry (.ok r)))) =
          .ok (14000000000000000006, -4446744073709551610) ∧
      getStrategyRecommendation (compareStrategies refLib (tableSource hugePairs) 1) =
        recommendAdvanced := by
  refine ⟨by decide, by decide, ?_, by decide!, by decide!, by decide!⟩
  unfold OneSizePerHash
  decide

/-- C30: over a table whose rows have distinct IDs and in which every non-empty
content hash of the user is carried by rows of one size only, and under the
contract of `sort.Slice`, the Hash and the Advanced strategy both succeed, the
Advanced result contains every cluster of the Hash result (its Hash clusters are
exactly those), and the sum of `(Count - 1) * Size` over the Advanced result is
at least the sum over the Hash result. The comparison stores each sum reduced to
an `int64`. When no row has a negative size and the Advanced sum is below 2^63,
both stored values are the sums themselves, and the comparison recommends the
Advanced strategy exactly when the Hash savings are 0 and the Advanced savings
are positive. -/
theorem advanced_contains_hash_result (L : Lib) (hL : L.SortOK) (table : List File)
    (userID : UUID) (hpk : (table.map (fun f => f.ID)).Nodup)
    (hone : OneSizePerHash table userID) :
    ∃ hashResult advancedResult,
      DetectDuplicates L (tableSource table) userID StrategyHash = .ok hashResult ∧
      DetectDuplicates L (tableSource table) userID StrategyAdvanced = .ok advancedResult ∧
      (∀ c ∈ hashResult, c ∈ advancedResult) ∧
      (advancedResult.filter (fun c => decide (c.Strategy = StrategyHash))).Perm hashResult ∧
      potentialSavings hashResult ≤ potentialSavings advancedResult ∧
      entrySavings (comparisonEntry (.ok hashResult)) = wrapInt64 (potentialSavings hashResult) ∧
      entrySavings (comparisonEntry (.ok advancedResult)) =
        wrapInt64 (potentialSavings advancedResult) ∧
      ((∀ f ∈ table, 0 ≤ f.Size) → potentialSavings advancedResult < 2 ^ 63 →
        0 ≤ potentialSavings hashResult ∧
        entrySavings (comparisonEntry (.ok hashResult)) = potentialSavings hashResult ∧
        entrySavings (comparisonEntry (.ok advancedResult)) = potentialSavings advancedResult ∧
        (getStrategyRecommendation (compareStrategies L (tableSource table) userID) =
            recommendAdvanced ↔
          potentialSavings hashResult = 0 ∧ 0 < potentialSavings advancedResult)) := by
  have hH : DetectDuplicates L (tableSource table) userID StrategyHash =
      detectByHash L (tableSource table) userID := rfl
  have hA : DetectDuplicates L (tableSource table) userID StrategyAdvanced =
      detectAdvanced L (tableSource table) userID := rfl
  have hhash := detectByHash_tableSource L table userID
  have hadv := detectAdvanced_tableSource L table userID
  generalize hhs : (hashGroupsOf table userID).map
      (fun row => hashCluster L row (filesByHashOf table userID row.SHA256)) = hs at hhash hadv
  generalize hadvdef : rankBySavings L (deduplicateClusters L
      (hs ++ ((sizeGroupsOf table userID).map
        (fun row => sizeCluster L row (filesBySizeOf table userID row.Size))).flatMap
          (refineSizeCluster L))) = adv at hadv
  obtain ⟨hfilter, hle⟩ := advanced_against_hash L hL table userID hpk hone hs adv hhash hadv
  have hrec := recommendation_of_comparison L (tableSource table) userID
  rw [hH, hA, hhash, hadv, entrySavings_ok, entrySavings_ok] at hrec
  obtain ⟨h12, h13, h23⟩ := recommendation_texts_distinct
  refine ⟨hs, adv, by rw [hH, hhash], by rw [hA, hadv], ?_, hfilter, hle, entrySavings_ok hs,
    entrySavings_ok adv, ?_⟩
  · intro c hc
    have := hfilter.mem_iff.mpr hc
    exact (List.mem_filter.mp this).1
  · intro hsize hfit
    have h0 := hash_savings_nonneg L table userID hsize hs hhash
    have hwh : wrapInt64 (potentialSavings hs) = potentialSavings hs :=
      wrapInt64_of_range _ (by norm_num; omega) (by omega)
    have hwa : wrapInt64 (potentialSavings adv) = potentialSavings adv :=
      wrapInt64_of_range _ (by norm_num; omega) hfit
    refine ⟨h0, by rw [entrySavings_ok, hwh], by rw [entrySavings_ok, hwa], ?_⟩
    rw [hrec, hwh, hwa]
    by_cases h1 : potentialSavings hs > 0
    · rw [if_pos h1]
      constructor
      · intro h; exact absurd h h12
      · intro h; omega
    · have hzero : potentialSavings hs = 0 := by omega
      rw [if_neg h1, hzero]
      have hw0 : wrapInt64 ((0 : Int) * 2) = 0 := by decide
      rw [hw0]
      by_cases h2 : potentialSavings adv > 0
      · rw [if_pos h2]
        exact ⟨fun _ => ⟨rfl, h2⟩, fun _ => rfl⟩
      · rw [if_neg h2]
        exact ⟨fun h => absurd h.symm h23, fun h => absurd h.2 h2⟩

theorem recommendation_threeNamePairs :
    getStrategyRecommendation (compareStrategies refLib (tableSource threeNamePairs) 1) =
      recommendAdvanced := by
  decide!

theorem advanced_contains_hash_result_witness :
    refLib.SortOK ∧ (fourFiles.map (fun f => f.ID)).Nodup ∧ OneSizePerHash fourFiles 1 ∧
      ∃ hashResult advancedResult,
        DetectDuplicates refLib (tableSource fourFiles) 1 StrategyHash = .ok hashResult ∧
        DetectDuplicates refLib (tableSource fourFiles) 1 StrategyAdvanced = .ok advancedResult ∧
        (∀ c ∈ hashResult, c ∈ advancedResult) ∧
        potentialSavings hashResult ≤ potentialSavings advancedResult := by
  have hone : OneSizePerHash fourFiles 1 := by
    unfold OneSizePerHash
    decide
  obtain ⟨hs, adv, h1, h2, h3, _, h5, _⟩ :=
    advanced_contains_hash_result refLib refLib_sortOK fourFiles 1 (by decide) hone
  exact ⟨refLib_sortOK, by decide, hone, hs, adv, h1, h2, h3, h5⟩

/-- Without the non-negative sizes of the data model the Hash savings can be
negative: two rows of size -5 with one hash give Hash and Advanced savings of
-5, and the comparison recommends the Advanced strategy. -/
theorem recommendation_negative_sizes :
    (DetectDuplicates refLib (tableSource negativeSizeFiles) 1 StrategyHash).map potentialSavings =
        .ok (-5) ∧
      (DetectDuplicates refLib (tableSource negativeSizeFiles) 1 StrategyAdvanced).map
        potentialSavings = .ok (-5) ∧
      getStrategyRecommendation (compareStrategies refLib (tableSource negativeSizeFiles) 1) =
        recommendAdvanced := by
  decide!

end PureSpace
